import Mathlib

/-!
A shallow embedding of AVL.h

`AVL<Key, T>` is a pointer-linked AVL tree: every node carries a key, an element,
a cached height and three links (`parent`, `leftSon`, `rightSon`).  The embedding
keeps the pointer structure: node addresses are natural numbers, the store is a
finite-use map from addresses to node records, and every member function is
translated statement by statement into the `Option` monad, where `none` stands for
behaviour the C++ program does not define (a null or dangling dereference, a failed
`assert`) or for a loop that does not terminate within its fuel.

`int` fields (`size`, `height`) are unbounded integers: the theorems below are about
trees far smaller than `2^31` nodes.  `assert(checkInvariant())`, the whole-tree
validator run before every return of `insert` and `remove`, is embedded as
`AVL.assertInvariant`: a call whose final state fails the validator is undefined.
-/

/-- The exception class `ELEMENT_NOT_FOUND`. -/
inductive ELEMENT_NOT_FOUND where
  | mk
deriving DecidableEq, Repr

/-- The class template `Pair<First, Second>`. -/
structure Pair (First Second : Type) where
  first : First
  second : Second
deriving DecidableEq, Repr

/-- The class `AVL<Key, T>::Node`; a `Node*` is an `Option Nat` (`none` is `NULL`). -/
structure AVL.Node (K V : Type) where
  key : K
  element : V
  parent : Option Nat
  leftSon : Option Nat
  rightSon : Option Nat
  height : Int
deriving DecidableEq, Repr

/-- The store: the node record living at each address, if any. -/
abbrev AVL.Mem (K V : Type) := Nat → Option (AVL.Node K V)

/-- The class `AVL<Key, T>`: the members `root` and `size`, together with the store
the nodes live in, the next address `new` hands out, and the address of the object
itself (`this`, which iterators remember). -/
structure AVL (K V : Type) where
  self : Nat
  root : Option Nat
  size : Int
  mem : AVL.Mem K V
  fresh : Nat

/-- The class `AVL<Key, T>::Iterator`: the pair `(avl, current)`. -/
structure AVL.Iterator where
  avl : Nat
  current : Option Nat
deriving DecidableEq, Repr

/-- A `Node**`: the address of the `root` member or of a son field of a node. -/
inductive AVL.Slot where
  | root
  | leftSon (p : Nat)
  | rightSon (p : Nat)
deriving DecidableEq, Repr

namespace AVL

variable {K V : Type}

/-- Store a node record at an address. -/
def Mem.write (m : Mem K V) (p : Nat) (n : Node K V) : Mem K V :=
  fun q => if q = p then some n else m q

/-- Release an address (`delete`). -/
def Mem.free (m : Mem K V) (p : Nat) : Mem K V :=
  fun q => if q = p then none else m q

/-- Assignment `p->parent = x`. -/
def Mem.setParent (m : Mem K V) (p : Nat) (x : Option Nat) : Option (Mem K V) :=
  match m p with
  | none => none
  | some n => some (m.write p { n with parent := x })

/-- Assignment `p->leftSon = x`. -/
def Mem.setLeftSon (m : Mem K V) (p : Nat) (x : Option Nat) : Option (Mem K V) :=
  match m p with
  | none => none
  | some n => some (m.write p { n with leftSon := x })

/-- Assignment `p->rightSon = x`. -/
def Mem.setRightSon (m : Mem K V) (p : Nat) (x : Option Nat) : Option (Mem K V) :=
  match m p with
  | none => none
  | some n => some (m.write p { n with rightSon := x })

/-- Read `p->parent`. -/
def Mem.getParent (m : Mem K V) (p : Nat) : Option (Option Nat) :=
  match m p with
  | none => none
  | some n => some n.parent

/-- Read `p->leftSon`. -/
def Mem.getLeftSon (m : Mem K V) (p : Nat) : Option (Option Nat) :=
  match m p with
  | none => none
  | some n => some n.leftSon

/-- Read `p->rightSon`. -/
def Mem.getRightSon (m : Mem K V) (p : Nat) : Option (Option Nat) :=
  match m p with
  | none => none
  | some n => some n.rightSon

/-- Read `p->height`. -/
def Mem.getHeight (m : Mem K V) (p : Nat) : Option Int :=
  match m p with
  | none => none
  | some n => some n.height

/-- Assignment `p->height = x`. -/
def Mem.setHeight (m : Mem K V) (p : Nat) (x : Int) : Option (Mem K V) :=
  match m p with
  | none => none
  | some n => some (m.write p { n with height := x })

/-- Read through a `Node**`. -/
def load (s : AVL K V) : Slot → Option (Option Nat)
  | Slot.root => some s.root
  | Slot.leftSon p => s.mem.getLeftSon p
  | Slot.rightSon p => s.mem.getRightSon p

/-- Write through a `Node**`. -/
def store (s : AVL K V) : Slot → Option Nat → Option (AVL K V)
  | Slot.root, x => some { s with root := x }
  | Slot.leftSon p, x =>
    match s.mem.setLeftSon p x with
    | none => none
    | some m => some { s with mem := m }
  | Slot.rightSon p, x =>
    match s.mem.setRightSon p x with
    | none => none
    | some m => some { s with mem := m }

/-- Member function `AVL<Key, T>::Node::updateHeight` (AVL.h 510-519), run on the node at `p`. -/
def Node.updateHeight (m : Mem K V) (p : Nat) : Option (Mem K V) :=
  match m.setHeight p 0 with
  | none => none
  | some m1 =>
  match m1.getLeftSon p with
  | none => none
  | some l =>
  match (match l with
    | none => some m1
    | some lp =>
      match m1.getHeight lp with
      | none => none
      | some hl => m1.setHeight p (hl + 1)) with
  | none => none
  | some m2 =>
  match m2.getRightSon p with
  | none => none
  | some none => some m2
  | some (some rp) =>
    match m2.getHeight rp, m2.getHeight p with
    | some hr, some h => if hr ≥ h then m2.setHeight p (hr + 1) else some m2
    | _, _ => none

/-- Member function `AVL<Key, T>::Node::calcBF` (AVL.h 521-532), run on the node at `p`. -/
def Node.calcBF (m : Mem K V) (p : Nat) : Option Int :=
  match m p with
  | none => none
  | some n =>
  match (match n.leftSon with
    | none => some (-1 : Int)
    | some l => m.getHeight l) with
  | none => none
  | some BF =>
  match n.rightSon with
  | none => some (BF + 1)
  | some r =>
    match m.getHeight r with
    | none => none
    | some hr => some (BF + 1 - (hr + 1))

/-- Member function `AVL<Key, T>::Node::validateBF` (AVL.h 534-545); the recursion is bounded by fuel. -/
def Node.validateBF : Nat → Mem K V → Nat → Option Bool
  | 0, _, _ => none
  | fuel + 1, m, p =>
    match Node.calcBF m p, m p with
    | some BF, some n =>
      if ¬ (BF < 2 ∧ BF > -2) then some false
      else
        match (match n.leftSon with
          | none => some true
          | some l => Node.validateBF fuel m l) with
        | none => none
        | some false => some false
        | some true =>
          match (match n.rightSon with
            | none => some true
            | some r => Node.validateBF fuel m r) with
          | none => none
          | some false => some false
          | some true => some true
    | _, _ => none

/-- The constructor `Node(key, element, parent, leftSon, rightSon)` behind `new`
(AVL.h 475-486): the record is placed at the next free address with height 0 and
`updateHeight` is run on it.  Returns the new state and the new address. -/
def Node.new (s : AVL K V) (key : K) (element : V)
    (parent leftSon rightSon : Option Nat) : Option (AVL K V × Nat) :=
  match Node.updateHeight (s.mem.write s.fresh
      { key := key, element := element, parent := parent,
        leftSon := leftSon, rightSon := rightSon, height := 0 }) s.fresh with
  | none => none
  | some m => some ({ s with mem := m, fresh := s.fresh + 1 }, s.fresh)

/-- The constructor `AVL()` (AVL.h 80-83) for the object at address `self`, in a
given store. -/
def new (self : Nat) (mem : Mem K V) (fresh : Nat) : AVL K V :=
  { self := self, root := none, size := 0, mem := mem, fresh := fresh }

/-- Member function `AVL<Key, T>::getSize` (AVL.h 435-438). -/
def getSize (s : AVL K V) : Int := s.size

/-- Member function `AVL<Key, T>::end` (AVL.h 449-452). -/
def «end» (s : AVL K V) : Iterator := { avl := s.self, current := none }

/-- Member function `AVL<Key, T>::Iterator::operator*` (AVL.h 568-574): `none` is a dangling
dereference, `some (Except.error _)` the thrown exception. -/
def Iterator.deref (it : Iterator) (m : Mem K V) : Option (Except ELEMENT_NOT_FOUND V) :=
  match it.current with
  | none => some (Except.error ELEMENT_NOT_FOUND.mk)
  | some p =>
    match m p with
    | none => none
    | some n => some (Except.ok n.element)

/-- Member function `AVL<Key, T>::Iterator::operator==` (AVL.h 576-580). -/
def Iterator.eq (a b : Iterator) : Bool :=
  a.avl == b.avl && a.current == b.current

/-- Member function `AVL<Key, T>::Iterator::operator!=` (AVL.h 582-586). -/
def Iterator.ne (a b : Iterator) : Bool := !(Iterator.eq a b)

/-- The statement `if (p) p->parent = x`. -/
def Mem.setParentIf (m : Mem K V) (p : Option Nat) (x : Option Nat) : Option (Mem K V) :=
  match p with
  | none => some m
  | some t => m.setParent t x

/-- The grandparent relinking shared by both rotations (AVL.h 248-255, 276-283):
`if (!grandParent) root = node; else if (grandParent->rightSon == node->parent)
grandParent->rightSon = node; else grandParent->leftSon = node;`. -/
def relinkGrandParent (s : AVL K V) (node : Nat) (grandParent : Option Nat) :
    Option (AVL K V) :=
  match grandParent with
  | none => some { s with root := some node }
  | some g =>
    match s.mem.getRightSon g, s.mem.getParent node with
    | some gr, some np =>
      if gr = np then
        match s.mem.setRightSon g (some node) with
        | none => none
        | some m => some { s with mem := m }
      else
        match s.mem.setLeftSon g (some node) with
        | none => none
        | some m => some { s with mem := m }
    | _, _ => none

/-- Member function `AVL<Key, T>::rotateRight` (AVL.h 237-263). -/
def rotateRight (s : AVL K V) (node : Nat) : Option (AVL K V) :=
  -- assert(node->parent); Node* tmp = node->rightSon;
  match s.mem.getParent node, s.mem.getRightSon node with
  | some (some par), some tmp =>
    -- if (tmp) tmp->parent = node->parent;
    match s.mem.setParentIf tmp (some par) with
    | none => none
    | some m1 =>
    -- node->rightSon = node->parent;
    match m1.getParent node with
    | none => none
    | some np1 =>
    match m1.setRightSon node np1 with
    | none => none
    | some m2 =>
    -- Node* grandParent = node->parent->parent;
    match m2.getParent node with
    | some (some par2) =>
      match m2.getParent par2 with
      | none => none
      | some grandParent =>
      match relinkGrandParent { s with mem := m2 } node grandParent with
      | none => none
      | some s3 =>
      -- node->parent = node->parent->parent;
      match s3.mem.getParent node with
      | some (some par3) =>
        match s3.mem.getParent par3 with
        | none => none
        | some gp3 =>
        match s3.mem.setParent node gp3 with
        | none => none
        | some m4 =>
        -- node->rightSon->parent = node;
        match m4.getRightSon node with
        | some (some r4) =>
          match m4.setParent r4 (some node) with
          | none => none
          | some m5 =>
          -- node->rightSon->leftSon = tmp;
          match m5.getRightSon node with
          | some (some r5) =>
            match m5.setLeftSon r5 tmp with
            | none => none
            | some m6 =>
            -- node->rightSon->updateHeight(); node->updateHeight();
            match m6.getRightSon node with
            | some (some r6) =>
              match Node.updateHeight m6 r6 with
              | none => none
              | some m7 =>
              match Node.updateHeight m7 node with
              | none => none
              | some m8 => some { s3 with mem := m8 }
            | _ => none
          | _ => none
        | _ => none
      | _ => none
    | _ => none
  | _, _ => none

/-- Member function `AVL<Key, T>::rotateLeft` (AVL.h 265-291). -/
def rotateLeft (s : AVL K V) (node : Nat) : Option (AVL K V) :=
  -- assert(node->parent); Node* tmp = node->leftSon;
  match s.mem.getParent node, s.mem.getLeftSon node with
  | some (some par), some tmp =>
    -- if (tmp) tmp->parent = node->parent;
    match s.mem.setParentIf tmp (some par) with
    | none => none
    | some m1 =>
    -- node->leftSon = node->parent;
    match m1.getParent node with
    | none => none
    | some np1 =>
    match m1.setLeftSon node np1 with
    | none => none
    | some m2 =>
    -- Node* grandParent = node->parent->parent;
    match m2.getParent node with
    | some (some par2) =>
      match m2.getParent par2 with
      | none => none
      | some grandParent =>
      match relinkGrandParent { s with mem := m2 } node grandParent with
      | none => none
      | some s3 =>
      -- node->parent = node->parent->parent;
      match s3.mem.getParent node with
      | some (some par3) =>
        match s3.mem.getParent par3 with
        | none => none
        | some gp3 =>
        match s3.mem.setParent node gp3 with
        | none => none
        | some m4 =>
        -- node->leftSon->parent = node;
        match m4.getLeftSon node with
        | some (some l4) =>
          match m4.setParent l4 (some node) with
          | none => none
          | some m5 =>
          -- node->leftSon->rightSon = tmp;
          match m5.getLeftSon node with
          | some (some l5) =>
            match m5.setRightSon l5 tmp with
            | none => none
            | some m6 =>
            -- node->leftSon->updateHeight(); node->updateHeight();
            match m6.getLeftSon node with
            | some (some l6) =>
              match Node.updateHeight m6 l6 with
              | none => none
              | some m7 =>
              match Node.updateHeight m7 node with
              | none => none
              | some m8 => some { s3 with mem := m8 }
            | _ => none
          | _ => none
        | _ => none
      | _ => none
    | _ => none
  | _, _ => none

/-- The body of `if (BF == 2)` in `balance` (AVL.h 149-155): a single right
rotation at the left son, or the double rotation. -/
def rebalanceLeftHeavy (s : AVL K V) (node : Nat) : Option (AVL K V) :=
  match s.mem.getLeftSon node with
  | some (some l) =>
    match Node.calcBF s.mem l with
    | none => none
    | some bl =>
      if bl > -1 then rotateRight s l
      else
        -- assert(node->leftSon->rightSon);
        match s.mem.getRightSon l with
        | some (some lr) =>
          match rotateLeft s lr with
          | none => none
          | some s1 =>
            match s1.mem.getLeftSon node with
            | some (some l1) => rotateRight s1 l1
            | _ => none
        | _ => none
  | _ => none

/-- The body of `if (BF == -2)` in `balance` (AVL.h 161-167): a single left
rotation at the right son, or the double rotation. -/
def rebalanceRightHeavy (s : AVL K V) (node : Nat) : Option (AVL K V) :=
  match s.mem.getRightSon node with
  | some (some r) =>
    match Node.calcBF s.mem r with
    | none => none
    | some br =>
      if br < 1 then rotateLeft s r
      else
        -- assert(node->rightSon->leftSon);
        match s.mem.getLeftSon r with
        | some (some rl) =>
          match rotateRight s rl with
          | none => none
          | some s1 =>
            match s1.mem.getRightSon node with
            | some (some r1) => rotateLeft s1 r1
            | _ => none
        | _ => none
  | _ => none

/-- Member function `AVL<Key, T>::balance` (AVL.h 143-175); the recursion towards the root is
bounded by fuel. -/
def balance : Nat → AVL K V → Nat → Bool → Option (AVL K V)
  | 0, _, _, _ => none
  | fuel + 1, s, node, onInsert =>
    -- node->updateHeight(); int BF = node->calcBF(); Node* next = node->parent;
    match Node.updateHeight s.mem node with
    | none => none
    | some m =>
    match Node.calcBF m node, m.getParent node with
    | some BF, some next =>
      match (if BF = 2 then rebalanceLeftHeavy { s with mem := m } node
             else some { s with mem := m }) with
      | none => none
      | some s1 =>
      if BF = 2 ∧ onInsert = true then some s1
      else
      match (if BF = -2 then rebalanceRightHeavy s1 node else some s1) with
      | none => none
      | some s2 =>
      if BF = -2 ∧ onInsert = true then some s2
      else
      match next with
      | none => some s2
      | some p => balance fuel s2 p onInsert
    | _, _ => none

/-- The call `swap(a->parent, b->parent)` with the template `swap` of AVL.h 20-25. -/
def swapParent (m : Mem K V) (a b : Nat) : Option (Mem K V) :=
  match m.getParent a, m.getParent b with
  | some tmp, some vb =>
    match m.setParent a vb with
    | none => none
    | some m1 => m1.setParent b tmp
  | _, _ => none

/-- The call `swap(a->leftSon, b->leftSon)`. -/
def swapLeftSon (m : Mem K V) (a b : Nat) : Option (Mem K V) :=
  match m.getLeftSon a, m.getLeftSon b with
  | some tmp, some vb =>
    match m.setLeftSon a vb with
    | none => none
    | some m1 => m1.setLeftSon b tmp
  | _, _ => none

/-- The call `swap(a->rightSon, b->rightSon)`. -/
def swapRightSon (m : Mem K V) (a b : Nat) : Option (Mem K V) :=
  match m.getRightSon a, m.getRightSon b with
  | some tmp, some vb =>
    match m.setRightSon a vb with
    | none => none
    | some m1 => m1.setRightSon b tmp
  | _, _ => none

/-- The call `swap(a->height, b->height)`. -/
def swapHeight (m : Mem K V) (a b : Nat) : Option (Mem K V) :=
  match m.getHeight a, m.getHeight b with
  | some tmp, some vb =>
    match m.setHeight a vb with
    | none => none
    | some m1 => m1.setHeight b tmp
  | _, _ => none

/-- Member function `AVL<Key, T>::fixSwapSelfAssignment` (AVL.h 189-213); it touches only nodes. -/
def fixSwapSelfAssignment (m : Mem K V) (node swappedWith : Nat) : Option (Mem K V) :=
  match m.getParent node with
  | none => none
  | some np =>
  if np = some node then
    match m.setParent node (some swappedWith) with
    | none => none
    | some m1 =>
    match m1.getLeftSon swappedWith with
    | none => none
    | some sl =>
    if sl = some swappedWith then m1.setLeftSon swappedWith (some node)
    else
      -- assert(swappedWith->rightSon == swappedWith);
      match m1.getRightSon swappedWith with
      | none => none
      | some sr =>
        if sr = some swappedWith then m1.setRightSon swappedWith (some node) else none
  else
  match m.getLeftSon node with
  | none => none
  | some nl =>
  if nl = some node then
    match m.setLeftSon node (some swappedWith) with
    | none => none
    | some m1 =>
    -- assert(swappedWith->parent == swappedWith);
    match m1.getParent swappedWith with
    | none => none
    | some sp =>
      if sp = some swappedWith then m1.setParent swappedWith (some node) else none
  else
  match m.getRightSon node with
  | none => none
  | some nr =>
  if nr = some node then
    match m.setRightSon node (some swappedWith) with
    | none => none
    | some m1 =>
    -- assert(swappedWith->parent == swappedWith);
    match m1.getParent swappedWith with
    | none => none
    | some sp =>
      if sp = some swappedWith then m1.setParent swappedWith (some node) else none
  else some m

/-- Member function `AVL<Key, T>::updateNodeRelatives` (AVL.h 215-234). -/
def updateNodeRelatives (s : AVL K V) (node swappedWith : Nat) : Option (AVL K V) :=
  -- if (node->leftSon) node->leftSon->parent = node;
  match s.mem.getLeftSon node with
  | none => none
  | some l =>
  match s.mem.setParentIf l (some node) with
  | none => none
  | some m1 =>
  -- if (node->rightSon) node->rightSon->parent = node;
  match m1.getRightSon node with
  | none => none
  | some r =>
  match m1.setParentIf r (some node) with
  | none => none
  | some m2 =>
  match m2.getParent node with
  | none => none
  | some none => some { s with root := some node, mem := m2 }
  | some (some par) =>
    match m2.getLeftSon par, m2.getRightSon par with
    | some pl, some pr =>
      if pl = some swappedWith then
        match m2.setLeftSon par (some node) with
        | none => none
        | some m3 => some { s with mem := m3 }
      else if pr = some swappedWith then
        match m2.setRightSon par (some node) with
        | none => none
        | some m3 => some { s with mem := m3 }
      else
        -- assert(node->parent == swappedWith);
        if par = swappedWith then some { s with mem := m2 } else none
    | _, _ => none

/-- Member function `AVL<Key, T>::swapNodes` (AVL.h 178-187). -/
def swapNodes (s : AVL K V) (a b : Nat) : Option (AVL K V) :=
  match swapParent s.mem a b with
  | none => none
  | some m1 =>
  match swapLeftSon m1 a b with
  | none => none
  | some m2 =>
  match swapRightSon m2 a b with
  | none => none
  | some m3 =>
  match swapHeight m3 a b with
  | none => none
  | some m4 =>
  match fixSwapSelfAssignment m4 a b with
  | none => none
  | some m5 =>
  match updateNodeRelatives { s with mem := m5 } a b with
  | none => none
  | some s6 => updateNodeRelatives s6 b a

/-- The loop of `AVL<Key, T>::findAux` (AVL.h 304-313), entered with `*tmp` non-null. -/
def findAuxLoop [LinearOrder K] : Nat → AVL K V → K → Slot → Option Slot
  | 0, _, _, _ => none
  | fuel + 1, s, key, tmp =>
    match s.load tmp with
    | some (some cur) =>
      match s.mem cur with
      | none => none
      | some n =>
        if ¬ (n.key < key) ∧ ¬ (key < n.key) then some tmp
        else
          match s.load (if key < n.key then Slot.leftSon cur else Slot.rightSon cur) with
          | none => none
          | some none => some (if key < n.key then Slot.leftSon cur else Slot.rightSon cur)
          | some (some _) =>
            findAuxLoop fuel s key (if key < n.key then Slot.leftSon cur else Slot.rightSon cur)
    | _ => none

/-- Member function `AVL<Key, T>::findAux` (AVL.h 298-315). -/
def findAux [LinearOrder K] (s : AVL K V) (key : K) : Option Slot :=
  match s.root with
  | none => some Slot.root
  | some _ => findAuxLoop (s.fresh + 1) s key Slot.root

/-- Member function `AVL<Key, T>::find` (AVL.h 293-296). -/
def find [LinearOrder K] (s : AVL K V) (key : K) : Option Iterator :=
  match findAux s key with
  | none => none
  | some slot =>
    match s.load slot with
    | none => none
    | some p => some { avl := s.self, current := p }

/-- The expression `*find(key)`: `find` followed by `Iterator::operator*`. -/
def findDeref [LinearOrder K] (s : AVL K V) (key : K) : Option (Except ELEMENT_NOT_FOUND V) :=
  match find s key with
  | none => none
  | some it => it.deref s.mem

/-- Member function `AVL<Key, T>::checkInvariant` (AVL.h 440-447); `assert(!size)` fails as `none`. -/
def checkInvariant (s : AVL K V) : Option Bool :=
  match s.root with
  | none => if s.size = 0 then some true else none
  | some r => Node.validateBF (s.fresh + 1) s.mem r

/-- The statements `assert(checkInvariant()); return r;` that end every path of
`insert` and `remove` (AVL.h 115-116, 133-134, 139-140, 320-321, 330-331): the
assertion fails, as `none`, unless the validator returns true. -/
def assertInvariant {α : Type} (s : AVL K V) (r : α) : Option (AVL K V × α) :=
  match checkInvariant s with
  | some true => some (s, r)
  | _ => none

/-- The `while (current)` loop of `AVL<Key, T>::insert` with the statements after
it (AVL.h 120-140). -/
def insertLoop [LinearOrder K] :
    Nat → AVL K V → K → V → Option Nat → Option (AVL K V × Pair Iterator Bool)
  | 0, _, _, _, _ => none
  | fuel + 1, s, key, element, current =>
    match current with
    | none =>
      -- size--; assert(checkInvariant()); return Pair<Iterator, bool>(Iterator(this, current), false);
      assertInvariant { s with size := s.size - 1 }
        { first := { avl := s.self, current := current }, second := false }
    | some c =>
      match s.mem c with
      | none => none
      | some n =>
        if ¬ (n.key < key) ∧ ¬ (key < n.key) then
          -- break; size--; assert(checkInvariant()); return ... false
          assertInvariant { s with size := s.size - 1 }
            { first := { avl := s.self, current := current }, second := false }
        else
          match s.load (if key < n.key then Slot.leftSon c else Slot.rightSon c) with
          | none => none
          | some (some nx) => insertLoop fuel s key element (some nx)
          | some none =>
            -- *next = new Node(key, element, current, NULL, NULL);
            match Node.new s key element (some c) none none with
            | none => none
            | some (s1, p) =>
            match s1.store (if key < n.key then Slot.leftSon c else Slot.rightSon c) (some p) with
            | none => none
            | some s2 =>
            match s2.load (if key < n.key then Slot.leftSon c else Slot.rightSon c) with
            | none => none
            | some it =>
            match balance (s2.fresh + 1) s2 c true with
            | none => none
            | some s3 =>
              -- assert(checkInvariant()); return returnPair;
              assertInvariant s3 { first := { avl := s.self, current := it }, second := true }

/-- Member function `AVL<Key, T>::insert` (AVL.h 109-141). -/
def insert [LinearOrder K] (s : AVL K V) (key : K) (element : V) :
    Option (AVL K V × Pair Iterator Bool) :=
  match s.root with
  | none =>
    match Node.new { s with size := s.size + 1 } key element none none none with
    | none => none
    | some (s1, p) =>
      -- assert(checkInvariant()); return Pair<Iterator, bool>(Iterator(this, root), true);
      assertInvariant { s1 with root := some p }
        { first := { avl := s.self, current := some p }, second := true }
  | some _ => insertLoop (s.fresh + 1) { s with size := s.size + 1 } key element s.root

/-- Member function `AVL<Key, T>::removeNodeWithOneSonOrLess` (AVL.h 334-356). -/
def removeNodeWithOneSonOrLess (s : AVL K V) (node : Nat) : Option (AVL K V) :=
  match s.mem node with
  | none => none
  | some n =>
  -- Node* parent = node->parent; Node* son = node->rightSon; if (!son) son = node->leftSon;
  -- if (son) son->parent = parent;
  match s.mem.setParentIf (if n.rightSon.isSome then n.rightSon else n.leftSon) n.parent with
  | none => none
  | some m1 =>
  match (match n.parent with
    | none => some { s with root := (if n.rightSon.isSome then n.rightSon else n.leftSon), mem := m1 }
    | some par =>
      match m1.getLeftSon par, m1.getRightSon par with
      | some pl, some pr =>
        if pl = some node then
          match m1.setLeftSon par (if n.rightSon.isSome then n.rightSon else n.leftSon) with
          | none => none
          | some m2 => some { s with mem := m2 }
        else if pr = some node then
          match m1.setRightSon par (if n.rightSon.isSome then n.rightSon else n.leftSon) with
          | none => none
          | some m2 => some { s with mem := m2 }
        else none -- assert(!parent);
      | _, _ => none) with
  | none => none
  | some s2 =>
  -- delete node; if (parent) balance(parent);
  match n.parent with
  | none => some { s2 with mem := s2.mem.free node }
  | some par => balance (s2.fresh + 1) { s2 with mem := s2.mem.free node } par false

/-- The loop `while (tmp->leftSon) tmp = tmp->leftSon;` (AVL.h 362-364). -/
def leftmostLoop : Nat → Mem K V → Nat → Option Nat
  | 0, _, _ => none
  | fuel + 1, m, tmp =>
    match m.getLeftSon tmp with
    | none => none
    | some none => some tmp
    | some (some l) => leftmostLoop fuel m l

/-- Member function `AVL<Key, T>::removeNodeWithTwoSons` (AVL.h 358-367). -/
def removeNodeWithTwoSons (s : AVL K V) (node : Nat) : Option (AVL K V) :=
  -- assert(node->rightSon); Node* tmp = node->rightSon;
  match s.mem.getRightSon node with
  | some (some r) =>
    match leftmostLoop (s.fresh + 1) s.mem r with
    | none => none
    | some tmp =>
      match swapNodes s node tmp with
      | none => none
      | some s1 => removeNodeWithOneSonOrLess s1 node
  | _ => none

/-- Member function `AVL<Key, T>::remove` (AVL.h 317-332). -/
def remove [LinearOrder K] (s : AVL K V) (key : K) : Option (AVL K V × Bool) :=
  match findAux s key with
  | none => none
  | some slot =>
  match s.load slot with
  | none => none
  -- if (!node) { assert(checkInvariant()); return false; }
  | some none => assertInvariant s false
  | some (some node) =>
    match s.mem node with
    | none => none
    | some n =>
      match (if n.leftSon.isSome ∧ n.rightSon.isSome then removeNodeWithTwoSons s node
             else removeNodeWithOneSonOrLess s node) with
      | none => none
      -- size--; assert(checkInvariant()); return true;
      | some s1 => assertInvariant { s1 with size := s1.size - 1 } true

/-- The loop `while (tmp->rightSon) tmp = tmp->rightSon;` of `max` (AVL.h 460-462). -/
def maxLoop : Nat → Mem K V → Nat → Option Nat
  | 0, _, _ => none
  | fuel + 1, m, tmp =>
    match m.getRightSon tmp with
    | none => none
    | some none => some tmp
    | some (some r) => maxLoop fuel m r

/-- Member function `AVL<Key, T>::max` (AVL.h 454-464). -/
def max (s : AVL K V) : Option Iterator :=
  match s.root with
  | none => some { avl := s.self, current := none }
  | some r =>
    match maxLoop (s.fresh + 1) s.mem r with
    | none => none
    | some p => some { avl := s.self, current := some p }

/-- Member function `AVL<Key, T>::inOrderAux` (AVL.h 376-385).  The functor is a
callable object taking the element by reference: it is a function from its own
state and the element to its new state and the (possibly updated) element.  The
recursion is bounded by fuel. -/
def inOrderAux {F : Type} :
    Nat → Mem K V → Option Nat → (F → V → F × V) → F → Option (Mem K V × F)
  | 0, _, _, _, _ => none
  | fuel + 1, m, current, functor, st =>
    -- if (!current) return;
    match current with
    | none => some (m, st)
    | some c =>
      -- inOrderAux(current->leftSon, functor);
      match m.getLeftSon c with
      | none => none
      | some l =>
      match inOrderAux fuel m l functor st with
      | none => none
      | some (m1, st1) =>
      -- functor(current->element);
      match m1 c with
      | none => none
      | some n =>
      -- inOrderAux(current->rightSon, functor);
      match (m1.write c { n with element := (functor st1 n.element).2 }).getRightSon c with
      | none => none
      | some r =>
        inOrderAux fuel (m1.write c { n with element := (functor st1 n.element).2 }) r
          functor (functor st1 n.element).1

/-- Member function `AVL<Key, T>::inOrder` (AVL.h 370-374). -/
def inOrder {F : Type} (s : AVL K V) (functor : F → V → F × V) (st : F) :
    Option (AVL K V × F) :=
  match inOrderAux (s.fresh + 1) s.mem s.root functor st with
  | none => none
  | some (m, st1) => some ({ s with mem := m }, st1)

/-- Member function `AVL<Key, T>::destructorAux` (AVL.h 424-432); the recursion is
bounded by fuel. -/
def destructorAux : Nat → Mem K V → Option Nat → Option (Mem K V)
  | 0, _, _ => none
  | fuel + 1, m, current =>
    match current with
    | none => some m
    | some c =>
      match m.getLeftSon c with
      | none => none
      | some l =>
      match destructorAux fuel m l with
      | none => none
      | some m1 =>
      match m1.getRightSon c with
      | none => none
      | some r =>
      match destructorAux fuel m1 r with
      | none => none
      | some m2 =>
        -- delete current;
        match m2 c with
        | none => none
        | some _ => some (m2.free c)

/-- The statement `if (son) newNode->son = son->copyNodes(newNode);` of `copyNodes`
(AVL.h 499-504), for either son: `copyNodes` is the recursive call and `setSon` the
assignment to the son field of `newNode`. -/
def Node.copySon (copyNodes : AVL K V → Nat → Option Nat → Option (AVL K V × Nat))
    (setSon : Mem K V → Nat → Option Nat → Option (Mem K V))
    (s : AVL K V) (son : Option Nat) (newNode : Nat) : Option (AVL K V) :=
  match son with
  | none => some s
  | some sp =>
    match copyNodes s sp (some newNode) with
    | none => none
    | some (s1, c) =>
      match setSon s1.mem newNode (some c) with
      | none => none
      | some m => some { s1 with mem := m }

/-- Member function `AVL<Key, T>::Node::copyNodes` (AVL.h 497-508), run on the node
at `this`; the state supplies the store and the allocator.  Returns the new state
and `newNode`.  The recursion is bounded by fuel. -/
def Node.copyNodes : Nat → AVL K V → Nat → Option Nat → Option (AVL K V × Nat)
  | 0, _, _, _ => none
  | fuel + 1, s, this, father =>
    match s.mem this with
    | none => none
    | some n =>
    -- Node* newNode = new Node(key, element, father, NULL, NULL);
    match Node.new s n.key n.element father none none with
    | none => none
    | some (s1, newNode) =>
    -- if (leftSon) newNode->leftSon = leftSon->copyNodes(newNode);
    match s1.mem.getLeftSon this with
    | none => none
    | some l =>
    match Node.copySon (Node.copyNodes fuel) Mem.setLeftSon s1 l newNode with
    | none => none
    | some s3 =>
    -- if (rightSon) newNode->rightSon = rightSon->copyNodes(newNode);
    match s3.mem.getRightSon this with
    | none => none
    | some r =>
    match Node.copySon (Node.copyNodes fuel) Mem.setRightSon s3 r newNode with
    | none => none
    | some s5 =>
    -- newNode->updateHeight(); return newNode;
    match Node.updateHeight s5.mem newNode with
    | none => none
    | some m => some ({ s5 with mem := m }, newNode)

/-- The copy constructor `AVL(const AVL& avl)` (AVL.h 85-91) for a new object at
address `self`, in the store of `avl`. -/
def copy (self : Nat) (avl : AVL K V) : Option (AVL K V) :=
  -- root(NULL), size(avl.size)
  match avl.root with
  | none => some { self := self, root := none, size := avl.size, mem := avl.mem, fresh := avl.fresh }
  | some r =>
    match Node.copyNodes (avl.fresh + 1)
        { self := self, root := none, size := avl.size, mem := avl.mem, fresh := avl.fresh }
        r none with
    | none => none
    | some (s1, c) => some { s1 with root := some c }

/-- The statements `Node* nodesCopy = NULL; if (avl.root) nodesCopy =
avl.root->copyNodes(NULL);` of `operator=` (AVL.h 99-102). -/
def copyRoot (s : AVL K V) (root : Option Nat) : Option (AVL K V × Option Nat) :=
  match root with
  | none => some (s, none)
  | some r =>
    match Node.copyNodes (s.fresh + 1) s r none with
    | none => none
    | some (s1, c) => some (s1, some c)

/-- Member function `AVL<Key, T>::operator=` (AVL.h 93-107).  Both objects live in
the store of `s` (the assigned object); of `avl` the members `root` and `size` and
its address are read. -/
def assign (s avl : AVL K V) : Option (AVL K V) :=
  -- if (this == &avl) return *this;
  if s.self = avl.self then some s
  else
    match copyRoot s avl.root with
    | none => none
    | some (s1, nodesCopy) =>
      -- destructorAux(root); size = avl.size; root = nodesCopy;
      match destructorAux (s1.fresh + 1) s1.mem s1.root with
      | none => none
      | some m => some { s1 with mem := m, size := avl.size, root := nodesCopy }

/-! ## The logical tree a store represents

The specification speaks about "the tree": its nodes, their keys, subtree heights.  `Tree`
is that object, read off the store: every node records its address, key, element
and cached height.  `Rep s t` says that the store of `s` holds exactly the linked
nodes of `t` below `s.root`, with consistent parent links and pairwise distinct
addresses. -/

/-- A binary tree of nodes `(address, key, element, cached height)`. -/
inductive Tree (K V : Type) where
  | nil : Tree K V
  | node (a : Nat) (l : Tree K V) (k : K) (v : V) (h : Int) (r : Tree K V) : Tree K V
deriving DecidableEq, Repr

/-- The pointer to the root node of a tree (`NULL` for the empty tree). -/
def Tree.ptr : Tree K V → Option Nat
  | Tree.nil => none
  | Tree.node a _ _ _ _ _ => some a

/-- The addresses of the nodes, in order. -/
def Tree.addrs : Tree K V → List Nat
  | Tree.nil => []
  | Tree.node a l _ _ _ r => l.addrs ++ a :: r.addrs

/-- The nodes `(address, key, element)` in in-order sequence. -/
def Tree.entries : Tree K V → List (Nat × K × V)
  | Tree.nil => []
  | Tree.node a l k v _ r => l.entries ++ (a, k, v) :: r.entries

/-- The keys in in-order sequence. -/
def Tree.keys : Tree K V → List K
  | Tree.nil => []
  | Tree.node _ l k _ _ r => l.keys ++ k :: r.keys

/-- The number of nodes. -/
def Tree.count : Tree K V → Nat
  | Tree.nil => 0
  | Tree.node _ l _ _ _ r => l.count + 1 + r.count

/-- The true height of a tree: `-1` for the absent tree, `0` for a single node. -/
def Tree.height : Tree K V → Int
  | Tree.nil => -1
  | Tree.node _ l _ _ _ r => 1 + Max.max l.height r.height

/-- BST ordering at every node: the keys of the left subtree are smaller than the
node's key, those of the right subtree greater. -/
def Tree.BST [LinearOrder K] : Tree K V → Prop
  | Tree.nil => True
  | Tree.node _ l k _ _ r =>
    (∀ x ∈ l.keys, x < k) ∧ (∀ x ∈ r.keys, k < x) ∧ l.BST ∧ r.BST

/-- Balance at every node: the true heights of the two subtrees differ by at most 1. -/
def Tree.Balanced : Tree K V → Prop
  | Tree.nil => True
  | Tree.node _ l _ _ _ r =>
    l.height - r.height ≤ 1 ∧ r.height - l.height ≤ 1 ∧ l.Balanced ∧ r.Balanced

/-- Every cached height is `1 + max` of the true heights of the two subtrees. -/
def Tree.HeightsOK : Tree K V → Prop
  | Tree.nil => True
  | Tree.node _ l _ _ h r =>
    h = 1 + Max.max l.height r.height ∧ l.HeightsOK ∧ r.HeightsOK

/-- The store holds the nodes of `t`, linked as in `t`, the root's parent link
being `par`. -/
def Linked (m : Mem K V) : Option Nat → Tree K V → Prop
  | _, Tree.nil => True
  | par, Tree.node a l k v h r =>
    m a = some { key := k, element := v, parent := par,
                 leftSon := l.ptr, rightSon := r.ptr, height := h }
    ∧ Linked m (some a) l ∧ Linked m (some a) r

/-- One step of a path from a node up to the root: the node on the path, with the
subtree on the other side. -/
inductive Frame (K V : Type) where
  | inL (a : Nat) (k : K) (v : V) (h : Int) (r : Tree K V) : Frame K V
  | inR (a : Nat) (l : Tree K V) (k : K) (v : V) (h : Int) : Frame K V
deriving DecidableEq, Repr

/-- The address of the node of a frame. -/
def Frame.addr : Frame K V → Nat
  | Frame.inL a _ _ _ _ => a
  | Frame.inR a _ _ _ _ => a

/-- The cached height of the node of a frame. -/
def Frame.h : Frame K V → Int
  | Frame.inL _ _ _ h _ => h
  | Frame.inR _ _ _ _ h => h

/-- The subtree hanging off the path at a frame. -/
def Frame.sib : Frame K V → Tree K V
  | Frame.inL _ _ _ _ r => r
  | Frame.inR _ l _ _ _ => l

/-- Put a subtree into the hole of a frame. -/
def Frame.fill : Frame K V → Tree K V → Tree K V
  | Frame.inL a k v h r, t => Tree.node a t k v h r
  | Frame.inR a l k v h, t => Tree.node a l k v h t

/-- Put a subtree into the hole of a path (innermost frame first). -/
def plug : List (Frame K V) → Tree K V → Tree K V
  | [], t => t
  | f :: fs, t => plug fs (f.fill t)

/-- The parent link of the node in the hole of a path, `par` being the parent link
of the topmost node. -/
def ctxPar : List (Frame K V) → Option Nat → Option Nat
  | [], par => par
  | f :: _, _ => some f.addr

/-- The pointer to the topmost node once the pointer in the hole is `hole`: for the
empty path the hole is the top. -/
def newTop : List (Frame K V) → Option Nat → Option Nat → Option Nat
  | [], hole, _ => hole
  | _ :: _, _, top => top

/-- The `Node**` of the hole of a path: the `root` member for the empty path, a son
field of the innermost node otherwise. -/
def ctxSlot : List (Frame K V) → Slot
  | [] => Slot.root
  | Frame.inL a _ _ _ _ :: _ => Slot.leftSon a
  | Frame.inR a _ _ _ _ :: _ => Slot.rightSon a

/-- The addresses on a path and in the subtrees hanging off it. -/
def ctxAddrs : List (Frame K V) → List Nat
  | [] => []
  | f :: fs => f.addr :: f.sib.addrs ++ ctxAddrs fs

/-- The store holds the nodes of a path and of the subtrees hanging off it: `hole`
is the pointer in the hole, `par` the parent link of the topmost node, `top` the
pointer to the topmost node (what the slot above the path holds). -/
def LinkedPath (m : Mem K V) : List (Frame K V) → Option Nat → Option Nat → Option Nat → Prop
  | [], hole, _, top => top = hole
  | Frame.inL a k v h r :: fs, hole, par, top =>
    m a = some { key := k, element := v, parent := ctxPar fs par,
                 leftSon := hole, rightSon := r.ptr, height := h }
    ∧ Linked m (some a) r ∧ LinkedPath m fs (some a) par top
  | Frame.inR a l k v h :: fs, hole, par, top =>
    m a = some { key := k, element := v, parent := ctxPar fs par,
                 leftSon := l.ptr, rightSon := hole, height := h }
    ∧ Linked m (some a) l ∧ LinkedPath m fs (some a) par top

/-- The state `s` holds the tree `plug ctx t`, seen from the subtree `t`: the path
`ctx` leads from `t` up to `s.root`, all addresses are distinct and allocated. -/
def ZRep (s : AVL K V) (ctx : List (Frame K V)) (t : Tree K V) : Prop :=
  LinkedPath s.mem ctx t.ptr none s.root ∧ Linked s.mem (ctxPar ctx none) t
  ∧ (ctxAddrs ctx ++ t.addrs).Nodup ∧ ∀ a ∈ ctxAddrs ctx ++ t.addrs, a < s.fresh

/-- The state `s` holds the tree `t`: `s.root` points to its root, the nodes are
linked as in `t` with consistent parent links, all addresses are distinct and
allocated. -/
def Rep (s : AVL K V) (t : Tree K V) : Prop :=
  s.root = t.ptr ∧ Linked s.mem none t ∧ t.addrs.Nodup ∧ ∀ a ∈ t.addrs, a < s.fresh

/-- The invariants of §3 of the specification for a state: it holds a tree that is
BST ordered, balanced, with correct cached heights, and `size` counts its nodes. -/
def Inv [LinearOrder K] (s : AVL K V) (t : Tree K V) : Prop :=
  Rep s t ∧ t.BST ∧ t.Balanced ∧ t.HeightsOK ∧ s.size = t.count

/-! ## The member functions, read on the logical tree

The functions below do on a `Tree` what the member functions do on the store; the
refinement theorems connect the two, and the invariants are then proved on trees. -/

/-- What a node contributes to its parent's cached height: `0` if absent,
`height + 1` (cached) otherwise. -/
def Tree.h1 : Tree K V → Int
  | Tree.nil => 0
  | Tree.node _ _ _ _ h _ => h + 1

/-- The value `updateHeight` stores in a node with sons `l` and `r`. -/
def Tree.updH (l r : Tree K V) : Int :=
  match r with
  | Tree.nil => l.h1
  | Tree.node _ _ _ _ hr _ => if hr ≥ l.h1 then hr + 1 else l.h1

/-- The value `calcBF` computes in a node with sons `l` and `r`. -/
def Tree.bfC (l r : Tree K V) : Int := l.h1 - r.h1

/-- The call `rotateRight(n)` for `n` the left son of the root `p` of the tree. -/
def Tree.rotateRight : Tree K V → Option (Tree K V)
  | Tree.node p (Tree.node n A kn vn _ B) kp vp _ C =>
    some (Tree.node n A kn vn
      (Tree.updH A (Tree.node p B kp vp (Tree.updH B C) C))
      (Tree.node p B kp vp (Tree.updH B C) C))
  | _ => none

/-- The call `rotateLeft(n)` for `n` the right son of the root `p` of the tree. -/
def Tree.rotateLeft : Tree K V → Option (Tree K V)
  | Tree.node p A kp vp _ (Tree.node n B kn vn _ C) =>
    some (Tree.node n
      (Tree.node p A kp vp (Tree.updH A B) B) kn vn
      (Tree.updH (Tree.node p A kp vp (Tree.updH A B) B) C) C)
  | _ => none

/-- The body of `if (BF == 2)` of `balance` on the subtree at `node`. -/
def Tree.rebalanceLeftHeavy : Tree K V → Option (Tree K V)
  | Tree.node a (Tree.node al ll kl vl hl lr) k v h r =>
    if Tree.bfC ll lr > -1 then
      Tree.rotateRight (Tree.node a (Tree.node al ll kl vl hl lr) k v h r)
    else
      match Tree.rotateLeft (Tree.node al ll kl vl hl lr) with
      | none => none
      | some l1 => Tree.rotateRight (Tree.node a l1 k v h r)
  | _ => none

/-- The body of `if (BF == -2)` of `balance` on the subtree at `node`. -/
def Tree.rebalanceRightHeavy : Tree K V → Option (Tree K V)
  | Tree.node a l k v h (Tree.node ar rl kr vr hr rr) =>
    if Tree.bfC rl rr < 1 then
      Tree.rotateLeft (Tree.node a l k v h (Tree.node ar rl kr vr hr rr))
    else
      match Tree.rotateRight (Tree.node ar rl kr vr hr rr) with
      | none => none
      | some r1 => Tree.rotateLeft (Tree.node a l k v h r1)
  | _ => none

/-- What one call of `balance` does to the subtree at `node` before it returns or
moves on to the parent: the new subtree, and whether a rotation was made. -/
def Tree.balanceStep : Tree K V → Option (Tree K V × Bool)
  | Tree.nil => none
  | Tree.node a l k v _ r =>
    if Tree.bfC l r = 2 then
      match Tree.rebalanceLeftHeavy (Tree.node a l k v (Tree.updH l r) r) with
      | none => none
      | some t => some (t, true)
    else if Tree.bfC l r = -2 then
      match Tree.rebalanceRightHeavy (Tree.node a l k v (Tree.updH l r) r) with
      | none => none
      | some t => some (t, true)
    else some (Tree.node a l k v (Tree.updH l r) r, false)

/-- The call `balance(node, onInsert)` on the tree `plug ctx t`, `t` being the subtree at
`node`: the whole tree it leaves behind. -/
def balanceT (onInsert : Bool) : List (Frame K V) → Tree K V → Option (Tree K V)
  | [], t =>
    match t.balanceStep with
    | none => none
    | some (t1, _) => some t1
  | f :: fs, t =>
    match t.balanceStep with
    | none => none
    | some (t1, rotated) =>
      if rotated = true ∧ onInsert = true then some (plug (f :: fs) t1)
      else balanceT onInsert fs (f.fill t1)

/-- The descent of `findAux` and of `insert`: the subtree whose root carries `key`,
or the empty place where the search ends, with the path leading there. -/
def zoom [LinearOrder K] (key : K) : List (Frame K V) → Tree K V → List (Frame K V) × Tree K V
  | ctx, Tree.nil => (ctx, Tree.nil)
  | ctx, Tree.node a l k v h r =>
    if ¬ (k < key) ∧ ¬ (key < k) then (ctx, Tree.node a l k v h r)
    else if key < k then zoom key (Frame.inL a k v h r :: ctx) l
    else zoom key (Frame.inR a l k v h :: ctx) r

/-- The call `find(key)` on a tree: the address of the node found by the descent. -/
def Tree.lookup [LinearOrder K] (key : K) : Tree K V → Option Nat
  | Tree.nil => none
  | Tree.node a l k _ _ r =>
    if ¬ (k < key) ∧ ¬ (key < k) then some a
    else if key < k then l.lookup key
    else r.lookup key

/-- The element stored under a key, following the same descent. -/
def Tree.get [LinearOrder K] (key : K) : Tree K V → Option V
  | Tree.nil => none
  | Tree.node _ l k v _ r =>
    if ¬ (k < key) ∧ ¬ (key < k) then some v
    else if key < k then l.get key
    else r.get key

/-- The call `insert(key, element)` on a tree, `p` being the address `new` hands out: the
tree left behind, the node the returned iterator points to, and the flag. -/
def insertT [LinearOrder K] (p : Nat) (key : K) (element : V) (t : Tree K V) :
    Option (Tree K V × Option Nat × Bool) :=
  match t with
  | Tree.nil => some (Tree.node p Tree.nil key element 0 Tree.nil, some p, true)
  | Tree.node _ _ _ _ _ _ =>
    match zoom key [] t with
    | (_, Tree.node a _ _ _ _ _) => some (t, some a, false)
    | ([], Tree.nil) => none
    | (f :: fs, Tree.nil) =>
      match balanceT true fs (f.fill (Tree.node p Tree.nil key element 0 Tree.nil)) with
      | none => none
      | some t1 => some (t1, some p, true)

/-- The descent `while (tmp->leftSon) tmp = tmp->leftSon`: the leftmost node of a
non-empty tree with the path leading to it. -/
def zoomLeft : List (Frame K V) → Tree K V → List (Frame K V) × Tree K V
  | ctx, Tree.nil => (ctx, Tree.nil)
  | ctx, Tree.node a Tree.nil k v h r => (ctx, Tree.node a Tree.nil k v h r)
  | ctx, Tree.node a (Tree.node al ll kl vl hl lr) k v h r =>
    zoomLeft (Frame.inL a k v h r :: ctx) (Tree.node al ll kl vl hl lr)

/-- The call `removeNodeWithOneSonOrLess(node)` on the tree `plug ctx t`, `t` being the
subtree at `node`. -/
def removeOneT : List (Frame K V) → Tree K V → Option (Tree K V)
  | _, Tree.nil => none
  | ctx, Tree.node _ l _ _ _ r =>
    match ctx with
    | [] => some (match r with | Tree.nil => l | Tree.node _ _ _ _ _ _ => r)
    | f :: fs =>
      balanceT false fs (f.fill (match r with | Tree.nil => l | Tree.node _ _ _ _ _ _ => r))

/-- The call `removeNodeWithTwoSons(node)` on the tree `plug ctx t`, `t` being the subtree
at `node`: the successor `b` (the leftmost node of the right subtree) takes the
place and the cached height of the node, the node takes the successor's, and is
removed there. -/
def removeTwoT : List (Frame K V) → Tree K V → Option (Tree K V)
  | ctx, Tree.node a l k v h r =>
    match zoomLeft [] r with
    | (path, Tree.node b _ kb vb hb rb) =>
      removeOneT (path ++ Frame.inR b l kb vb h :: ctx) (Tree.node a Tree.nil k v hb rb)
    | _ => none
  | _, Tree.nil => none

/-- The call `remove(key)` on a tree: the tree left behind and the returned flag. -/
def removeT [LinearOrder K] (key : K) (t : Tree K V) : Option (Tree K V × Bool) :=
  match zoom key [] t with
  | (_, Tree.nil) => some (t, false)
  | (ctx, Tree.node a l k v h r) =>
    match (match l, r with
      | Tree.node _ _ _ _ _ _, Tree.node _ _ _ _ _ _ => removeTwoT ctx (Tree.node a l k v h r)
      | _, _ => removeOneT ctx (Tree.node a l k v h r)) with
    | none => none
    | some t1 => some (t1, true)

/-! ## Auxiliary notions for the proofs of the invariants -/

/-- The height of the left subtree of the root (`-1` for the empty tree). -/
def Tree.lh : Tree K V → Int
  | Tree.nil => -1
  | Tree.node _ l _ _ _ _ => l.height

/-- The height of the right subtree of the root (`-1` for the empty tree). -/
def Tree.rh : Tree K V → Int
  | Tree.nil => -1
  | Tree.node _ _ _ _ _ r => r.height

/-- A path whose nodes are balanced and carry correct cached heights, provided the
hole holds a subtree of height `h0` (which is itself balanced with correct heights). -/
def CtxAVL : List (Frame K V) → Int → Prop
  | [], _ => True
  | f :: fs, h0 =>
    f.sib.Balanced ∧ f.sib.HeightsOK ∧ h0 - f.sib.height ≤ 1 ∧ f.sib.height - h0 ≤ 1 ∧
    f.h = 1 + Max.max h0 f.sib.height ∧ CtxAVL fs f.h

/-- The nodes of `plug ctx t` that come before those of `t` in in-order sequence. -/
def ctxL : List (Frame K V) → List (Nat × K × V)
  | [] => []
  | Frame.inL _ _ _ _ _ :: fs => ctxL fs
  | Frame.inR a l k v _ :: fs => ctxL fs ++ (l.entries ++ [(a, k, v)])

/-- The nodes of `plug ctx t` that come after those of `t` in in-order sequence. -/
def ctxR : List (Frame K V) → List (Nat × K × V)
  | [] => []
  | Frame.inL a k v _ r :: fs => (a, k, v) :: r.entries ++ ctxR fs
  | Frame.inR _ _ _ _ _ :: fs => ctxR fs

/-! ## Sequences of calls -/

/-- A call of one of the two mutating member functions. -/
inductive Op (K V : Type) where
  | insert (key : K) (element : V) : Op K V
  | remove (key : K) : Op K V

/-- Run a sequence of calls; besides the final state the result counts the
`insert` calls that returned `inserted = true` and the `remove` calls that returned
`true`. -/
def run [LinearOrder K] : List (Op K V) → AVL K V → Option (AVL K V × Nat × Nat)
  | [], s => some (s, 0, 0)
  | Op.insert key element :: ops, s =>
    match insert s key element with
    | none => none
    | some (s1, r) =>
      match run ops s1 with
      | none => none
      | some (s2, i, d) => some (s2, (if r.second then i + 1 else i), d)
  | Op.remove key :: ops, s =>
    match remove s key with
    | none => none
    | some (s1, b) =>
      match run ops s1 with
      | none => none
      | some (s2, i, d) => some (s2, i, (if b then d + 1 else d))

/-- The states reachable from an empty tree by `insert` and `remove` calls. -/
inductive Reachable [LinearOrder K] : AVL K V → Prop where
  | new (self : Nat) (mem : Mem K V) (fresh : Nat) : Reachable (AVL.new self mem fresh)
  | insert {s s1 : AVL K V} {r : Pair Iterator Bool} (key : K) (element : V) :
      Reachable s → AVL.insert s key element = some (s1, r) → Reachable s1
  | remove {s s1 : AVL K V} {b : Bool} (key : K) :
      Reachable s → AVL.remove s key = some (s1, b) → Reachable s1

/-- The state after a sequence of calls (the state itself if a call is undefined). -/
def exec [LinearOrder K] (ops : List (Op K V)) (s : AVL K V) : AVL K V :=
  match run ops s with
  | some (s1, _, _) => s1
  | none => s

/-- An empty tree of natural numbers in an empty store. -/
def emptyNat : AVL Nat Nat := AVL.new 0 (fun _ => none) 0

/-- The tree after `insert(1, 10); insert(2, 20)` on `emptyNat`. -/
def example12 : AVL Nat Nat := exec [Op.insert 1 10, Op.insert 2 20] emptyNat

/-- The logical tree held by `example12`: node 1 at address 0, its right son 2 at
address 1. -/
def exampleTree12 : Tree Nat Nat :=
  Tree.node 0 Tree.nil 1 10 1 (Tree.node 1 Tree.nil 2 20 0 Tree.nil)

/-- The tree after `insert(2, 20); insert(1, 10); insert(3, 30)` on `emptyNat`. -/
def example213 : AVL Nat Nat := exec [Op.insert 2 20, Op.insert 1 10, Op.insert 3 30] emptyNat

/-- The logical tree held by `example213`: root 2 at address 0 with sons 1 (address
1) and 3 (address 2). -/
def exampleTree213 : Tree Nat Nat :=
  Tree.node 0 (Tree.node 1 Tree.nil 1 10 0 Tree.nil) 2 20 1 (Tree.node 2 Tree.nil 3 30 0 Tree.nil)

/-- The tree after `insert(3, 10)` on `emptyNat` (Scenario D after its first call). -/
def example3 : AVL Nat Nat := exec [Op.insert 3 10] emptyNat

/-- The call `inOrder(functor)` on a tree: the tree with the elements as the functor
left them, and the functor's final state. -/
def Tree.visit {F : Type} (functor : F → V → F × V) : Tree K V → F → Tree K V × F
  | Tree.nil, st => (Tree.nil, st)
  | Tree.node a l k v h r, st =>
    (Tree.node a (l.visit functor st).1 k
        (functor (l.visit functor st).2 v).2 h
        (r.visit functor (functor (l.visit functor st).2 v).1).1,
      (r.visit functor (functor (l.visit functor st).2 v).1).2)

/-- The address of the rightmost node of a tree, where the loop of `max` stops. -/
def Tree.rightmost : Tree K V → Option Nat
  | Tree.nil => none
  | Tree.node a _ _ _ _ Tree.nil => some a
  | Tree.node _ _ _ _ _ (Tree.node b rl kb vb hb rr) => (Tree.node b rl kb vb hb rr).rightmost

/-- The call `copyNodes(father)` on a tree, `p` being the next address `new` hands
out: the copy (its root at `p`, then the copy of the left subtree, then that of the
right subtree, each cached height recomputed from the copied sons) and the next
free address. -/
def copyT : Nat → Tree K V → Tree K V × Nat
  | p, Tree.nil => (Tree.nil, p)
  | p, Tree.node _ l k v _ r =>
    (Tree.node p (copyT (p + 1) l).1 k v
        (Tree.updH (copyT (p + 1) l).1 (copyT (copyT (p + 1) l).2 r).1)
        (copyT (copyT (p + 1) l).2 r).1,
      (copyT (copyT (p + 1) l).2 r).2)

/-- The shape and contents of a tree: the tree with every address forgotten, keeping
the key, element and cached height at every position. -/
def Tree.shape : Tree K V → Tree K V
  | Tree.nil => Tree.nil
  | Tree.node _ l k v h r => Tree.node 0 l.shape k v h r.shape

/-- The number of levels of the tree of a state, read from the store: 0 for an
empty tree, the cached height of the root plus one otherwise. -/
def levels (s : AVL K V) : Option Nat :=
  match s.root with
  | none => some 0
  | some r =>
    match s.mem.getHeight r with
    | none => none
    | some h => some (h + 1).toNat

/-- A functor that appends every element it is given to a list and leaves the
element as it is. -/
def collect (st : List Nat) (v : Nat) : List Nat × Nat := (st ++ [v], v)

/-- Scenario A: the tree after inserting 5, 3, 8, 1, 4, 7, 9 (each with itself as
value) into `emptyNat`. -/
def exampleA : AVL Nat Nat :=
  exec [Op.insert 5 5, Op.insert 3 3, Op.insert 8 8, Op.insert 1 1, Op.insert 4 4,
    Op.insert 7 7, Op.insert 9 9] emptyNat

/-- The logical tree held by `exampleA`; the key inserted `i`-th lives at address
`i - 1`. -/
def exampleTreeA : Tree Nat Nat :=
  Tree.node 0
    (Tree.node 1 (Tree.node 3 Tree.nil 1 1 0 Tree.nil) 3 3 1 (Tree.node 4 Tree.nil 4 4 0 Tree.nil))
    5 5 2
    (Tree.node 2 (Tree.node 5 Tree.nil 7 7 0 Tree.nil) 8 8 1 (Tree.node 6 Tree.nil 9 9 0 Tree.nil))

/-- Scenario B: the tree after inserting 1, 2, ..., 7 in ascending order (each with
itself as value) into `emptyNat`. -/
def exampleB : AVL Nat Nat :=
  exec [Op.insert 1 1, Op.insert 2 2, Op.insert 3 3, Op.insert 4 4, Op.insert 5 5,
    Op.insert 6 6, Op.insert 7 7] emptyNat

/-- The logical tree held by `exampleB`; key `k` lives at address `k - 1`. -/
def exampleTreeB : Tree Nat Nat :=
  Tree.node 3
    (Tree.node 1 (Tree.node 0 Tree.nil 1 1 0 Tree.nil) 2 2 1 (Tree.node 2 Tree.nil 3 3 0 Tree.nil))
    4 4 2
    (Tree.node 5 (Tree.node 4 Tree.nil 5 5 0 Tree.nil) 6 6 1 (Tree.node 6 Tree.nil 7 7 0 Tree.nil))

/-! ## Store and representation: basic facts -/

@[simp] theorem Mem.write_same (m : Mem K V) (p : Nat) (n : Node K V) :
    m.write p n p = some n := by simp [Mem.write]

theorem Mem.write_other (m : Mem K V) {p q : Nat} (n : Node K V) (h : q ≠ p) :
    m.write p n q = m q := by simp [Mem.write, h]

@[simp] theorem Mem.write_write (m : Mem K V) (p : Nat) (n1 n2 : Node K V) :
    (m.write p n1).write p n2 = m.write p n2 := by
  funext q; simp only [Mem.write]; split <;> rfl

theorem Mem.free_other (m : Mem K V) {p q : Nat} (h : q ≠ p) :
    m.free p q = m q := by simp [Mem.free, h]

theorem Tree.ptr_mem_addrs {t : Tree K V} {a : Nat} (h : t.ptr = some a) : a ∈ t.addrs := by
  cases t with
  | nil => simp [Tree.ptr] at h
  | node b l k v hh r =>
    simp [Tree.ptr] at h
    simp [Tree.addrs, h]

theorem Tree.ptr_ne_of_not_mem {t : Tree K V} {a : Nat} (h : a ∉ t.addrs) : t.ptr ≠ some a :=
  fun e => h (Tree.ptr_mem_addrs e)

theorem Linked.frame {m m1 : Mem K V} {t : Tree K V} :
    ∀ {par : Option Nat}, Linked m par t → (∀ a ∈ t.addrs, m1 a = m a) → Linked m1 par t := by
  induction t with
  | nil => intro _ _ _; trivial
  | node a l k v h r ihl ihr =>
    intro par hl hm
    obtain ⟨h1, h2, h3⟩ := hl
    refine ⟨?_, ihl h2 ?_, ihr h3 ?_⟩
    · rw [hm a (by simp [Tree.addrs])]; exact h1
    · intro x hx; exact hm x (by simp [Tree.addrs, hx])
    · intro x hx; exact hm x (by simp [Tree.addrs, hx])

theorem LinkedPath.frame_path {m m1 : Mem K V} {ctx : List (Frame K V)} :
    ∀ {hole par top : Option Nat}, LinkedPath m ctx hole par top →
      (∀ a ∈ ctxAddrs ctx, m1 a = m a) → LinkedPath m1 ctx hole par top := by
  induction ctx with
  | nil => intro _ _ _ h _; exact h
  | cons f fs ih =>
    intro hole par top h hm
    cases f with
    | inL a k v hh r =>
      obtain ⟨h1, h2, h3⟩ := h
      refine ⟨?_, Linked.frame h2 ?_, ih h3 ?_⟩
      · rw [hm a (by simp [ctxAddrs, Frame.addr])]; exact h1
      · intro x hx; exact hm x (by simp [ctxAddrs, Frame.sib, hx])
      · intro x hx; exact hm x (by simp [ctxAddrs, hx])
    | inR a l k v hh =>
      obtain ⟨h1, h2, h3⟩ := h
      refine ⟨?_, Linked.frame h2 ?_, ih h3 ?_⟩
      · rw [hm a (by simp [ctxAddrs, Frame.addr])]; exact h1
      · intro x hx; exact hm x (by simp [ctxAddrs, Frame.sib, hx])
      · intro x hx; exact hm x (by simp [ctxAddrs, hx])

/-- The cached height of the node a pointer leads to, read from the store. -/
theorem Linked.getHeight {m : Mem K V} {par : Option Nat} {a : Nat} {l : Tree K V} {k : K}
    {v : V} {h : Int} {r : Tree K V} (hl : Linked m par (Tree.node a l k v h r)) :
    m.getHeight a = some h := by
  simp [Mem.getHeight, hl.1]

theorem updateHeight_spec {m : Mem K V} {p : Nat} {n : Node K V} {l r : Tree K V}
    (hp : m p = some n) (hnl : n.leftSon = l.ptr) (hnr : n.rightSon = r.ptr)
    (hl : Linked m (some p) l) (hr : Linked m (some p) r)
    (hpl : p ∉ l.addrs) (hpr : p ∉ r.addrs) :
    Node.updateHeight m p = some (m.write p { n with height := Tree.updH l r }) := by
  cases l with
  | nil =>
    cases r with
    | nil =>
      simp [Tree.ptr] at hnl hnr
      simp [Node.updateHeight, Mem.setHeight, hp, Mem.getLeftSon, Mem.getRightSon, hnl, hnr,
        Tree.updH, Tree.h1]
    | node ar rl kr vr hr' rr =>
      simp [Tree.ptr] at hnl hnr
      have hne : ar ≠ p := by
        intro e; apply hpr; simp [Tree.addrs, e]
      simp [Node.updateHeight, Mem.setHeight, hp, Mem.getLeftSon, Mem.getRightSon, hnl, hnr,
        Tree.updH, Tree.h1, Mem.getHeight, Mem.write_other, hne, hr.1]
      split <;> simp
  | node al ll kl vl hl' lr =>
    have hnel : al ≠ p := by
      intro e; apply hpl; simp [Tree.addrs, e]
    cases r with
    | nil =>
      simp [Tree.ptr] at hnl hnr
      simp [Node.updateHeight, Mem.setHeight, hp, Mem.getLeftSon, Mem.getRightSon, hnl, hnr,
        Tree.updH, Tree.h1, Mem.getHeight, Mem.write_other, hnel, hl.1]
    | node ar rl kr vr hr' rr =>
      simp [Tree.ptr] at hnl hnr
      have hne : ar ≠ p := by
        intro e; apply hpr; simp [Tree.addrs, e]
      simp [Node.updateHeight, Mem.setHeight, hp, Mem.getLeftSon, Mem.getRightSon, hnl, hnr,
        Tree.updH, Tree.h1, Mem.getHeight, Mem.write_other, hne, hnel, hl.1, hr.1]
      split <;> simp

theorem calcBF_spec {m : Mem K V} {p : Nat} {n : Node K V} {l r : Tree K V}
    (hp : m p = some n) (hnl : n.leftSon = l.ptr) (hnr : n.rightSon = r.ptr)
    (hl : Linked m (some p) l) (hr : Linked m (some p) r) :
    Node.calcBF m p = some (Tree.bfC l r) := by
  cases l <;> cases r <;> simp [Tree.ptr] at hnl hnr <;>
    simp [Node.calcBF, hp, hnl, hnr, Tree.bfC, Tree.h1, Mem.getHeight] <;>
    simp_all [Linked]

theorem Mem.write_apply (m : Mem K V) (p q : Nat) (n : Node K V) :
    m.write p n q = if q = p then some n else m q := rfl

theorem setParentIf_spec {m : Mem K V} {par par1 : Option Nat} {t : Tree K V}
    (hl : Linked m par t) (hnd : t.addrs.Nodup) :
    ∃ m1, m.setParentIf t.ptr par1 = some m1 ∧ Linked m1 par1 t ∧
      (∀ q, t.ptr ≠ some q → m1 q = m q) := by
  cases t with
  | nil => exact ⟨m, rfl, trivial, fun _ _ => rfl⟩
  | node a l k v h r =>
    obtain ⟨h1, h2, h3⟩ := hl
    simp only [Tree.addrs] at hnd
    have hal : a ∉ l.addrs := fun hx => by
      have := (List.nodup_append.1 hnd).2.2 hx (List.mem_cons_self _ _)
      exact this
    have har : a ∉ r.addrs := by
      have := ((List.nodup_append.1 hnd).2.1)
      exact (List.nodup_cons.1 this).1
    refine ⟨m.write a ⟨k, v, par1, l.ptr, r.ptr, h⟩, ?_, ⟨?_, ?_, ?_⟩, ?_⟩
    · simp [Mem.setParentIf, Tree.ptr, Mem.setParent, h1]
    · simp
    · exact Linked.frame h2 (fun x hx => Mem.write_other _ _ (fun e => hal (e ▸ hx)))
    · exact Linked.frame h3 (fun x hx => Mem.write_other _ _ (fun e => har (e ▸ hx)))
    · intro q hq
      exact Mem.write_other _ _ (fun e => hq (by simp [Tree.ptr, e]))

theorem relinkGrandParent_spec {s : AVL K V} {ctx : List (Frame K V)} {n p : Nat}
    {nn : Node K V} {par top : Option Nat}
    (hc : LinkedPath s.mem ctx (some p) par top)
    (hn : s.mem n = some nn) (hnp : nn.parent = some p)
    (hpc : p ∉ ctxAddrs ctx) (hnd : (ctxAddrs ctx).Nodup) :
    ∃ m3, relinkGrandParent s n (ctxPar ctx none) =
        some { s with root := newTop ctx (some n) s.root, mem := m3 } ∧
      LinkedPath m3 ctx (some n) par (newTop ctx (some n) top) ∧
      (∀ q, ctxPar ctx none ≠ some q → m3 q = s.mem q) := by
  cases ctx with
  | nil =>
    refine ⟨s.mem, ?_, ?_, fun _ _ => rfl⟩
    · simp [relinkGrandParent, ctxPar, newTop]
    · simp [LinkedPath, newTop]
  | cons f fs =>
    cases f with
    | inL g k v h r =>
      obtain ⟨h1, h2, h3⟩ := hc
      simp only [ctxAddrs, Frame.addr, Frame.sib, List.nodup_cons, List.mem_append, not_or,
        List.nodup_append, List.mem_cons, List.disjoint_cons_left] at hnd hpc
      obtain ⟨⟨hgr, -⟩, -, hgf, -⟩ := hnd
      have hrp : r.ptr ≠ some p := Tree.ptr_ne_of_not_mem hpc.1.2
      refine ⟨s.mem.write g ⟨k, v, ctxPar fs par, some n, r.ptr, h⟩, ?_, ⟨?_, ?_, ?_⟩, ?_⟩
      · simp [relinkGrandParent, ctxPar, Frame.addr, Mem.getRightSon, Mem.getParent, h1, hn,
          hnp, hrp, Mem.setLeftSon, newTop]
      · simp
      · exact Linked.frame h2 (fun x hx => Mem.write_other _ _ (fun e => hgr (e ▸ hx)))
      · exact LinkedPath.frame_path h3 (fun x hx => Mem.write_other _ _ (fun e => hgf (e ▸ hx)))
      · intro q hq
        exact Mem.write_other _ _ (fun e => hq (by simp [ctxPar, Frame.addr, e]))
    | inR g l k v h =>
      obtain ⟨h1, h2, h3⟩ := hc
      simp only [ctxAddrs, Frame.addr, Frame.sib, List.nodup_cons, List.mem_append, not_or,
        List.nodup_append, List.mem_cons, List.disjoint_cons_left] at hnd hpc
      obtain ⟨⟨hgr, -⟩, -, hgf, -⟩ := hnd
      refine ⟨s.mem.write g ⟨k, v, ctxPar fs par, l.ptr, some n, h⟩, ?_, ⟨?_, ?_, ?_⟩, ?_⟩
      · simp [relinkGrandParent, ctxPar, Frame.addr, Mem.getRightSon, Mem.getParent, h1, hn,
          hnp, Mem.setRightSon, newTop]
      · simp
      · exact Linked.frame h2 (fun x hx => Mem.write_other _ _ (fun e => hgr (e ▸ hx)))
      · exact LinkedPath.frame_path h3 (fun x hx => Mem.write_other _ _ (fun e => hgf (e ▸ hx)))
      · intro q hq
        exact Mem.write_other _ _ (fun e => hq (by simp [ctxPar, Frame.addr, e]))

@[simp] theorem Tree.ptr_node (a : Nat) (l : Tree K V) (k : K) (v : V) (h : Int) (r : Tree K V) :
    (Tree.node a l k v h r).ptr = some a := rfl

@[simp] theorem Tree.ptr_nil : (Tree.nil : Tree K V).ptr = none := rfl

theorem ctxPar_mem {ctx : List (Frame K V)} {q : Nat} (h : ctxPar ctx none = some q) :
    q ∈ ctxAddrs ctx := by
  cases ctx with
  | nil => simp [ctxPar] at h
  | cons f fs =>
    simp [ctxPar] at h
    simp [ctxAddrs, h]

theorem ctxPar_ne {ctx : List (Frame K V)} {q : Nat} (h : q ∉ ctxAddrs ctx) :
    ctxPar ctx none ≠ some q := fun e => h (ctxPar_mem e)

theorem rotateRight_spec {s : AVL K V} {ctx : List (Frame K V)} {n p : Nat}
    {A B C : Tree K V} {kn kp : K} {vn vp : V} {hn hp : Int}
    (hz : ZRep s ctx (Tree.node p (Tree.node n A kn vn hn B) kp vp hp C)) :
    ∃ s1, rotateRight s n = some s1 ∧
      ZRep s1 ctx (Tree.node n A kn vn
        (Tree.updH A (Tree.node p B kp vp (Tree.updH B C) C))
        (Tree.node p B kp vp (Tree.updH B C) C)) ∧
      s1.self = s.self ∧ s1.size = s.size ∧ s1.fresh = s.fresh := by
  obtain ⟨hc, ⟨hmp, ⟨hmn, hA, hB⟩, hC⟩, hnd, hfr⟩ := hz
  simp only [Tree.ptr_node] at hc hmp
  have hnd0 := hnd
  simp only [Tree.addrs, List.nodup_cons, List.mem_append, not_or,
    List.nodup_append, List.mem_cons, List.disjoint_cons_left, List.disjoint_cons_right,
    List.disjoint_append_left, List.disjoint_append_right] at hnd
  obtain ⟨hcN, ⟨⟨hAN, ⟨hnB, hBN⟩, hnA, hAB⟩, ⟨hpC, hCN⟩, ⟨hpA, hpn, hpB⟩, hAC, hnC, hBC⟩,
    ⟨hcA, hnc, hcB⟩, hpc, hcC⟩ := hnd
  have hnp : n ≠ p := fun e => hpn e.symm
  -- if (tmp) tmp->parent = node->parent
  obtain ⟨m1, e1, hB1, hm1⟩ := @setParentIf_spec K V _ _ (some p) _ hB hBN
  have hm1n : m1 n = s.mem n := hm1 n (Tree.ptr_ne_of_not_mem hnB)
  have hm1p : m1 p = s.mem p := hm1 p (Tree.ptr_ne_of_not_mem hpB)
  -- the grandparent's slot
  have hgn : ctxPar ctx none ≠ some n := ctxPar_ne hnc
  have hgp : ctxPar ctx none ≠ some p := ctxPar_ne hpc
  have hc2 : LinkedPath (m1.write n ⟨kn, vn, some p, A.ptr, some p, hn⟩) ctx (some p) none s.root := by
    refine LinkedPath.frame_path hc (fun a ha => ?_)
    rw [Mem.write_other _ _ (ne_of_mem_of_not_mem ha hnc)]
    exact hm1 a (Tree.ptr_ne_of_not_mem (fun hb => hcB ha hb))
  obtain ⟨m3, e3, hc3, hm3⟩ := @relinkGrandParent_spec K V
    { s with mem := m1.write n ⟨kn, vn, some p, A.ptr, some p, hn⟩ } ctx n p
    ⟨kn, vn, some p, A.ptr, some p, hn⟩ none s.root hc2 (by simp) rfl hpc hcN
  simp only at e3 hm3
  have hm3n : m3 n = some ⟨kn, vn, some p, A.ptr, some p, hn⟩ := by
    rw [hm3 n hgn]; simp
  have hm3p : m3 p = some ⟨kp, vp, ctxPar ctx none, some n, C.ptr, hp⟩ := by
    rw [hm3 p hgp, Mem.write_other _ _ hpn, hm1p, hmp]
  -- the store before the two height updates
  have hB6 : ∀ q ∈ B.addrs, m3 q = m1 q := fun q hq => by
    rw [hm3 q (ctxPar_ne (fun hx => hcB hx hq)), Mem.write_other _ _ (ne_of_mem_of_not_mem hq hnB)]
  have hC6 : ∀ q ∈ C.addrs, m3 q = s.mem q := fun q hq => by
    rw [hm3 q (ctxPar_ne (fun hx => hcC hx hq)), Mem.write_other _ _ (ne_of_mem_of_not_mem hq hnC),
      hm1 q (Tree.ptr_ne_of_not_mem (fun hb => hBC hb hq))]
  have hA6 : ∀ q ∈ A.addrs, m3 q = s.mem q := fun q hq => by
    rw [hm3 q (ctxPar_ne (fun hx => hcA hx hq)), Mem.write_other _ _ (ne_of_mem_of_not_mem hq hnA),
      hm1 q (Tree.ptr_ne_of_not_mem (fun hb => hAB hq hb))]
  let m6 : Mem K V := (m3.write n ⟨kn, vn, ctxPar ctx none, A.ptr, some p, hn⟩).write p
    ⟨kp, vp, some n, B.ptr, C.ptr, hp⟩
  have hm6 : ∀ q, q ≠ n → q ≠ p → m6 q = m3 q := fun q h1 h2 => by
    simp only [m6]; rw [Mem.write_other _ _ h2, Mem.write_other _ _ h1]
  have hm6p : m6 p = some ⟨kp, vp, some n, B.ptr, C.ptr, hp⟩ := by simp [m6]
  have hm6n : m6 n = some ⟨kn, vn, ctxPar ctx none, A.ptr, some p, hn⟩ := by
    simp only [m6]; rw [Mem.write_other _ _ hnp]; simp
  have hB6' : Linked m6 (some p) B := Linked.frame hB1 (fun q hq => by
    rw [hm6 q (ne_of_mem_of_not_mem hq hnB) (ne_of_mem_of_not_mem hq hpB), hB6 q hq])
  have hC6' : Linked m6 (some p) C := Linked.frame hC (fun q hq => by
    rw [hm6 q (ne_of_mem_of_not_mem hq hnC) (ne_of_mem_of_not_mem hq hpC), hC6 q hq])
  have hA6' : Linked m6 (some n) A := Linked.frame hA (fun q hq => by
    rw [hm6 q (ne_of_mem_of_not_mem hq hnA) (ne_of_mem_of_not_mem hq hpA), hA6 q hq])
  have e7 := updateHeight_spec (l := B) (r := C) hm6p rfl rfl hB6' hC6' hpB hpC
  simp only at e7
  let m7 : Mem K V := m6.write p ⟨kp, vp, some n, B.ptr, C.ptr, Tree.updH B C⟩
  have hm7 : ∀ q, q ≠ p → m7 q = m6 q := fun q h => Mem.write_other _ _ h
  have hP7 : Linked m7 (some n) (Tree.node p B kp vp (Tree.updH B C) C) := by
    refine ⟨by simp [m7], ?_, ?_⟩
    · exact Linked.frame hB6' (fun q hq => hm7 q (ne_of_mem_of_not_mem hq hpB))
    · exact Linked.frame hC6' (fun q hq => hm7 q (ne_of_mem_of_not_mem hq hpC))
  have hA7 : Linked m7 (some n) A :=
    Linked.frame hA6' (fun q hq => hm7 q (ne_of_mem_of_not_mem hq hpA))
  have hm7n : m7 n = some ⟨kn, vn, ctxPar ctx none, A.ptr, some p, hn⟩ := by
    rw [hm7 n hnp, hm6n]
  have hnP : n ∉ (Tree.node p B kp vp (Tree.updH B C) C).addrs := by
    simp [Tree.addrs, hnB, hnC, hnp]
  have e8 := updateHeight_spec (l := A) (r := Tree.node p B kp vp (Tree.updH B C) C)
    hm7n rfl rfl hA7 hP7 hnA hnP
  simp only at e8
  refine ⟨⟨s.self, newTop ctx (some n) s.root, s.size, m7.write n ⟨kn, vn, ctxPar ctx none, A.ptr,
    some p, Tree.updH A (Tree.node p B kp vp (Tree.updH B C) C)⟩, s.fresh⟩, ?_,
    ⟨?_, ⟨?_, ?_, ?_⟩, ?_, ?_⟩, rfl, rfl, rfl⟩
  · simp only [rotateRight, Mem.getParent, Mem.getRightSon, hmn, e1, hm1n, hm1p, hmp, Mem.setRightSon,
      Mem.write_same, e3, hm3n, hm3p, Mem.setParent, Mem.write_other _ _ hpn,
      Mem.write_other _ _ hnp, Mem.setLeftSon, Mem.write_write]
    simp only [m6, m7] at e7 e8
    simp only [e7, e8]
  · refine LinkedPath.frame_path hc3 (fun q hq => ?_)
    dsimp only
    rw [Mem.write_other _ _ (ne_of_mem_of_not_mem hq hnc), hm7 q (ne_of_mem_of_not_mem hq hpc),
      hm6 q (ne_of_mem_of_not_mem hq hnc) (ne_of_mem_of_not_mem hq hpc)]
  · simp
  · exact Linked.frame hA7 (fun q hq => Mem.write_other _ _ (ne_of_mem_of_not_mem hq hnA))
  · exact Linked.frame hP7 (fun q hq => Mem.write_other _ _ (ne_of_mem_of_not_mem hq hnP))
  · simpa [Tree.addrs] using hnd0
  · intro a ha; apply hfr; simpa [Tree.addrs] using ha

theorem rotateLeft_spec {s : AVL K V} {ctx : List (Frame K V)} {n p : Nat}
    {A B C : Tree K V} {kn kp : K} {vn vp : V} {hn hp : Int}
    (hz : ZRep s ctx (Tree.node p A kp vp hp (Tree.node n B kn vn hn C))) :
    ∃ s1, rotateLeft s n = some s1 ∧
      ZRep s1 ctx (Tree.node n (Tree.node p A kp vp (Tree.updH A B) B) kn vn
        (Tree.updH (Tree.node p A kp vp (Tree.updH A B) B) C) C) ∧
      s1.self = s.self ∧ s1.size = s.size ∧ s1.fresh = s.fresh := by
  obtain ⟨hc, ⟨hmp, hA, ⟨hmn, hB, hC⟩⟩, hnd, hfr⟩ := hz
  simp only [Tree.ptr_node] at hc hmp
  have hnd0 := hnd
  simp only [Tree.addrs, List.nodup_cons, List.mem_append, not_or,
    List.nodup_append, List.mem_cons, List.disjoint_cons_left, List.disjoint_cons_right,
    List.disjoint_append_left, List.disjoint_append_right] at hnd
  obtain ⟨hcN, ⟨hAN, ⟨⟨hpB, hpn, hpC⟩, hBN, ⟨hnC, hCN⟩, hnB, hBC⟩, hpA, hAB, hnA, hAC⟩,
    hcA, hpc, hcB, hnc, hcC⟩ := hnd
  have hnp : n ≠ p := fun e => hpn e.symm
  -- if (tmp) tmp->parent = node->parent
  obtain ⟨m1, e1, hB1, hm1⟩ := @setParentIf_spec K V _ _ (some p) _ hB hBN
  have hm1n : m1 n = s.mem n := hm1 n (Tree.ptr_ne_of_not_mem hnB)
  have hm1p : m1 p = s.mem p := hm1 p (Tree.ptr_ne_of_not_mem hpB)
  -- the grandparent's slot
  have hgn : ctxPar ctx none ≠ some n := ctxPar_ne hnc
  have hgp : ctxPar ctx none ≠ some p := ctxPar_ne hpc
  have hc2 : LinkedPath (m1.write n ⟨kn, vn, some p, some p, C.ptr, hn⟩) ctx (some p) none s.root := by
    refine LinkedPath.frame_path hc (fun a ha => ?_)
    rw [Mem.write_other _ _ (ne_of_mem_of_not_mem ha hnc)]
    exact hm1 a (Tree.ptr_ne_of_not_mem (fun hb => hcB ha hb))
  obtain ⟨m3, e3, hc3, hm3⟩ := @relinkGrandParent_spec K V
    { s with mem := m1.write n ⟨kn, vn, some p, some p, C.ptr, hn⟩ } ctx n p
    ⟨kn, vn, some p, some p, C.ptr, hn⟩ none s.root hc2 (by simp) rfl hpc hcN
  simp only at e3 hm3
  have hm3n : m3 n = some ⟨kn, vn, some p, some p, C.ptr, hn⟩ := by
    rw [hm3 n hgn]; simp
  have hm3p : m3 p = some ⟨kp, vp, ctxPar ctx none, A.ptr, some n, hp⟩ := by
    rw [hm3 p hgp, Mem.write_other _ _ hpn, hm1p, hmp]
  -- the store before the two height updates
  have hB6 : ∀ q ∈ B.addrs, m3 q = m1 q := fun q hq => by
    rw [hm3 q (ctxPar_ne (fun hx => hcB hx hq)), Mem.write_other _ _ (ne_of_mem_of_not_mem hq hnB)]
  have hC6 : ∀ q ∈ C.addrs, m3 q = s.mem q := fun q hq => by
    rw [hm3 q (ctxPar_ne (fun hx => hcC hx hq)), Mem.write_other _ _ (ne_of_mem_of_not_mem hq hnC),
      hm1 q (Tree.ptr_ne_of_not_mem (fun hb => hBC hb hq))]
  have hA6 : ∀ q ∈ A.addrs, m3 q = s.mem q := fun q hq => by
    rw [hm3 q (ctxPar_ne (fun hx => hcA hx hq)), Mem.write_other _ _ (ne_of_mem_of_not_mem hq hnA),
      hm1 q (Tree.ptr_ne_of_not_mem (fun hb => hAB hq hb))]
  let m6 : Mem K V := (m3.write n ⟨kn, vn, ctxPar ctx none, some p, C.ptr, hn⟩).write p
    ⟨kp, vp, some n, A.ptr, B.ptr, hp⟩
  have hm6 : ∀ q, q ≠ n → q ≠ p → m6 q = m3 q := fun q h1 h2 => by
    simp only [m6]; rw [Mem.write_other _ _ h2, Mem.write_other _ _ h1]
  have hm6p : m6 p = some ⟨kp, vp, some n, A.ptr, B.ptr, hp⟩ := by simp [m6]
  have hm6n : m6 n = some ⟨kn, vn, ctxPar ctx none, some p, C.ptr, hn⟩ := by
    simp only [m6]; rw [Mem.write_other _ _ hnp]; simp
  have hB6' : Linked m6 (some p) B := Linked.frame hB1 (fun q hq => by
    rw [hm6 q (ne_of_mem_of_not_mem hq hnB) (ne_of_mem_of_not_mem hq hpB), hB6 q hq])
  have hC6' : Linked m6 (some n) C := Linked.frame hC (fun q hq => by
    rw [hm6 q (ne_of_mem_of_not_mem hq hnC) (ne_of_mem_of_not_mem hq hpC), hC6 q hq])
  have hA6' : Linked m6 (some p) A := Linked.frame hA (fun q hq => by
    rw [hm6 q (ne_of_mem_of_not_mem hq hnA) (ne_of_mem_of_not_mem hq hpA), hA6 q hq])
  have e7 := updateHeight_spec (l := A) (r := B) hm6p rfl rfl hA6' hB6' hpA hpB
  simp only at e7
  let m7 : Mem K V := m6.write p ⟨kp, vp, some n, A.ptr, B.ptr, Tree.updH A B⟩
  have hm7 : ∀ q, q ≠ p → m7 q = m6 q := fun q h => Mem.write_other _ _ h
  have hP7 : Linked m7 (some n) (Tree.node p A kp vp (Tree.updH A B) B) := by
    refine ⟨by simp [m7], ?_, ?_⟩
    · exact Linked.frame hA6' (fun q hq => hm7 q (ne_of_mem_of_not_mem hq hpA))
    · exact Linked.frame hB6' (fun q hq => hm7 q (ne_of_mem_of_not_mem hq hpB))
  have hC7 : Linked m7 (some n) C :=
    Linked.frame hC6' (fun q hq => hm7 q (ne_of_mem_of_not_mem hq hpC))
  have hm7n : m7 n = some ⟨kn, vn, ctxPar ctx none, some p, C.ptr, hn⟩ := by
    rw [hm7 n hnp, hm6n]
  have hnP : n ∉ (Tree.node p A kp vp (Tree.updH A B) B).addrs := by
    simp [Tree.addrs, hnA, hnB, hnp]
  have e8 := updateHeight_spec (l := Tree.node p A kp vp (Tree.updH A B) B) (r := C)
    hm7n rfl rfl hP7 hC7 hnP hnC
  simp only at e8
  refine ⟨⟨s.self, newTop ctx (some n) s.root, s.size, m7.write n ⟨kn, vn, ctxPar ctx none,
    some p, C.ptr, Tree.updH (Tree.node p A kp vp (Tree.updH A B) B) C⟩, s.fresh⟩, ?_,
    ⟨?_, ⟨?_, ?_, ?_⟩, ?_, ?_⟩, rfl, rfl, rfl⟩
  · simp only [rotateLeft, Mem.getParent, Mem.getLeftSon, hmn, e1, hm1n, hm1p, hmp,
      Mem.setLeftSon, Mem.write_same, e3, hm3n, hm3p, Mem.setParent, Mem.write_other _ _ hpn,
      Mem.write_other _ _ hnp, Mem.setRightSon, Mem.write_write]
    simp only [m6, m7] at e7 e8
    simp only [e7, e8]
  · refine LinkedPath.frame_path hc3 (fun q hq => ?_)
    dsimp only
    rw [Mem.write_other _ _ (ne_of_mem_of_not_mem hq hnc), hm7 q (ne_of_mem_of_not_mem hq hpc),
      hm6 q (ne_of_mem_of_not_mem hq hnc) (ne_of_mem_of_not_mem hq hpc)]
  · simp
  · exact Linked.frame hP7 (fun q hq => Mem.write_other _ _ (ne_of_mem_of_not_mem hq hnP))
  · exact Linked.frame hC7 (fun q hq => Mem.write_other _ _ (ne_of_mem_of_not_mem hq hnC))
  · simpa [Tree.addrs] using hnd0
  · intro a ha; apply hfr; simpa [Tree.addrs] using ha

theorem ZRep_nil {s : AVL K V} {t : Tree K V} : ZRep s [] t ↔ Rep s t := by
  simp [ZRep, Rep, LinkedPath, ctxPar, ctxAddrs]

theorem ctxAddrs_fill_perm (f : Frame K V) (fs : List (Frame K V)) (t : Tree K V) :
    (ctxAddrs (f :: fs) ++ t.addrs).Perm (ctxAddrs fs ++ (f.fill t).addrs) := by
  cases f with
  | inL a k v h r =>
    simp only [ctxAddrs, Frame.addr, Frame.sib, Frame.fill, Tree.addrs]
    have h1 : (a :: r.addrs ++ ctxAddrs fs ++ t.addrs).Perm
        (ctxAddrs fs ++ (a :: r.addrs ++ t.addrs)) := by
      rw [List.append_assoc]
      exact (List.perm_append_comm_assoc _ _ _).trans (by simp)
    refine h1.trans (List.Perm.append_left _ ?_)
    have h2 : (t.addrs ++ a :: r.addrs).Perm (a :: r.addrs ++ t.addrs) := List.perm_append_comm
    exact h2.symm
  | inR a l k v h =>
    simp only [ctxAddrs, Frame.addr, Frame.sib, Frame.fill, Tree.addrs]
    have h1 : (a :: l.addrs ++ ctxAddrs fs ++ t.addrs).Perm
        (ctxAddrs fs ++ (a :: l.addrs ++ t.addrs)) := by
      rw [List.append_assoc]
      exact (List.perm_append_comm_assoc _ _ _).trans (by simp)
    refine h1.trans (List.Perm.append_left _ ?_)
    simp only [List.cons_append]
    exact (List.perm_middle).symm

theorem ZRep_up {s : AVL K V} {f : Frame K V} {fs : List (Frame K V)} {t : Tree K V} :
    ZRep s (f :: fs) t ↔ ZRep s fs (f.fill t) := by
  have hp := ctxAddrs_fill_perm f fs t
  cases f with
  | inL a k v h r =>
    simp only [ZRep, LinkedPath, Frame.fill, Linked, ctxPar, Frame.addr, Tree.ptr_node] at hp ⊢
    constructor
    · rintro ⟨⟨h1, h2, h3⟩, h4, h5, h6⟩
      exact ⟨h3, ⟨h1, h4, h2⟩, hp.nodup_iff.1 h5, fun x hx => h6 x (hp.mem_iff.2 hx)⟩
    · rintro ⟨h3, ⟨h1, h4, h2⟩, h5, h6⟩
      exact ⟨⟨h1, h2, h3⟩, h4, hp.nodup_iff.2 h5, fun x hx => h6 x (hp.mem_iff.1 hx)⟩
  | inR a l k v h =>
    simp only [ZRep, LinkedPath, Frame.fill, Linked, ctxPar, Frame.addr, Tree.ptr_node] at hp ⊢
    constructor
    · rintro ⟨⟨h1, h2, h3⟩, h4, h5, h6⟩
      exact ⟨h3, ⟨h1, h2, h4⟩, hp.nodup_iff.1 h5, fun x hx => h6 x (hp.mem_iff.2 hx)⟩
    · rintro ⟨h3, ⟨h1, h2, h4⟩, h5, h6⟩
      exact ⟨⟨h1, h2, h3⟩, h4, hp.nodup_iff.2 h5, fun x hx => h6 x (hp.mem_iff.1 hx)⟩

theorem ZRep_plug {s : AVL K V} {ctx : List (Frame K V)} :
    ∀ {t : Tree K V}, ZRep s ctx t ↔ Rep s (plug ctx t) := by
  induction ctx with
  | nil => intro t; simpa [plug] using ZRep_nil
  | cons f fs ih => intro t; rw [ZRep_up, ih]; rfl

theorem rebalanceLeftHeavy_spec {s : AVL K V} {ctx : List (Frame K V)} {a : Nat}
    {t t1 : Tree K V} (hz : ZRep s ctx t) (ha : t.ptr = some a)
    (h : t.rebalanceLeftHeavy = some t1) :
    ∃ s1, rebalanceLeftHeavy s a = some s1 ∧ ZRep s1 ctx t1 ∧
      s1.self = s.self ∧ s1.size = s.size ∧ s1.fresh = s.fresh := by
  match t, h with
  | Tree.node a' (Tree.node al ll kl vl hl lr) k v hh r, h =>
    simp only [Tree.ptr_node, Option.some.injEq] at ha
    subst ha
    have hz0 := hz
    obtain ⟨hc, ⟨hma, ⟨hml, hll, hlr⟩, hr⟩, hnd, hfr⟩ := hz
    have hbf := calcBF_spec hml rfl rfl hll hlr
    simp only [Tree.rebalanceLeftHeavy] at h
    by_cases hb : Tree.bfC ll lr > -1
    · simp only [hb, if_true, Tree.rotateRight, Option.some.injEq] at h
      subst h
      obtain ⟨s1, e1, hz1, hm⟩ := rotateRight_spec hz0
      refine ⟨s1, ?_, hz1, hm⟩
      simp [rebalanceLeftHeavy, Mem.getLeftSon, hma, hbf, hb, e1]
    · simp only [hb, if_false] at h
      match lr, h with
      | Tree.node alr lrl klr vlr hlr' lrr, h =>
        simp only [Tree.rotateLeft, Tree.rotateRight, Option.some.injEq] at h
        subst h
        have hzl : ZRep s (Frame.inL a' k v hh r :: ctx)
            (Tree.node al ll kl vl hl (Tree.node alr lrl klr vlr hlr' lrr)) := ZRep_up.2 hz0
        obtain ⟨s1, e1, hz1, hm1⟩ := rotateLeft_spec hzl
        have hz1' := ZRep_up.1 hz1
        simp only [Frame.fill] at hz1'
        obtain ⟨s2, e2, hz2, hm2⟩ := rotateRight_spec hz1'
        refine ⟨s2, ?_, hz2, ?_⟩
        · have h1a := hz1'.2.1.1
          simp [rebalanceLeftHeavy, Mem.getLeftSon, Mem.getRightSon, hma, hml, hbf, hb, e1, h1a, e2]
        · obtain ⟨x1, x2, x3⟩ := hm1
          obtain ⟨y1, y2, y3⟩ := hm2
          exact ⟨y1.trans x1, y2.trans x2, y3.trans x3⟩

theorem rebalanceRightHeavy_spec {s : AVL K V} {ctx : List (Frame K V)} {a : Nat}
    {t t1 : Tree K V} (hz : ZRep s ctx t) (ha : t.ptr = some a)
    (h : t.rebalanceRightHeavy = some t1) :
    ∃ s1, rebalanceRightHeavy s a = some s1 ∧ ZRep s1 ctx t1 ∧
      s1.self = s.self ∧ s1.size = s.size ∧ s1.fresh = s.fresh := by
  match t, h with
  | Tree.node a' l k v hh (Tree.node ar rl kr vr hr rr), h =>
    simp only [Tree.ptr_node, Option.some.injEq] at ha
    subst ha
    have hz0 := hz
    obtain ⟨hc, ⟨hma, hl, ⟨hmr, hrl, hrr⟩⟩, hnd, hfr⟩ := hz
    have hbf := calcBF_spec hmr rfl rfl hrl hrr
    simp only [Tree.rebalanceRightHeavy] at h
    by_cases hb : Tree.bfC rl rr < 1
    · simp only [hb, if_true, Tree.rotateLeft, Option.some.injEq] at h
      subst h
      obtain ⟨s1, e1, hz1, hm⟩ := rotateLeft_spec hz0
      refine ⟨s1, ?_, hz1, hm⟩
      simp [rebalanceRightHeavy, Mem.getRightSon, hma, hbf, hb, e1]
    · simp only [hb, if_false] at h
      match rl, h with
      | Tree.node arl rll krl vrl hrl' rlr, h =>
        simp only [Tree.rotateLeft, Tree.rotateRight, Option.some.injEq] at h
        subst h
        have hzl : ZRep s (Frame.inR a' l k v hh :: ctx)
            (Tree.node ar (Tree.node arl rll krl vrl hrl' rlr) kr vr hr rr) := ZRep_up.2 hz0
        obtain ⟨s1, e1, hz1, hm1⟩ := rotateRight_spec hzl
        have hz1' := ZRep_up.1 hz1
        simp only [Frame.fill] at hz1'
        obtain ⟨s2, e2, hz2, hm2⟩ := rotateLeft_spec hz1'
        refine ⟨s2, ?_, hz2, ?_⟩
        · have h1a := hz1'.2.1.1
          simp [rebalanceRightHeavy, Mem.getLeftSon, Mem.getRightSon, hma, hmr, hbf, hb, e1, h1a, e2]
        · obtain ⟨x1, x2, x3⟩ := hm1
          obtain ⟨y1, y2, y3⟩ := hm2
          exact ⟨y1.trans x1, y2.trans x2, y3.trans x3⟩

theorem ZRep_updateHeight {s : AVL K V} {ctx : List (Frame K V)} {a : Nat} {l r : Tree K V}
    {k : K} {v : V} {h : Int} (hz : ZRep s ctx (Tree.node a l k v h r)) :
    ∃ m, Node.updateHeight s.mem a = some m ∧
      ZRep { s with mem := m } ctx (Tree.node a l k v (Tree.updH l r) r) := by
  obtain ⟨hc, ⟨hma, hl, hr⟩, hnd, hfr⟩ := hz
  have hnd0 := hnd
  simp only [Tree.addrs, List.nodup_cons, List.mem_append, not_or,
    List.nodup_append, List.mem_cons, List.disjoint_cons_left, List.disjoint_cons_right,
    List.disjoint_append_left, List.disjoint_append_right] at hnd
  obtain ⟨-, ⟨-, ⟨har, -⟩, hal, -⟩, -, hac, -⟩ := hnd
  have e := updateHeight_spec hma rfl rfl hl hr hal har
  simp only at e
  refine ⟨_, e, ?_, ⟨?_, ?_, ?_⟩, ?_, ?_⟩
  · exact LinkedPath.frame_path hc (fun q hq => Mem.write_other _ _ (ne_of_mem_of_not_mem hq hac))
  · simp
  · exact Linked.frame hl (fun q hq => Mem.write_other _ _ (ne_of_mem_of_not_mem hq hal))
  · exact Linked.frame hr (fun q hq => Mem.write_other _ _ (ne_of_mem_of_not_mem hq har))
  · simpa [Tree.addrs] using hnd0
  · intro x hx; apply hfr; simpa [Tree.addrs] using hx

theorem balance_spec (onInsert : Bool) :
    ∀ (ctx : List (Frame K V)) (t T : Tree K V) (s : AVL K V) (a fuel : Nat),
      ZRep s ctx t → t.ptr = some a → balanceT onInsert ctx t = some T → ctx.length < fuel →
      ∃ s1, balance fuel s a onInsert = some s1 ∧ Rep s1 T ∧
        s1.self = s.self ∧ s1.size = s.size ∧ s1.fresh = s.fresh := by
  intro ctx
  induction ctx with
  | nil =>
    intro t T s a fuel hz ha hb hf
    match t, fuel with
    | Tree.node a' l k v h r, fuel + 1 =>
      simp only [Tree.ptr_node, Option.some.injEq] at ha
      subst ha
      obtain ⟨m, e, hz1⟩ := ZRep_updateHeight hz
      have hma := hz1.2.1.1
      have hbf := calcBF_spec hma rfl rfl hz1.2.1.2.1 hz1.2.1.2.2
      simp only [ctxPar] at hma
      simp only [balanceT, Tree.balanceStep] at hb
      by_cases h2 : Tree.bfC l r = 2
      · simp only [h2, if_true] at hb
        cases hrb : Tree.rebalanceLeftHeavy (Tree.node a' l k v (Tree.updH l r) r) with
        | none => simp [hrb] at hb
        | some t1 =>
          simp only [hrb, Option.some.injEq] at hb
          subst hb
          obtain ⟨s1, e1, hz2, hm⟩ := rebalanceLeftHeavy_spec hz1 rfl hrb
          refine ⟨s1, ?_, ZRep_nil.1 hz2, hm⟩
          simp only [balance, e, hbf, Mem.getParent, hma, h2, if_true, e1]
          cases onInsert <;> simp
      · by_cases h3 : Tree.bfC l r = -2
        · simp only [h3, if_true] at hb
          cases hrb : Tree.rebalanceRightHeavy (Tree.node a' l k v (Tree.updH l r) r) with
          | none => simp [hrb] at hb
          | some t1 =>
            simp only [hrb] at hb
            simp at hb
            subst hb
            obtain ⟨s1, e1, hz2, hm⟩ := rebalanceRightHeavy_spec hz1 rfl hrb
            refine ⟨s1, ?_, ZRep_nil.1 hz2, hm⟩
            simp only [balance, e, hbf, Mem.getParent, hma, h3, if_true, e1]
            cases onInsert <;> simp [e1]
        · simp only [h2, h3, if_false, Option.some.injEq] at hb
          subst hb
          refine ⟨_, ?_, ZRep_nil.1 hz1, rfl, rfl, rfl⟩
          simp [balance, e, hbf, Mem.getParent, hma, h2, h3]
  | cons f fs ih =>
    intro t T s a fuel hz ha hb hf
    match t, fuel with
    | Tree.node a' l k v h r, fuel + 1 =>
      simp only [Tree.ptr_node, Option.some.injEq] at ha
      subst ha
      obtain ⟨m, e, hz1⟩ := ZRep_updateHeight hz
      have hma := hz1.2.1.1
      have hbf := calcBF_spec hma rfl rfl hz1.2.1.2.1 hz1.2.1.2.2
      simp only [ctxPar] at hma
      simp only [List.length_cons, Nat.add_lt_add_iff_right] at hf
      simp only [balanceT, Tree.balanceStep] at hb
      by_cases h2 : Tree.bfC l r = 2
      · simp only [h2, if_true] at hb
        cases hrb : Tree.rebalanceLeftHeavy (Tree.node a' l k v (Tree.updH l r) r) with
        | none => simp [hrb] at hb
        | some t1 =>
          simp only [hrb, true_and] at hb
          obtain ⟨s1, e1, hz2, hm⟩ := rebalanceLeftHeavy_spec hz1 rfl hrb
          cases onInsert with
          | true =>
            simp only [if_true, Option.some.injEq] at hb
            subst hb
            refine ⟨s1, ?_, ZRep_plug.1 hz2, hm⟩
            simp [balance, e, hbf, Mem.getParent, hma, h2, e1]
          | false =>
            simp only [Bool.false_eq_true, if_false] at hb
            have hfa : (f.fill t1).ptr = some f.addr := by cases f <;> rfl
            obtain ⟨s2, e2, hr2, hm2⟩ := ih (f.fill t1) T s1 f.addr fuel (ZRep_up.1 hz2) hfa hb hf
            refine ⟨s2, ?_, hr2, ?_⟩
            · simp [balance, e, hbf, Mem.getParent, hma, h2, e1, e2]
            · obtain ⟨x1, x2, x3⟩ := hm
              obtain ⟨y1, y2, y3⟩ := hm2
              exact ⟨y1.trans x1, y2.trans x2, y3.trans x3⟩
      · by_cases h3 : Tree.bfC l r = -2
        · simp only [h3, if_true] at hb
          cases hrb : Tree.rebalanceRightHeavy (Tree.node a' l k v (Tree.updH l r) r) with
          | none => simp [hrb] at hb
          | some t1 =>
            simp only [hrb] at hb
            simp only [show ((-2 : Int) = 2) = False from by simp, if_false, true_and] at hb
            obtain ⟨s1, e1, hz2, hm⟩ := rebalanceRightHeavy_spec hz1 rfl hrb
            cases onInsert with
            | true =>
              simp only [if_true, Option.some.injEq] at hb
              subst hb
              refine ⟨s1, ?_, ZRep_plug.1 hz2, hm⟩
              simp [balance, e, hbf, Mem.getParent, hma, h3, e1]
            | false =>
              simp only [Bool.false_eq_true, if_false] at hb
              have hfa : (f.fill t1).ptr = some f.addr := by cases f <;> rfl
              obtain ⟨s2, e2, hr2, hm2⟩ := ih (f.fill t1) T s1 f.addr fuel (ZRep_up.1 hz2) hfa hb hf
              refine ⟨s2, ?_, hr2, ?_⟩
              · simp [balance, e, hbf, Mem.getParent, hma, h3, e1, e2]
              · obtain ⟨x1, x2, x3⟩ := hm
                obtain ⟨y1, y2, y3⟩ := hm2
                exact ⟨y1.trans x1, y2.trans x2, y3.trans x3⟩
        · simp only [h2, h3, if_false, Bool.false_eq_true, false_and] at hb
          have hfa : (f.fill (Tree.node a' l k v (Tree.updH l r) r)).ptr = some f.addr := by
            cases f <;> rfl
          obtain ⟨s2, e2, hr2, hm2⟩ := ih _ T { s with mem := m } f.addr fuel (ZRep_up.1 hz1) hfa hb hf
          refine ⟨s2, ?_, hr2, hm2⟩
          simp [balance, e, hbf, Mem.getParent, hma, h2, h3, e2]

theorem Tree.length_addrs (t : Tree K V) : t.addrs.length = t.count := by
  induction t with
  | nil => rfl
  | node a l k v h r ihl ihr => simp [Tree.addrs, Tree.count, ihl, ihr]; omega

theorem length_le_of_nodup_lt {l : List Nat} {n : Nat} (hnd : l.Nodup) (hlt : ∀ a ∈ l, a < n) :
    l.length ≤ n := by
  have hsub : l ⊆ List.range n := fun a ha => List.mem_range.2 (hlt a ha)
  have := (List.subperm_of_subset hnd hsub).length_le
  simpa using this

theorem length_le_ctxAddrs (ctx : List (Frame K V)) : ctx.length ≤ (ctxAddrs ctx).length := by
  induction ctx with
  | nil => simp
  | cons f fs ih => simp [ctxAddrs]; omega

theorem ZRep.count_le {s : AVL K V} {ctx : List (Frame K V)} {t : Tree K V} (hz : ZRep s ctx t) :
    ctx.length + t.count ≤ s.fresh := by
  have h := length_le_of_nodup_lt hz.2.2.1 hz.2.2.2
  have h2 := length_le_ctxAddrs ctx
  rw [List.length_append, Tree.length_addrs] at h
  omega

theorem load_ctxSlot {s : AVL K V} {ctx : List (Frame K V)} {t : Tree K V} (hz : ZRep s ctx t) :
    s.load (ctxSlot ctx) = some t.ptr := by
  obtain ⟨hc, -⟩ := hz
  match ctx, hc with
  | [], hc => simp only [LinkedPath] at hc; simp [load, ctxSlot, hc]
  | Frame.inL a k v h r :: fs, hc => simp [load, ctxSlot, Mem.getLeftSon, hc.1]
  | Frame.inR a l k v h :: fs, hc => simp [load, ctxSlot, Mem.getRightSon, hc.1]

theorem ZRep_zoom [LinearOrder K] {s : AVL K V} (key : K) :
    ∀ (t : Tree K V) (ctx : List (Frame K V)), ZRep s ctx t →
      ZRep s (zoom key ctx t).1 (zoom key ctx t).2 := by
  intro t
  induction t with
  | nil => intro ctx hz; simpa [zoom] using hz
  | node a l k v h r ihl ihr =>
    intro ctx hz
    simp only [zoom]
    split
    · exact hz
    · split
      · exact ihl _ (ZRep_up.2 hz)
      · exact ihr _ (ZRep_up.2 hz)

theorem zoom_ptr [LinearOrder K] (key : K) :
    ∀ (t : Tree K V) (ctx : List (Frame K V)), (zoom key ctx t).2.ptr = t.lookup key := by
  intro t
  induction t with
  | nil => intro ctx; rfl
  | node a l k v h r ihl ihr =>
    intro ctx
    simp only [zoom, Tree.lookup]
    split
    · rfl
    · split
      · exact ihl _
      · exact ihr _

theorem findAuxLoop_spec [LinearOrder K] {s : AVL K V} (key : K) :
    ∀ (t : Tree K V) (ctx : List (Frame K V)) (fuel : Nat), ZRep s ctx t → t ≠ Tree.nil →
      t.count ≤ fuel →
      findAuxLoop fuel s key (ctxSlot ctx) = some (ctxSlot (zoom key ctx t).1) := by
  intro t
  induction t with
  | nil => intro ctx fuel _ h; exact absurd rfl h
  | node a l k v h r ihl ihr =>
    intro ctx fuel hz _ hf
    match fuel, hf with
    | 0, hf => simp [Tree.count] at hf
    | fuel + 1, hf =>
      have hld := load_ctxSlot hz
      have hma := hz.2.1.1
      simp only [Tree.count] at hf
      simp only [findAuxLoop, hld, Tree.ptr_node, hma, zoom]
      by_cases hk : ¬ (k < key) ∧ ¬ (key < k)
      · simp only [hk, not_false_eq_true, and_self, if_true]
      · simp only [hk, if_false]
        by_cases hlt : key < k
        · simp only [hlt, if_true]
          have hz1 : ZRep s (Frame.inL a k v h r :: ctx) l := ZRep_up.2 hz
          have hl1 := load_ctxSlot hz1
          simp only [ctxSlot] at hl1
          rw [hl1]
          cases l with
          | nil => simp [zoom, ctxSlot]
          | node al ll kl vl hl lr =>
            simp only [Tree.ptr_node]
            exact ihl _ fuel hz1 (by simp) (by omega)
        · simp only [hlt, if_false]
          have hz1 : ZRep s (Frame.inR a l k v h :: ctx) r := ZRep_up.2 hz
          have hl1 := load_ctxSlot hz1
          simp only [ctxSlot] at hl1
          rw [hl1]
          cases r with
          | nil => simp [zoom, ctxSlot]
          | node ar rl kr vr hr rr =>
            simp only [Tree.ptr_node]
            exact ihr _ fuel hz1 (by simp) (by omega)

theorem findAux_spec [LinearOrder K] {s : AVL K V} {T : Tree K V} (key : K) (hr : Rep s T) :
    findAux s key = some (ctxSlot (zoom key [] T).1) := by
  have hz := ZRep_nil.2 hr
  cases T with
  | nil =>
    have : s.root = none := hr.1
    simp [findAux, this, zoom, ctxSlot]
  | node a l k v h r =>
    have : s.root = some a := hr.1
    simp only [findAux, this]
    have hc := hz.count_le
    exact findAuxLoop_spec key _ [] _ hz (by simp) (by simp at hc; omega)

theorem find_spec [LinearOrder K] {s : AVL K V} {T : Tree K V} (key : K) (hr : Rep s T) :
    find s key = some { avl := s.self, current := T.lookup key } := by
  have hz := ZRep_zoom key T [] (ZRep_nil.2 hr)
  simp only [find, findAux_spec key hr, load_ctxSlot hz, zoom_ptr]

theorem Node.new_leaf (s : AVL K V) (key : K) (element : V) (par : Option Nat) :
    Node.new s key element par none none =
      some ({ s with mem := s.mem.write s.fresh ⟨key, element, par, none, none, 0⟩,
                     fresh := s.fresh + 1 }, s.fresh) := by
  have e := updateHeight_spec (m := s.mem.write s.fresh ⟨key, element, par, none, none, 0⟩)
    (p := s.fresh) (n := ⟨key, element, par, none, none, 0⟩) (l := Tree.nil) (r := Tree.nil)
    (by simp) rfl rfl trivial trivial (by simp [Tree.addrs]) (by simp [Tree.addrs])
  simp only [Node.new, e, Tree.updH, Tree.h1, Mem.write_write]

theorem attach_spec {s : AVL K V} {f : Frame K V} {fs : List (Frame K V)} (key : K) (element : V)
    (hz : ZRep s (f :: fs) Tree.nil) :
    ∃ s2, Node.new s key element (some f.addr) none none =
        some ({ s with mem := s.mem.write s.fresh ⟨key, element, some f.addr, none, none, 0⟩,
                       fresh := s.fresh + 1 }, s.fresh) ∧
      store { s with mem := s.mem.write s.fresh ⟨key, element, some f.addr, none, none, 0⟩,
                     fresh := s.fresh + 1 } (ctxSlot (f :: fs)) (some s.fresh) = some s2 ∧
      s2.load (ctxSlot (f :: fs)) = some (some s.fresh) ∧
      ZRep s2 (f :: fs) (Tree.node s.fresh Tree.nil key element 0 Tree.nil) ∧
      s2.self = s.self ∧ s2.size = s.size ∧ s2.fresh = s.fresh + 1 := by
  obtain ⟨hc, -, hnd, hfr⟩ := hz
  simp only [Tree.addrs, List.append_nil] at hnd hfr
  have hfresh : s.fresh ∉ ctxAddrs (f :: fs) := fun hx => Nat.lt_irrefl _ (hfr _ hx)
  cases f with
  | inL a k v h r =>
    obtain ⟨h1, h2, h3⟩ := hc
    have hnd1 := hnd
    simp only [ctxAddrs, Frame.addr, Frame.sib, List.nodup_cons, List.mem_append, not_or,
      List.nodup_append, List.mem_cons, List.disjoint_cons_left, List.cons_append] at hnd1 hfresh
    obtain ⟨⟨har, hac⟩, -⟩ := hnd1
    obtain ⟨hpa, hpr, hpc⟩ := hfresh
    have hap : a ≠ s.fresh := fun e => hpa e.symm
    refine ⟨⟨s.self, s.root, s.size, (s.mem.write s.fresh ⟨key, element, some a, none, none, 0⟩).write a
      ⟨k, v, ctxPar fs none, some s.fresh, r.ptr, h⟩, s.fresh + 1⟩, Node.new_leaf _ _ _ _, ?_, ?_,
      ⟨⟨?_, ?_, ?_⟩, ⟨?_, trivial, trivial⟩, ?_, ?_⟩, rfl, rfl, rfl⟩
    · simp [store, ctxSlot, Mem.setLeftSon, Mem.write_other _ _ hap, h1, Frame.addr]
    · simp [load, ctxSlot, Mem.getLeftSon]
    · simp
    · refine Linked.frame h2 (fun q hq => ?_)
      dsimp only
      rw [Mem.write_other _ _ (ne_of_mem_of_not_mem hq har),
        Mem.write_other _ _ (ne_of_mem_of_not_mem hq hpr)]
    · refine LinkedPath.frame_path h3 (fun q hq => ?_)
      dsimp only
      rw [Mem.write_other _ _ (ne_of_mem_of_not_mem hq hac),
        Mem.write_other _ _ (ne_of_mem_of_not_mem hq hpc)]
    · dsimp only [ctxPar, Frame.addr, Tree.ptr_nil]
      rw [Mem.write_other _ _ (Ne.symm hap)]; simp
    · have : (ctxAddrs (Frame.inL a k v h r :: fs) ++ [s.fresh]).Nodup := by
        rw [List.nodup_append]
        refine ⟨hnd, List.nodup_singleton _, ?_⟩
        intro x hx hx2
        simp only [List.mem_singleton] at hx2
        subst hx2
        exact Nat.lt_irrefl _ (hfr _ hx)
      simpa [Tree.addrs] using this
    · intro x hx
      simp only [Tree.addrs, List.nil_append, List.mem_append, List.mem_singleton] at hx
      rcases hx with hx | hx
      · exact Nat.lt_succ_of_lt (hfr _ hx)
      · subst hx; exact Nat.lt_succ_self _
  | inR a l k v h =>
    obtain ⟨h1, h2, h3⟩ := hc
    have hnd1 := hnd
    simp only [ctxAddrs, Frame.addr, Frame.sib, List.nodup_cons, List.mem_append, not_or,
      List.nodup_append, List.mem_cons, List.disjoint_cons_left, List.cons_append] at hnd1 hfresh
    obtain ⟨⟨har, hac⟩, -⟩ := hnd1
    obtain ⟨hpa, hpr, hpc⟩ := hfresh
    have hap : a ≠ s.fresh := fun e => hpa e.symm
    refine ⟨⟨s.self, s.root, s.size, (s.mem.write s.fresh ⟨key, element, some a, none, none, 0⟩).write a
      ⟨k, v, ctxPar fs none, l.ptr, some s.fresh, h⟩, s.fresh + 1⟩, Node.new_leaf _ _ _ _, ?_, ?_,
      ⟨⟨?_, ?_, ?_⟩, ⟨?_, trivial, trivial⟩, ?_, ?_⟩, rfl, rfl, rfl⟩
    · simp [store, ctxSlot, Mem.setRightSon, Mem.write_other _ _ hap, h1, Frame.addr]
    · simp [load, ctxSlot, Mem.getRightSon]
    · simp
    · refine Linked.frame h2 (fun q hq => ?_)
      dsimp only
      rw [Mem.write_other _ _ (ne_of_mem_of_not_mem hq har),
        Mem.write_other _ _ (ne_of_mem_of_not_mem hq hpr)]
    · refine LinkedPath.frame_path h3 (fun q hq => ?_)
      dsimp only
      rw [Mem.write_other _ _ (ne_of_mem_of_not_mem hq hac),
        Mem.write_other _ _ (ne_of_mem_of_not_mem hq hpc)]
    · dsimp only [ctxPar, Frame.addr, Tree.ptr_nil]
      rw [Mem.write_other _ _ (Ne.symm hap)]; simp
    · have : (ctxAddrs (Frame.inR a l k v h :: fs) ++ [s.fresh]).Nodup := by
        rw [List.nodup_append]
        refine ⟨hnd, List.nodup_singleton _, ?_⟩
        intro x hx hx2
        simp only [List.mem_singleton] at hx2
        subst hx2
        exact Nat.lt_irrefl _ (hfr _ hx)
      simpa [Tree.addrs] using this
    · intro x hx
      simp only [Tree.addrs, List.nil_append, List.mem_append, List.mem_singleton] at hx
      rcases hx with hx | hx
      · exact Nat.lt_succ_of_lt (hfr _ hx)
      · subst hx; exact Nat.lt_succ_self _

theorem insertLoop_found [LinearOrder K] (key : K) (element : V) {s : AVL K V} {a1 : Nat} :
    ∀ (t : Tree K V) (ctx : List (Frame K V)) (fuel : Nat), ZRep s ctx t → t.count ≤ fuel →
      t.lookup key = some a1 →
      insertLoop fuel s key element t.ptr =
        assertInvariant { s with size := s.size - 1 }
          { first := { avl := s.self, current := some a1 }, second := false } := by
  intro t
  induction t with
  | nil => intro ctx fuel _ _ h; simp [Tree.lookup] at h
  | node a l k v h r ihl ihr =>
    intro ctx fuel hz hf hlk
    match fuel, hf with
    | 0, hf => simp [Tree.count] at hf
    | fuel + 1, hf =>
      have hma := hz.2.1.1
      simp only [Tree.count] at hf
      simp only [Tree.lookup] at hlk
      simp only [insertLoop, Tree.ptr_node, hma]
      by_cases hk : ¬ (k < key) ∧ ¬ (key < k)
      · simp only [hk, not_false_eq_true, and_self, if_true, Option.some.injEq] at hlk ⊢
        subst hlk; rfl
      · simp only [hk, if_false] at hlk ⊢
        by_cases hlt : key < k
        · simp only [hlt, if_true] at hlk ⊢
          have hz1 : ZRep s (Frame.inL a k v h r :: ctx) l := ZRep_up.2 hz
          have hl1 := load_ctxSlot hz1
          simp only [ctxSlot] at hl1
          rw [hl1]
          cases l with
          | nil => simp [Tree.lookup] at hlk
          | node al ll kl vl hl lr =>
            simp only [Tree.ptr_node]
            exact ihl _ fuel hz1 (by omega) hlk
        · simp only [hlt, if_false] at hlk ⊢
          have hz1 : ZRep s (Frame.inR a l k v h :: ctx) r := ZRep_up.2 hz
          have hl1 := load_ctxSlot hz1
          simp only [ctxSlot] at hl1
          rw [hl1]
          cases r with
          | nil => simp [Tree.lookup] at hlk
          | node ar rl kr vr hr rr =>
            simp only [Tree.ptr_node]
            exact ihr _ fuel hz1 (by omega) hlk

theorem insertLoop_attach_here [LinearOrder K] (key : K) (element : V) {s : AVL K V}
    {f : Frame K V} {fs : List (Frame K V)} {T : Tree K V}
    (hz1 : ZRep s (f :: fs) Tree.nil)
    (hb : balanceT true fs (f.fill (Tree.node s.fresh Tree.nil key element 0 Tree.nil)) = some T) :
    ∃ s1, (match Node.new s key element (some f.addr) none none with
        | none => none
        | some (s1, p) =>
          match s1.store (ctxSlot (f :: fs)) (some p) with
          | none => none
          | some s2 =>
            match s2.load (ctxSlot (f :: fs)) with
            | none => none
            | some it =>
              match balance (s2.fresh + 1) s2 f.addr true with
              | none => none
              | some s3 =>
                assertInvariant s3 ({ first := { avl := s.self, current := it }, second := true } :
                  Pair Iterator Bool)) =
        assertInvariant s1
          { first := { avl := s.self, current := some s.fresh }, second := true } ∧
      Rep s1 T ∧ s1.self = s.self ∧ s1.size = s.size ∧ s1.fresh = s.fresh + 1 := by
  obtain ⟨s2, e1, e2, e3, hz2, hm2⟩ := attach_spec key element hz1
  have hz3 := ZRep_up.1 hz2
  have hfa : (f.fill (Tree.node s.fresh Tree.nil key element 0 Tree.nil)).ptr = some f.addr := by
    cases f <;> rfl
  have hc := hz3.count_le
  obtain ⟨s3, e4, hr3, hm3⟩ := balance_spec true fs _ T s2 f.addr (s2.fresh + 1) hz3 hfa hb
    (by omega)
  refine ⟨s3, ?_, hr3, ?_⟩
  · simp only [e1, e2, e3, e4]
  · obtain ⟨x1, x2, x3⟩ := hm2
    obtain ⟨y1, y2, y3⟩ := hm3
    exact ⟨y1.trans x1, y2.trans x2, y3.trans x3⟩

theorem insertLoop_attach [LinearOrder K] (key : K) (element : V) {s : AVL K V}
    {f : Frame K V} {fs : List (Frame K V)} {T : Tree K V} :
    ∀ (t : Tree K V) (ctx : List (Frame K V)) (fuel : Nat), ZRep s ctx t → t ≠ Tree.nil →
      t.count ≤ fuel → zoom key ctx t = (f :: fs, Tree.nil) →
      balanceT true fs (f.fill (Tree.node s.fresh Tree.nil key element 0 Tree.nil)) = some T →
      ∃ s1, insertLoop fuel s key element t.ptr =
          assertInvariant s1
            { first := { avl := s.self, current := some s.fresh }, second := true } ∧
        Rep s1 T ∧ s1.self = s.self ∧ s1.size = s.size ∧ s1.fresh = s.fresh + 1 := by
  intro t
  induction t with
  | nil => intro ctx fuel _ h; exact absurd rfl h
  | node a l k v h r ihl ihr =>
    intro ctx fuel hz _ hf hzm hb
    match fuel, hf with
    | 0, hf => simp [Tree.count] at hf
    | fuel + 1, hf =>
      have hma := hz.2.1.1
      simp only [Tree.count] at hf
      simp only [zoom] at hzm
      simp only [insertLoop, Tree.ptr_node, hma]
      by_cases hk : ¬ (k < key) ∧ ¬ (key < k)
      · simp [hk] at hzm
      · simp only [hk, if_false] at hzm ⊢
        by_cases hlt : key < k
        · simp only [hlt, if_true] at hzm ⊢
          have hz1 : ZRep s (Frame.inL a k v h r :: ctx) l := ZRep_up.2 hz
          have hl1 := load_ctxSlot hz1
          simp only [ctxSlot] at hl1
          rw [hl1]
          cases l with
          | nil =>
            simp only [zoom, Prod.mk.injEq, List.cons.injEq, and_true] at hzm
            obtain ⟨rfl, rfl⟩ := hzm
            exact insertLoop_attach_here key element hz1 hb
          | node al ll kl vl hl lr =>
            simp only [Tree.ptr_node]
            exact ihl _ fuel hz1 (by simp) (by omega) hzm hb
        · simp only [hlt, if_false] at hzm ⊢
          have hz1 : ZRep s (Frame.inR a l k v h :: ctx) r := ZRep_up.2 hz
          have hl1 := load_ctxSlot hz1
          simp only [ctxSlot] at hl1
          rw [hl1]
          cases r with
          | nil =>
            simp only [zoom, Prod.mk.injEq, List.cons.injEq, and_true] at hzm
            obtain ⟨rfl, rfl⟩ := hzm
            exact insertLoop_attach_here key element hz1 hb
          | node ar rl kr vr hr rr =>
            simp only [Tree.ptr_node]
            exact ihr _ fuel hz1 (by simp) (by omega) hzm hb

theorem insert_refines [LinearOrder K] {s : AVL K V} {T T1 : Tree K V} {key : K} {element : V}
    {it : Option Nat} {b : Bool} (hr : Rep s T)
    (h : insertT s.fresh key element T = some (T1, it, b)) :
    ∃ s1, insert s key element =
        assertInvariant s1 { first := { avl := s.self, current := it }, second := b } ∧
      Rep s1 T1 ∧ s1.self = s.self ∧
      s1.size = s.size + (if b = true then 1 else 0) ∧
      s1.fresh = s.fresh + (if b = true then 1 else 0) ∧ (b = false → s1 = s) := by
  cases T with
  | nil =>
    have hroot : s.root = none := hr.1
    simp only [insertT, Option.some.injEq, Prod.mk.injEq] at h
    obtain ⟨rfl, rfl, rfl⟩ := h
    refine ⟨⟨s.self, some s.fresh, s.size + 1,
      s.mem.write s.fresh ⟨key, element, none, none, none, 0⟩, s.fresh + 1⟩,
      ?_, ⟨rfl, ⟨?_, trivial, trivial⟩, ?_, ?_⟩, rfl, ?_, ?_, ?_⟩
    · simp only [insert, hroot, Node.new_leaf]
    · simp
    · simp [Tree.addrs]
    · simp [Tree.addrs]
    · simp
    · simp
    · simp
  | node a l k v hh r =>
    have hroot : s.root = some a := hr.1
    have hz : ZRep { s with size := s.size + 1 } [] (Tree.node a l k v hh r) := ZRep_nil.2 hr
    have hc := hz.count_le
    simp only [List.length_nil, Nat.zero_add] at hc
    simp only [insertT] at h
    have hzp := zoom_ptr key (Tree.node a l k v hh r) []
    cases hzm : zoom key [] (Tree.node a l k v hh r) with
    | mk ctx1 t1 =>
      rw [hzm] at h hzp
      cases t1 with
      | node a1 l1 k1 v1 h1 r1 =>
        simp only [Option.some.injEq, Prod.mk.injEq] at h
        obtain ⟨rfl, rfl, rfl⟩ := h
        have e := insertLoop_found key element _ [] (s.fresh + 1) hz (by omega) hzp.symm
        simp only [Tree.ptr_node, hroot] at e
        refine ⟨s, ?_, hr, rfl, by simp, by simp, fun _ => rfl⟩
        simp only [insert, hroot, e]
        simp [← hroot]
      | nil =>
        cases ctx1 with
        | nil => simp at h
        | cons f fs =>
          simp only at h
          cases hb : balanceT true fs (f.fill (Tree.node s.fresh Tree.nil key element 0 Tree.nil)) with
          | none => simp [hb] at h
          | some T2 =>
            simp only [hb, Option.some.injEq, Prod.mk.injEq] at h
            obtain ⟨rfl, rfl, rfl⟩ := h
            obtain ⟨s1, e, hr1, hm1, hm2, hm3⟩ :=
              insertLoop_attach key element _ [] (s.fresh + 1) hz (by simp) (by omega) hzm hb
            simp only [Tree.ptr_node, hroot] at e
            refine ⟨s1, ?_, hr1, hm1, by simpa using hm2, by simpa using hm3, by simp⟩
            simp only [insert, hroot, e]

theorem plug_append (p q : List (Frame K V)) (t : Tree K V) :
    plug (p ++ q) t = plug q (plug p t) := by
  induction p generalizing t with
  | nil => rfl
  | cons f fs ih => simp [plug, ih]

theorem ZRep_append {s : AVL K V} {p ctx : List (Frame K V)} :
    ∀ {t : Tree K V}, ZRep s (p ++ ctx) t ↔ ZRep s ctx (plug p t) := by
  induction p with
  | nil => intro t; rfl
  | cons f fs ih => intro t; rw [List.cons_append, ZRep_up, ih]; rfl

theorem plug_ptr_ne_nil (p : List (Frame K V)) (t : Tree K V) (h : p ≠ []) :
    ∃ a, (plug p t).ptr = some a := by
  induction p generalizing t with
  | nil => exact absurd rfl h
  | cons f fs ih =>
    cases fs with
    | nil => cases f <;> exact ⟨_, rfl⟩
    | cons g gs => exact ih (f.fill t) (by simp)

/-- A linked subtree `plug p t`, seen from `t`. -/
theorem Linked_plug {m : Mem K V} {par : Option Nat} {p : List (Frame K V)} :
    ∀ {t : Tree K V}, Linked m par (plug p t) ↔
      LinkedPath m p t.ptr par (plug p t).ptr ∧ Linked m (ctxPar p par) t := by
  induction p with
  | nil => intro t; simp [plug, LinkedPath, ctxPar]
  | cons f fs ih =>
    intro t
    rw [plug, ih]
    cases f with
    | inL a k v h r =>
      simp only [Frame.fill, Linked, Tree.ptr_node, LinkedPath, ctxPar, Frame.addr, plug]
      constructor
      · rintro ⟨h1, h2, h3, h4⟩; exact ⟨⟨h2, h4, h1⟩, h3⟩
      · rintro ⟨⟨h2, h4, h1⟩, h3⟩; exact ⟨h1, h2, h3, h4⟩
    | inR a l k v h =>
      simp only [Frame.fill, Linked, Tree.ptr_node, LinkedPath, ctxPar, Frame.addr, plug]
      constructor
      · rintro ⟨h1, h2, h3, h4⟩; exact ⟨⟨h2, h3, h1⟩, h4⟩
      · rintro ⟨⟨h2, h3, h1⟩, h4⟩; exact ⟨h1, h2, h3, h4⟩

theorem plug_addrs_perm (p : List (Frame K V)) (t : Tree K V) :
    (plug p t).addrs.Perm (ctxAddrs p ++ t.addrs) := by
  induction p generalizing t with
  | nil => simp [plug, ctxAddrs]
  | cons f fs ih =>
    rw [plug]
    refine (ih (f.fill t)).trans ?_
    exact (ctxAddrs_fill_perm f fs t).symm

theorem plug_ptr_congr (p : List (Frame K V)) (t t1 : Tree K V) (h : p ≠ []) :
    (plug p t).ptr = (plug p t1).ptr := by
  induction p generalizing t t1 with
  | nil => exact absurd rfl h
  | cons f fs ih =>
    cases fs with
    | nil => cases f <;> rfl
    | cons g gs => exact ih (f.fill t) (f.fill t1) (by simp)

theorem updateNodeRelatives_spec {s : AVL K V} {ctx : List (Frame K V)} {node old : Nat}
    {l r : Tree K V} {k : K} {v : V} {h : Int} {pl pr par top : Option Nat}
    (hn : s.mem node = some ⟨k, v, ctxPar ctx none, l.ptr, r.ptr, h⟩)
    (hl : Linked s.mem pl l) (hr : Linked s.mem pr r)
    (hc : LinkedPath s.mem ctx (some old) par top)
    (hnd : (ctxAddrs ctx ++ (l.addrs ++ node :: r.addrs)).Nodup)
    (hold : old ∉ ctxAddrs ctx) :
    ∃ m1, updateNodeRelatives s node old =
        some { s with root := newTop ctx (some node) s.root, mem := m1 } ∧
      m1 node = some ⟨k, v, ctxPar ctx none, l.ptr, r.ptr, h⟩ ∧
      Linked m1 (some node) l ∧ Linked m1 (some node) r ∧
      LinkedPath m1 ctx (some node) par (newTop ctx (some node) top) ∧
      (∀ x, l.ptr ≠ some x → r.ptr ≠ some x → ctxPar ctx none ≠ some x → m1 x = s.mem x) := by
  simp only [List.nodup_cons, List.mem_append, not_or,
    List.nodup_append, List.mem_cons, List.disjoint_cons_left, List.disjoint_cons_right,
    List.disjoint_append_left, List.disjoint_append_right] at hnd
  obtain ⟨hcN, ⟨hlN, ⟨hnr, hrN⟩, hnl, hlr⟩, hcl, hnc, hcr⟩ := hnd
  obtain ⟨m1, e1, hl1, hm1⟩ := @setParentIf_spec K V _ _ (some node) _ hl hlN
  have hr1 : Linked m1 pr r := Linked.frame hr
    (fun q hq => hm1 q (Tree.ptr_ne_of_not_mem (fun hx => hlr hx hq)))
  obtain ⟨m2, e2, hr2, hm2⟩ := @setParentIf_spec K V _ _ (some node) _ hr1 hrN
  have hl2 : Linked m2 (some node) l := Linked.frame hl1
    (fun q hq => hm2 q (Tree.ptr_ne_of_not_mem (fun hx => hlr hq hx)))
  have hm1n : m1 node = s.mem node := hm1 _ (Tree.ptr_ne_of_not_mem hnl)
  have hm2n : m2 node = s.mem node := (hm2 _ (Tree.ptr_ne_of_not_mem hnr)).trans hm1n
  have hm2c : ∀ q ∈ ctxAddrs ctx, m2 q = s.mem q := fun q hq => by
    rw [hm2 q (Tree.ptr_ne_of_not_mem (fun hx => hcr hq hx)),
      hm1 q (Tree.ptr_ne_of_not_mem (fun hx => hcl hq hx))]
  have hc2 : LinkedPath m2 ctx (some old) par top := LinkedPath.frame_path hc hm2c
  have hm2o : ∀ x, l.ptr ≠ some x → r.ptr ≠ some x → m2 x = s.mem x := fun x h1 h2 => by
    rw [hm2 x h2, hm1 x h1]
  cases ctx with
  | nil =>
    refine ⟨m2, ?_, by rw [hm2n, hn], hl2, hr2, by simp [LinkedPath, newTop], fun x h1 h2 _ => hm2o x h1 h2⟩
    simp only [updateNodeRelatives, Mem.getLeftSon, hn, e1, Mem.getRightSon, hm1n, e2,
      Mem.getParent, hm2n, ctxPar, newTop]
  | cons f fs =>
    cases f with
    | inL g kg vg hg rg =>
      obtain ⟨h1, h2, h3⟩ := hc2
      simp only [ctxAddrs, Frame.addr, Frame.sib, List.nodup_cons, List.mem_append, not_or,
        List.nodup_append, List.mem_cons, List.disjoint_cons_left, List.cons_append] at hcN hnc hcl hcr
      obtain ⟨⟨hgr, hgf⟩, -⟩ := hcN
      obtain ⟨hng, -, -⟩ := hnc
      have hgn : g ≠ node := fun e => hng e.symm
      refine ⟨m2.write g ⟨kg, vg, ctxPar fs par, some node, rg.ptr, hg⟩, ?_, ?_, ?_, ?_,
        ⟨by simp, ?_, ?_⟩, ?_⟩
      · simp only [updateNodeRelatives, Mem.getLeftSon, hn, e1, Mem.getRightSon, hm1n, e2,
          Mem.getParent, hm2n, ctxPar, newTop, Frame.addr, h1, if_true, Mem.setLeftSon]
      · rw [Mem.write_other _ _ (Ne.symm hgn), hm2n, hn]
      · exact Linked.frame hl2 (fun q hq => Mem.write_other _ _
          (fun e => hcl.1 (e ▸ hq)))
      · exact Linked.frame hr2 (fun q hq => Mem.write_other _ _
          (fun e => hcr.1 (e ▸ hq)))
      · exact Linked.frame h2 (fun q hq => Mem.write_other _ _ (ne_of_mem_of_not_mem hq hgr))
      · exact LinkedPath.frame_path h3 (fun q hq => Mem.write_other _ _ (ne_of_mem_of_not_mem hq hgf))
      · intro x hx1 hx2 hx3
        rw [Mem.write_other _ _ (fun e => hx3 (by simp [ctxPar, Frame.addr, e])), hm2o x hx1 hx2]
    | inR g lg kg vg hg =>
      obtain ⟨h1, h2, h3⟩ := hc2
      simp only [ctxAddrs, Frame.addr, Frame.sib, List.nodup_cons, List.mem_append, not_or,
        List.nodup_append, List.mem_cons, List.disjoint_cons_left, List.cons_append] at hcN hnc hcl hcr hold
      obtain ⟨⟨hgr, hgf⟩, -⟩ := hcN
      obtain ⟨hng, -, -⟩ := hnc
      have hgn : g ≠ node := fun e => hng e.symm
      have hlo : lg.ptr ≠ some old := Tree.ptr_ne_of_not_mem hold.2.1
      refine ⟨m2.write g ⟨kg, vg, ctxPar fs par, lg.ptr, some node, hg⟩, ?_, ?_, ?_, ?_,
        ⟨by simp, ?_, ?_⟩, ?_⟩
      · simp only [updateNodeRelatives, Mem.getLeftSon, hn, e1, Mem.getRightSon, hm1n, e2,
          Mem.getParent, hm2n, ctxPar, newTop, Frame.addr, h1, hlo, if_false, if_true,
          Mem.setRightSon]
      · rw [Mem.write_other _ _ (Ne.symm hgn), hm2n, hn]
      · exact Linked.frame hl2 (fun q hq => Mem.write_other _ _
          (fun e => hcl.1 (e ▸ hq)))
      · exact Linked.frame hr2 (fun q hq => Mem.write_other _ _
          (fun e => hcr.1 (e ▸ hq)))
      · exact Linked.frame h2 (fun q hq => Mem.write_other _ _ (ne_of_mem_of_not_mem hq hgr))
      · exact LinkedPath.frame_path h3 (fun q hq => Mem.write_other _ _ (ne_of_mem_of_not_mem hq hgf))
      · intro x hx1 hx2 hx3
        rw [Mem.write_other _ _ (fun e => hx3 (by simp [ctxPar, Frame.addr, e])), hm2o x hx1 hx2]

/-- The four field swaps of `swapNodes` on two distinct nodes. -/
theorem swapFields_spec {m : Mem K V} {a b : Nat} {ka kb : K} {va vb : V}
    {pa la ra pb lb rb : Option Nat} {ha hb : Int}
    (hma : m a = some ⟨ka, va, pa, la, ra, ha⟩) (hmb : m b = some ⟨kb, vb, pb, lb, rb, hb⟩)
    (hab : a ≠ b) :
    ∃ m4, (match swapParent m a b with
        | none => none
        | some m1 =>
          match swapLeftSon m1 a b with
          | none => none
          | some m2 =>
            match swapRightSon m2 a b with
            | none => none
            | some m3 => swapHeight m3 a b) = some m4 ∧
      m4 a = some ⟨ka, va, pb, lb, rb, hb⟩ ∧ m4 b = some ⟨kb, vb, pa, la, ra, ha⟩ ∧
      ∀ x, x ≠ a → x ≠ b → m4 x = m x := by
  have hba : b ≠ a := Ne.symm hab
  simp only [swapParent, Mem.getParent, hma, hmb, Mem.setParent, Mem.write_other _ _ hba,
      Mem.write_other _ _ hab, Mem.write_same, swapLeftSon, Mem.getLeftSon, Mem.setLeftSon,
      swapRightSon, Mem.getRightSon, Mem.setRightSon, swapHeight, Mem.getHeight, Mem.setHeight]
  refine ⟨_, rfl, ?_, ?_, ?_⟩
  · simp [Mem.write_other _ _ hab]
  · simp
  · intro x hxa hxb
    simp [Mem.write_other _ _ hxa, Mem.write_other _ _ hxb]

theorem fixSwapSelfAssignment_noop {m : Mem K V} {a b : Nat} {ka : K} {va : V}
    {pa la ra : Option Nat} {ha : Int}
    (hma : m a = some ⟨ka, va, pa, la, ra, ha⟩)
    (h1 : pa ≠ some a) (h2 : la ≠ some a) (h3 : ra ≠ some a) :
    fixSwapSelfAssignment m a b = some m := by
  simp [fixSwapSelfAssignment, Mem.getParent, Mem.getLeftSon, Mem.getRightSon, hma, h1, h2, h3]

theorem fixSwapSelfAssignment_adjacent {m : Mem K V} {a b : Nat} {ka kb : K} {va vb : V}
    {la ra pb lb : Option Nat} {ha hb : Int}
    (hma : m a = some ⟨ka, va, some a, la, ra, ha⟩)
    (hmb : m b = some ⟨kb, vb, pb, lb, some b, hb⟩)
    (hab : a ≠ b) (hlb : lb ≠ some b) :
    ∃ m5, fixSwapSelfAssignment m a b = some m5 ∧
      m5 a = some ⟨ka, va, some b, la, ra, ha⟩ ∧ m5 b = some ⟨kb, vb, pb, lb, some a, hb⟩ ∧
      ∀ x, x ≠ a → x ≠ b → m5 x = m x := by
  have hba : b ≠ a := Ne.symm hab
  simp only [fixSwapSelfAssignment, Mem.getParent, hma, if_true, Mem.setParent,
      Mem.getLeftSon, Mem.write_other _ _ hba, hmb, hlb, if_false, Mem.getRightSon,
      Mem.setRightSon]
  refine ⟨_, rfl, ?_, ?_, ?_⟩
  · simp [Mem.write_other _ _ hab]
  · simp
  · intro x hxa hxb
    simp [Mem.write_other _ _ hxa, Mem.write_other _ _ hxb]

theorem swapFields_eqs {m : Mem K V} {a b : Nat} {ka kb : K} {va vb : V}
    {pa la ra pb lb rb : Option Nat} {ha hb : Int}
    (hma : m a = some ⟨ka, va, pa, la, ra, ha⟩) (hmb : m b = some ⟨kb, vb, pb, lb, rb, hb⟩)
    (hab : a ≠ b) :
    ∃ m1 m2 m3 m4, swapParent m a b = some m1 ∧ swapLeftSon m1 a b = some m2 ∧
      swapRightSon m2 a b = some m3 ∧ swapHeight m3 a b = some m4 ∧
      m4 a = some ⟨ka, va, pb, lb, rb, hb⟩ ∧ m4 b = some ⟨kb, vb, pa, la, ra, ha⟩ ∧
      ∀ x, x ≠ a → x ≠ b → m4 x = m x := by
  have hba : b ≠ a := Ne.symm hab
  have e1 : swapParent m a b = some ((m.write a ⟨ka, va, pb, la, ra, ha⟩).write b
      ⟨kb, vb, pa, lb, rb, hb⟩) := by
    simp [swapParent, Mem.getParent, hma, hmb, Mem.setParent, Mem.write_other _ _ hba]
  have e2 : swapLeftSon ((m.write a ⟨ka, va, pb, la, ra, ha⟩).write b ⟨kb, vb, pa, lb, rb, hb⟩) a b
      = some ((m.write a ⟨ka, va, pb, lb, ra, ha⟩).write b ⟨kb, vb, pa, la, rb, hb⟩) := by
    simp only [swapLeftSon, Mem.getLeftSon, Mem.setLeftSon, Mem.write_other _ _ hba,
      Mem.write_other _ _ hab, Mem.write_same]
    congr 1
    funext x
    simp only [Mem.write_apply]
    split
    · rfl
    · split <;> simp_all
  have e3 : swapRightSon ((m.write a ⟨ka, va, pb, lb, ra, ha⟩).write b ⟨kb, vb, pa, la, rb, hb⟩) a b
      = some ((m.write a ⟨ka, va, pb, lb, rb, ha⟩).write b ⟨kb, vb, pa, la, ra, hb⟩) := by
    simp only [swapRightSon, Mem.getRightSon, Mem.setRightSon, Mem.write_other _ _ hba,
      Mem.write_other _ _ hab, Mem.write_same]
    congr 1
    funext x
    simp only [Mem.write_apply]
    split
    · rfl
    · split <;> simp_all
  have e4 : swapHeight ((m.write a ⟨ka, va, pb, lb, rb, ha⟩).write b ⟨kb, vb, pa, la, ra, hb⟩) a b
      = some ((m.write a ⟨ka, va, pb, lb, rb, hb⟩).write b ⟨kb, vb, pa, la, ra, ha⟩) := by
    simp only [swapHeight, Mem.getHeight, Mem.setHeight, Mem.write_other _ _ hba,
      Mem.write_other _ _ hab, Mem.write_same]
    congr 1
    funext x
    simp only [Mem.write_apply]
    split
    · rfl
    · split <;> simp_all
  refine ⟨_, _, _, _, e1, e2, e3, e4, ?_, ?_, ?_⟩
  · simp [Mem.write_other _ _ hab]
  · simp
  · intro x hxa hxb
    simp [Mem.write_other _ _ hxa, Mem.write_other _ _ hxb]

theorem swapNodes_phase1 {s : AVL K V} {path : List (Frame K V)} {a b : Nat} {S : Tree K V}
    {ka kb : K} {va vb : V} {P Lp : Option Nat} {ha hb : Int}
    (hma : s.mem a = some ⟨ka, va, P, Lp, (plug path (Tree.node b Tree.nil kb vb hb S)).ptr, ha⟩)
    (hR : Linked s.mem (some a) (plug path (Tree.node b Tree.nil kb vb hb S)))
    (hab : a ≠ b) (haS : a ∉ S.addrs) (hap : a ∉ ctxAddrs path) (hbS : b ∉ S.addrs)
    (hbp : b ∉ ctxAddrs path) (hpN : (ctxAddrs path).Nodup) (hSN : S.addrs.Nodup)
    (hpS : (ctxAddrs path).Disjoint S.addrs) (hLb : Lp ≠ some b) :
    ∃ m6 pr, swapNodes s a b = updateNodeRelatives { s with mem := m6 } b a ∧
      m6 b = some ⟨kb, vb, P, Lp, (plug path (Tree.node a Tree.nil ka va hb S)).ptr, ha⟩ ∧
      Linked m6 pr (plug path (Tree.node a Tree.nil ka va hb S)) ∧
      (∀ x, x ≠ a → x ≠ b → x ∉ ctxAddrs path → x ∉ S.addrs → m6 x = s.mem x) := by
  obtain ⟨hp, hmb, -, hS⟩ := Linked_plug.1 hR
  simp only [Tree.ptr_node, Tree.ptr_nil] at hp hmb
  have hba : b ≠ a := Ne.symm hab
  obtain ⟨m1, m2, m3, m4, e1, e2, e3, e4, h4a, h4b, h4o⟩ := swapFields_eqs hma hmb hab
  have hS4 : Linked m4 (some b) S := Linked.frame hS (fun q hq =>
    h4o q (ne_of_mem_of_not_mem hq haS) (ne_of_mem_of_not_mem hq hbS))
  cases path with
  | nil =>
    simp only [plug, Tree.ptr_node, ctxPar] at hma hmb h4a h4b ⊢
    obtain ⟨m5, e5, h5a, h5b, h5o⟩ := fixSwapSelfAssignment_adjacent h4a h4b hab hLb
    have hS5 : Linked m5 (some b) S := Linked.frame hS4 (fun q hq =>
      h5o q (ne_of_mem_of_not_mem hq haS) (ne_of_mem_of_not_mem hq hbS))
    obtain ⟨m6, e6, hS6, h6o⟩ := @setParentIf_spec K V _ _ (some a) _ hS5 hSN
    have h6a : m6 a = some ⟨ka, va, some b, none, S.ptr, hb⟩ :=
      (h6o a (Tree.ptr_ne_of_not_mem haS)).trans h5a
    have h6b : m6 b = some ⟨kb, vb, P, Lp, some a, ha⟩ :=
      (h6o b (Tree.ptr_ne_of_not_mem hbS)).trans h5b
    refine ⟨m6, some b, ?_, h6b, ⟨h6a, trivial, hS6⟩, ?_⟩
    · simp only [swapNodes, e1, e2, e3, e4, e5]
      have : updateNodeRelatives { s with mem := m5 } a b = some { s with mem := m6 } := by
        simp only [updateNodeRelatives, Mem.getLeftSon, h5a, Mem.setParentIf, Mem.getRightSon,
          Mem.getParent]
        have e6' : Mem.setParentIf m5 S.ptr (some a) = some m6 := e6
        simp only [Mem.setParentIf] at e6'
        rw [e6']
        simp only [h6a, h6b, hLb, if_false, hab, Option.some.injEq, if_true]
      rw [this]
    · intro x hxa hxb _ hxS
      rw [h6o x (Tree.ptr_ne_of_not_mem hxS), h5o x hxa hxb, h4o x hxa hxb]
  | cons f fs =>
    have hcp : ∀ (par : Option Nat), ctxPar (f :: fs) par = some f.addr := fun _ => rfl
    have hqa : f.addr ≠ a := fun e => hap (by simp [ctxAddrs, e])
    simp only [hcp] at hmb h4a
    have e5 : fixSwapSelfAssignment m4 a b = some m4 :=
      fixSwapSelfAssignment_noop h4a (by simpa using hqa) (by simp)
        (Tree.ptr_ne_of_not_mem haS)
    have hp4 : LinkedPath m4 (f :: fs) (some b) (some a)
        (plug (f :: fs) (Tree.node b Tree.nil kb vb hb S)).ptr :=
      LinkedPath.frame_path hp (fun q hq =>
        h4o q (ne_of_mem_of_not_mem hq hap) (ne_of_mem_of_not_mem hq hbp))
    have hnd : (ctxAddrs (f :: fs) ++ ((Tree.nil : Tree K V).addrs ++ a :: S.addrs)).Nodup := by
      simp only [Tree.addrs, List.nil_append, List.nodup_append, List.nodup_cons,
        List.disjoint_cons_right]
      exact ⟨hpN, ⟨haS, hSN⟩, hap, hpS⟩
    obtain ⟨m6, e6, h6a, -, hS6, hp6, h6o⟩ := @updateNodeRelatives_spec K V
      { s with mem := m4 } (f :: fs) a b Tree.nil S ka va hb none (some b) (some a)
      (plug (f :: fs) (Tree.node b Tree.nil kb vb hb S)).ptr
      (by simpa [hcp] using h4a) trivial hS4 hp4 hnd hbp
    simp only [newTop, hcp, Tree.ptr_nil] at e6 h6a hp6 h6o
    have hptr := plug_ptr_congr (f :: fs) (Tree.node b Tree.nil kb vb hb S)
      (Tree.node a Tree.nil ka va hb S) (by simp)
    have h6b : m6 b = some ⟨kb, vb, P, Lp, (plug (f :: fs) (Tree.node a Tree.nil ka va hb S)).ptr, ha⟩ := by
      rw [h6o b (by simp) (Tree.ptr_ne_of_not_mem hbS)
        (by intro e; apply hbp; simp only [Option.some.injEq] at e; simp [ctxAddrs, e]), h4b, hptr]
    refine ⟨m6, some a, ?_, h6b, ?_, ?_⟩
    · simp only [swapNodes, e1, e2, e3, e4, e5, e6]
    · refine Linked_plug.2 ⟨?_, ?_⟩
      · rw [← hptr]; exact hp6
      · exact ⟨by simpa [hcp] using h6a, trivial, hS6⟩
    · intro x hxa hxb hxp hxS
      rw [h6o x (by simp) (Tree.ptr_ne_of_not_mem hxS)
        (by intro e; apply hxp; simp only [Option.some.injEq] at e; simp [ctxAddrs, e]),
        h4o x hxa hxb]

theorem swapNodes_spec {s : AVL K V} {ctx path : List (Frame K V)} {a b : Nat} {L S : Tree K V}
    {ka kb : K} {va vb : V} {ha hb : Int}
    (hz : ZRep s (path ++ Frame.inR a L ka va ha :: ctx) (Tree.node b Tree.nil kb vb hb S)) :
    ∃ s1, swapNodes s a b = some s1 ∧
      ZRep s1 (path ++ Frame.inR b L kb vb ha :: ctx) (Tree.node a Tree.nil ka va hb S) ∧
      s1.self = s.self ∧ s1.size = s.size ∧ s1.fresh = s.fresh := by
  have hz0 : ZRep s ctx (Tree.node a L ka va ha (plug path (Tree.node b Tree.nil kb vb hb S))) :=
    ZRep_up.1 (ZRep_append.1 hz)
  obtain ⟨hc, ⟨hma, hL, hR⟩, hnd0, hfr⟩ := hz0
  have hperm : ∀ (c : Nat) (kc : K) (vc : V),
      (plug path (Tree.node c Tree.nil kc vc hb S)).addrs.Perm (ctxAddrs path ++ c :: S.addrs) := by
    intro c kc vc
    simpa [Tree.addrs] using plug_addrs_perm path (Tree.node c Tree.nil kc vc hb S)
  have hN : (ctxAddrs ctx ++ (L.addrs ++ a :: (ctxAddrs path ++ b :: S.addrs))).Nodup := by
    refine (List.Perm.nodup_iff ?_).1 hnd0
    exact List.Perm.append_left _ (List.Perm.append_left _ (List.Perm.cons _ (hperm b kb vb)))
  have hN0 := hN
  simp only [Tree.addrs, List.nodup_cons, List.mem_append, not_or,
    List.nodup_append, List.mem_cons, List.disjoint_cons_left, List.disjoint_cons_right,
    List.disjoint_append_left, List.disjoint_append_right] at hN
  obtain ⟨hcN, ⟨hLN, ⟨⟨hap, hab, haS⟩, hpN, ⟨hbS, hSN⟩, hbp, hpS⟩, haL, hLp, hbL, hLS⟩,
    hcL, hac, hcp, hbc, hcS⟩ := hN
  simp only [Tree.ptr_node] at hc hma
  obtain ⟨m6, pr, e, h6b, hR6, h6o⟩ := swapNodes_phase1 hma hR hab haS hap hbS hbp hpN hSN hpS
    (Tree.ptr_ne_of_not_mem hbL)
  have hL6 : Linked m6 (some a) L := Linked.frame hL (fun q hq =>
    h6o q (ne_of_mem_of_not_mem hq haL) (ne_of_mem_of_not_mem hq hbL)
      (fun hx => hLp hq hx) (fun hx => hLS hq hx))
  have hc6 : LinkedPath m6 ctx (some a) none s.root := LinkedPath.frame_path hc (fun q hq =>
    h6o q (ne_of_mem_of_not_mem hq hac) (ne_of_mem_of_not_mem hq hbc)
      (fun hx => hcp hq hx) (fun hx => hcS hq hx))
  have hN1 : (ctxAddrs ctx ++ (L.addrs ++ b :: (ctxAddrs path ++ a :: S.addrs))).Nodup := by
    refine (List.Perm.nodup_iff ?_).1 hN0
    refine List.Perm.append_left _ (List.Perm.append_left _ ?_)
    have h1 : (a :: (ctxAddrs path ++ b :: S.addrs)).Perm (a :: b :: (ctxAddrs path ++ S.addrs)) :=
      List.Perm.cons _ List.perm_middle
    have h2 : (b :: (ctxAddrs path ++ a :: S.addrs)).Perm (b :: a :: (ctxAddrs path ++ S.addrs)) :=
      List.Perm.cons _ List.perm_middle
    exact h1.trans ((List.Perm.swap _ _ _).trans h2.symm)
  have hN2 : (ctxAddrs ctx ++ (L.addrs ++
      b :: (plug path (Tree.node a Tree.nil ka va hb S)).addrs)).Nodup := by
    refine (List.Perm.nodup_iff ?_).2 hN1
    exact List.Perm.append_left _ (List.Perm.append_left _ (List.Perm.cons _ (hperm a ka va)))
  obtain ⟨m7, e7, h7b, hL7, hR7, hc7, -⟩ := @updateNodeRelatives_spec K V
    { s with mem := m6 } ctx b a L (plug path (Tree.node a Tree.nil ka va hb S)) kb vb ha
    (some a) pr none s.root h6b hL6 hR6 hc6 hN2 hac
  refine ⟨_, e.trans e7, ?_, rfl, rfl, rfl⟩
  refine ZRep_append.2 (ZRep_up.2 ⟨hc7, ⟨h7b, hL7, hR7⟩, ?_, ?_⟩)
  · simpa [Tree.addrs] using hN2
  · intro x hx
    apply hfr x
    have hmem : ∀ y, y ∈ ctxAddrs ctx ++ (L.addrs ++ b :: (ctxAddrs path ++ a :: S.addrs)) ↔
        y ∈ ctxAddrs ctx ++ (L.addrs ++ a :: (ctxAddrs path ++ b :: S.addrs)) := by
      intro y; simp only [List.mem_append, List.mem_cons]; tauto
    simp only [Tree.addrs, List.mem_append, List.mem_cons, (hperm a ka va).mem_iff,
      (hperm b kb vb).mem_iff] at hx ⊢
    tauto

theorem zoomLeft_append : ∀ (t : Tree K V) (ctx : List (Frame K V)),
    zoomLeft ctx t = ((zoomLeft [] t).1 ++ ctx, (zoomLeft [] t).2) := by
  intro t
  induction t with
  | nil => intro ctx; rfl
  | node a l k v h r ihl _ =>
    intro ctx
    cases l with
    | nil => rfl
    | node al ll kl vl hl lr =>
      simp only [zoomLeft]
      rw [ihl (Frame.inL a k v h r :: ctx), ihl [Frame.inL a k v h r]]
      simp

theorem zoomLeft_spec : ∀ (t : Tree K V), t ≠ Tree.nil →
    ∃ p b kb vb hb S, zoomLeft [] t = (p, Tree.node b Tree.nil kb vb hb S) ∧
      plug p (Tree.node b Tree.nil kb vb hb S) = t := by
  intro t
  induction t with
  | nil => intro h; exact absurd rfl h
  | node a l k v h r ihl _ =>
    intro _
    cases l with
    | nil => exact ⟨[], a, k, v, h, r, rfl, rfl⟩
    | node al ll kl vl hl lr =>
      obtain ⟨p, b, kb, vb, hb, S, e1, e2⟩ := ihl (by simp)
      refine ⟨p ++ [Frame.inL a k v h r], b, kb, vb, hb, S, ?_, ?_⟩
      · simp only [zoomLeft]
        rw [zoomLeft_append, e1]
      · rw [plug_append, e2]; rfl

theorem leftmostLoop_spec {m : Mem K V} :
    ∀ (t : Tree K V) (par : Option Nat) (a fuel : Nat), Linked m par t → t.ptr = some a →
      t.count ≤ fuel → leftmostLoop fuel m a = (zoomLeft [] t).2.ptr := by
  intro t
  induction t with
  | nil => intro _ _ _ _ h; simp at h
  | node a' l k v h r ihl _ =>
    intro par a fuel hl ha hf
    simp only [Tree.ptr_node, Option.some.injEq] at ha
    subst ha
    match fuel, hf with
    | 0, hf => simp [Tree.count] at hf
    | fuel + 1, hf =>
      simp only [Tree.count] at hf
      cases l with
      | nil => simp [leftmostLoop, Mem.getLeftSon, hl.1, zoomLeft]
      | node al ll kl vl hl' lr =>
        simp only [leftmostLoop, Mem.getLeftSon, hl.1, Tree.ptr_node, zoomLeft]
        rw [ihl (some a') al fuel hl.2.1 rfl (by omega), zoomLeft_append _ [Frame.inL a' k v h r]]

theorem removeOne_spec {s : AVL K V} {ctx : List (Frame K V)} {a : Nat} {l r T : Tree K V}
    {k : K} {v : V} {h : Int}
    (hz : ZRep s ctx (Tree.node a l k v h r))
    (hT : removeOneT ctx (Tree.node a l k v h r) = some T) :
    ∃ s1, removeNodeWithOneSonOrLess s a = some s1 ∧ Rep s1 T ∧
      s1.self = s.self ∧ s1.size = s.size ∧ s1.fresh = s.fresh := by
  obtain ⟨hc, ⟨hma, hl, hr⟩, hnd, hfr⟩ := hz
  -- the son that takes the place of the node
  obtain ⟨son, hson, hsl, hsub, hptr, has0⟩ : ∃ son : Tree K V,
      removeOneT ctx (Tree.node a l k v h r) =
        (match ctx with
          | [] => some son
          | f :: fs => balanceT false fs (f.fill son)) ∧
      Linked s.mem (some a) son ∧ son.addrs.Sublist (l.addrs ++ a :: r.addrs) ∧
      (if r.ptr.isSome = true then r.ptr else l.ptr) = son.ptr ∧
      (a ∉ l.addrs → a ∉ r.addrs → a ∉ son.addrs) := by
    cases r with
    | nil =>
      exact ⟨l, by cases ctx <;> rfl, hl, List.sublist_append_left _ _, by simp, fun h1 _ => h1⟩
    | node ar rl kr vr hr' rr =>
      exact ⟨_, by cases ctx <;> rfl, hr,
        (List.sublist_cons_self _ _).trans (List.sublist_append_right _ _), by simp,
        fun _ h2 => h2⟩
  rw [hson] at hT
  have hnd1 : (ctxAddrs ctx ++ son.addrs).Nodup :=
    (List.Sublist.append_left hsub _).nodup hnd
  have hfr1 : ∀ x ∈ ctxAddrs ctx ++ son.addrs, x < s.fresh := fun x hx =>
    hfr x ((List.Sublist.append_left hsub _).subset hx)
  simp only [Tree.addrs, List.nodup_cons, List.mem_append, not_or,
    List.nodup_append, List.mem_cons, List.disjoint_cons_left, List.disjoint_cons_right,
    List.disjoint_append_left, List.disjoint_append_right] at hnd
  obtain ⟨hcN, ⟨hlN, ⟨har, hrN⟩, hal, hlr⟩, hcl, hac, hcr⟩ := hnd
  have has : a ∉ son.addrs := has0 hal har
  obtain ⟨hcN1, hsN, hcs⟩ := List.nodup_append.1 hnd1
  obtain ⟨m1, e1, hs1, hm1⟩ := @setParentIf_spec K V _ _ (ctxPar ctx none) _ hsl hsN
  have hm1c : ∀ q ∈ ctxAddrs ctx, m1 q = s.mem q := fun q hq =>
    hm1 q (Tree.ptr_ne_of_not_mem (fun hx => hcs hq hx))
  have hc1 : LinkedPath m1 ctx (some a) none s.root := LinkedPath.frame_path hc hm1c
  simp only [Tree.ptr_node] at hc1
  cases ctx with
  | nil =>
    simp only [Option.some.injEq] at hT
    subst hT
    simp only [ctxPar] at hma e1 hs1
    refine ⟨⟨s.self, son.ptr, s.size, m1.free a, s.fresh⟩, ?_, ⟨rfl, ?_, hsN, ?_⟩, rfl, rfl, rfl⟩
    · simp only [removeNodeWithOneSonOrLess, hma, hptr, e1]
    · exact Linked.frame hs1 (fun q hq => Mem.free_other _ (ne_of_mem_of_not_mem hq has))
    · intro x hx; exact hfr1 x (by simpa [ctxAddrs] using hx)
  | cons f fs =>
    simp only [ctxPar] at hma e1 hs1
    have hfa : (f.fill son).ptr = some f.addr := by cases f <;> rfl
    have hfne : f.addr ≠ a := fun e => hac (by simp [ctxAddrs, e])
    -- the state after the splice and the `delete`
    obtain ⟨m2, ⟨x, y, ex, ey, e2⟩, hz2⟩ : ∃ m2,
        (∃ x y, m1.getLeftSon f.addr = some x ∧ m1.getRightSon f.addr = some y ∧
          ((x = some a ∧ m1.setLeftSon f.addr son.ptr = some m2) ∨
           (x ≠ some a ∧ y = some a ∧ m1.setRightSon f.addr son.ptr = some m2))) ∧
        ZRep { s with mem := m2.free a } (f :: fs) son := by
      cases f with
      | inL g kg vg hg rg =>
        obtain ⟨h1, h2, h3⟩ := hc1
        simp only [ctxAddrs, Frame.addr, Frame.sib, List.nodup_cons, List.mem_append, not_or,
          List.nodup_append, List.mem_cons, List.disjoint_cons_left, List.cons_append] at hcN hac hcs
        obtain ⟨⟨hgr, hgf⟩, -⟩ := hcN
        have hga : g ≠ a := hfne
        refine ⟨m1.write g ⟨kg, vg, ctxPar fs none, son.ptr, rg.ptr, hg⟩, ?_, ⟨?_, ?_, ?_⟩, ?_,
          hnd1, hfr1⟩
        · exact ⟨some a, rg.ptr, by simp [Frame.addr, Mem.getLeftSon, h1],
            by simp [Frame.addr, Mem.getRightSon, h1],
            Or.inl ⟨rfl, by simp [Frame.addr, Mem.setLeftSon, h1]⟩⟩
        · show (m1.write g _).free a g = _
          rw [Mem.free_other _ hga]; simp
        · refine Linked.frame h2 (fun q hq => ?_)
          show (m1.write g _).free a q = _
          rw [Mem.free_other _ (ne_of_mem_of_not_mem hq hac.2.1),
            Mem.write_other _ _ (ne_of_mem_of_not_mem hq hgr)]
        · refine LinkedPath.frame_path h3 (fun q hq => ?_)
          show (m1.write g _).free a q = _
          rw [Mem.free_other _ (ne_of_mem_of_not_mem hq hac.2.2),
            Mem.write_other _ _ (ne_of_mem_of_not_mem hq hgf)]
        · refine Linked.frame hs1 (fun q hq => ?_)
          show (m1.write g _).free a q = _
          rw [Mem.free_other _ (ne_of_mem_of_not_mem hq has),
            Mem.write_other _ _ (ne_of_mem_of_not_mem hq hcs.1)]
      | inR g lg kg vg hg =>
        obtain ⟨h1, h2, h3⟩ := hc1
        simp only [ctxAddrs, Frame.addr, Frame.sib, List.nodup_cons, List.mem_append, not_or,
          List.nodup_append, List.mem_cons, List.disjoint_cons_left, List.cons_append] at hcN hac hcs
        obtain ⟨⟨hgr, hgf⟩, -⟩ := hcN
        have hla : lg.ptr ≠ some a := Tree.ptr_ne_of_not_mem hac.2.1
        have hga : g ≠ a := hfne
        refine ⟨m1.write g ⟨kg, vg, ctxPar fs none, lg.ptr, son.ptr, hg⟩, ?_, ⟨?_, ?_, ?_⟩, ?_,
          hnd1, hfr1⟩
        · exact ⟨lg.ptr, some a, by simp [Frame.addr, Mem.getLeftSon, h1],
            by simp [Frame.addr, Mem.getRightSon, h1],
            Or.inr ⟨hla, rfl, by simp [Frame.addr, Mem.setRightSon, h1]⟩⟩
        · show (m1.write g _).free a g = _
          rw [Mem.free_other _ hga]; simp
        · refine Linked.frame h2 (fun q hq => ?_)
          show (m1.write g _).free a q = _
          rw [Mem.free_other _ (ne_of_mem_of_not_mem hq hac.2.1),
            Mem.write_other _ _ (ne_of_mem_of_not_mem hq hgr)]
        · refine LinkedPath.frame_path h3 (fun q hq => ?_)
          show (m1.write g _).free a q = _
          rw [Mem.free_other _ (ne_of_mem_of_not_mem hq hac.2.2),
            Mem.write_other _ _ (ne_of_mem_of_not_mem hq hgf)]
        · refine Linked.frame hs1 (fun q hq => ?_)
          show (m1.write g _).free a q = _
          rw [Mem.free_other _ (ne_of_mem_of_not_mem hq has),
            Mem.write_other _ _ (ne_of_mem_of_not_mem hq hcs.1)]
    have hz3 := ZRep_up.1 hz2
    have hcl3 := hz3.count_le
    obtain ⟨s3, e3, hr3, hm3⟩ := balance_spec false fs (f.fill son) T
      { s with mem := m2.free a } f.addr (s.fresh + 1) hz3 hfa hT (by simp at hcl3 ⊢; omega)
    refine ⟨s3, ?_, hr3, hm3⟩
    rcases e2 with ⟨hx, e2⟩ | ⟨hx, hy, e2⟩
    · simp only [removeNodeWithOneSonOrLess, hma, hptr, e1, ex, ey, hx, e2, if_true, e3]
    · simp only [removeNodeWithOneSonOrLess, hma, hptr, e1, ex, ey, hx, hy, e2, if_true,
        if_false, e3]

theorem removeTwo_spec {s : AVL K V} {ctx : List (Frame K V)} {a : Nat} {l r T : Tree K V}
    {k : K} {v : V} {h : Int}
    (hz : ZRep s ctx (Tree.node a l k v h r)) (hr : r ≠ Tree.nil)
    (hT : removeTwoT ctx (Tree.node a l k v h r) = some T) :
    ∃ s1, removeNodeWithTwoSons s a = some s1 ∧ Rep s1 T ∧
      s1.self = s.self ∧ s1.size = s.size ∧ s1.fresh = s.fresh := by
  obtain ⟨path, b, kb, vb, hb, S, ezl, epl⟩ := zoomLeft_spec r hr
  simp only [removeTwoT, ezl] at hT
  have hma := hz.2.1.1
  have hlr := hz.2.1.2.2
  have hcl := hz.count_le
  obtain ⟨ar, har⟩ : ∃ ar, r.ptr = some ar := by
    cases r with
    | nil => exact absurd rfl hr
    | node ar _ _ _ _ _ => exact ⟨ar, rfl⟩
  have ell := leftmostLoop_spec r (some a) ar (s.fresh + 1) hlr har
    (by simp only [Tree.count] at hcl; omega)
  rw [ezl] at ell
  simp only [Tree.ptr_node] at ell
  have hz1 : ZRep s (path ++ Frame.inR a l k v h :: ctx) (Tree.node b Tree.nil kb vb hb S) := by
    refine ZRep_append.2 (ZRep_up.2 ?_)
    simp only [Frame.fill, epl]
    exact hz
  obtain ⟨s1, e1, hz2, hm1⟩ := swapNodes_spec hz1
  obtain ⟨s2, e2, hr2, hm2⟩ := removeOne_spec hz2 hT
  refine ⟨s2, ?_, hr2, ?_⟩
  · simp only [removeNodeWithTwoSons, Mem.getRightSon, hma, har, ell, e1, e2]
  · obtain ⟨x1, x2, x3⟩ := hm1
    obtain ⟨y1, y2, y3⟩ := hm2
    exact ⟨y1.trans x1, y2.trans x2, y3.trans x3⟩

theorem remove_refines [LinearOrder K] {s : AVL K V} {T T1 : Tree K V} {key : K} {b : Bool}
    (hr : Rep s T) (h : removeT key T = some (T1, b)) :
    ∃ s1, remove s key = assertInvariant s1 b ∧ Rep s1 T1 ∧ s1.self = s.self ∧
      s1.size = s.size - (if b = true then 1 else 0) ∧ s1.fresh = s.fresh ∧
      (b = false → s1 = s) := by
  have hz := ZRep_zoom key T [] (ZRep_nil.2 hr)
  have hld := load_ctxSlot hz
  have hfa := findAux_spec key hr
  simp only [removeT] at h
  cases hzm : zoom key [] T with
  | mk ctx t =>
    rw [hzm] at h hz hld hfa
    simp only at hz hld hfa
    cases t with
    | nil =>
      simp only [Option.some.injEq, Prod.mk.injEq] at h
      obtain ⟨rfl, rfl⟩ := h
      refine ⟨s, ?_, hr, rfl, by simp, rfl, fun _ => rfl⟩
      simp only [remove, hfa, hld, Tree.ptr_nil]
    | node a l k v hh r =>
      have hma := hz.2.1.1
      simp only [Tree.ptr_node] at hld
      cases l with
      | nil =>
        simp only at h
        cases hro : removeOneT ctx (Tree.node a Tree.nil k v hh r) with
        | none => simp [hro] at h
        | some T2 =>
          simp only [hro, Option.some.injEq, Prod.mk.injEq] at h
          obtain ⟨rfl, rfl⟩ := h
          obtain ⟨s1, e1, hr1, hm1, hm2, hm3⟩ := removeOne_spec hz hro
          refine ⟨{ s1 with size := s1.size - 1 }, ?_, hr1, hm1, by simp [hm2], hm3, by simp⟩
          simp [remove, hfa, hld, hma, e1]
      | node al ll kl vl hl lr =>
        cases r with
        | nil =>
          simp only at h
          cases hro : removeOneT ctx (Tree.node a (Tree.node al ll kl vl hl lr) k v hh Tree.nil) with
          | none => simp [hro] at h
          | some T2 =>
            simp only [hro, Option.some.injEq, Prod.mk.injEq] at h
            obtain ⟨rfl, rfl⟩ := h
            obtain ⟨s1, e1, hr1, hm1, hm2, hm3⟩ := removeOne_spec hz hro
            refine ⟨{ s1 with size := s1.size - 1 }, ?_, hr1, hm1, by simp [hm2], hm3, by simp⟩
            simp [remove, hfa, hld, hma, e1]
        | node ar rl kr vr hr' rr =>
          simp only at h
          cases hro : removeTwoT ctx (Tree.node a (Tree.node al ll kl vl hl lr) k v hh
              (Tree.node ar rl kr vr hr' rr)) with
          | none => simp [hro] at h
          | some T2 =>
            simp only [hro, Option.some.injEq, Prod.mk.injEq] at h
            obtain ⟨rfl, rfl⟩ := h
            obtain ⟨s1, e1, hr1, hm1, hm2, hm3⟩ := removeTwo_spec hz (by simp) hro
            refine ⟨{ s1 with size := s1.size - 1 }, ?_, hr1, hm1, by simp [hm2], hm3, by simp⟩
            simp [remove, hfa, hld, hma, e1]

/-! ## Heights, balance and rotations on trees -/

theorem Tree.height_ge (t : Tree K V) : -1 ≤ t.height := by
  induction t with
  | nil => simp [Tree.height]
  | node a l k v h r ihl ihr => simp only [Tree.height]; omega

theorem Tree.h1_eq {t : Tree K V} (h : t.HeightsOK) : t.h1 = t.height + 1 := by
  cases t with
  | nil => simp [Tree.h1, Tree.height]
  | node a l k v hh r => simp only [Tree.h1, Tree.height]; rw [h.1]

theorem Tree.updH_eq {l r : Tree K V} (hl : l.HeightsOK) (hr : r.HeightsOK) :
    Tree.updH l r = 1 + Max.max l.height r.height := by
  have h1 := Tree.h1_eq hl
  have hlg := l.height_ge
  cases r with
  | nil => simp only [Tree.updH, Tree.height]; omega
  | node a rl k v hh rr =>
    have h2 := hr.1
    simp only [Tree.updH, Tree.height]
    split <;> omega

theorem Tree.bfC_eq {l r : Tree K V} (hl : l.HeightsOK) (hr : r.HeightsOK) :
    Tree.bfC l r = l.height - r.height := by
  simp only [Tree.bfC, Tree.h1_eq hl, Tree.h1_eq hr]; omega

theorem Tree.node_ok {a : Nat} {l r : Tree K V} {k : K} {v : V}
    (hlB : l.Balanced) (hlH : l.HeightsOK) (hrB : r.Balanced) (hrH : r.HeightsOK)
    (h1 : l.height - r.height ≤ 1) (h2 : r.height - l.height ≤ 1) :
    (Tree.node a l k v (Tree.updH l r) r).Balanced ∧
      (Tree.node a l k v (Tree.updH l r) r).HeightsOK :=
  ⟨⟨h1, h2, hlB, hrB⟩, ⟨Tree.updH_eq hlH hrH, hlH, hrH⟩⟩

/-- The call `balance` at a node whose sons are balanced and differ in height by at most 1:
only the cached height is refreshed. -/
theorem balanceStep_even {a : Nat} {l r : Tree K V} {k : K} {v : V} {h : Int}
    (hlH : l.HeightsOK) (hrH : r.HeightsOK)
    (h1 : l.height - r.height ≤ 1) (h2 : r.height - l.height ≤ 1) :
    (Tree.node a l k v h r).balanceStep = some (Tree.node a l k v (Tree.updH l r) r, false) := by
  have hb := Tree.bfC_eq hlH hrH
  simp only [Tree.balanceStep]
  rw [if_neg (by omega), if_neg (by omega)]

/-- The call `balance` at a node whose left son is higher by 2: the rotation(s) succeed and
leave a balanced subtree with the same nodes in the same order, one lower than the
unbalanced one unless the left son had two sons of equal height. -/
theorem balanceStep_left {a : Nat} {l r : Tree K V} {k : K} {v : V} {h : Int}
    (hlB : l.Balanced) (hlH : l.HeightsOK) (hrB : r.Balanced) (hrH : r.HeightsOK)
    (h2 : l.height = r.height + 2) :
    ∃ t, (Tree.node a l k v h r).balanceStep = some (t, true) ∧ t.Balanced ∧ t.HeightsOK ∧
      t.entries = (Tree.node a l k v h r).entries ∧
      (t.height = r.height + 2 ∨ (t.height = r.height + 3 ∧ l.lh = l.rh)) := by
  have hb := Tree.bfC_eq hlH hrH
  have hrg := r.height_ge
  cases l with
  | nil => simp only [Tree.height] at h2; omega
  | node al ll kl vl hl lr =>
    obtain ⟨b1, b2, hllB, hlrB⟩ := hlB
    obtain ⟨hh, hllH, hlrH⟩ := hlH
    simp only [Tree.height] at h2 hb
    have hbl := Tree.bfC_eq hllH hlrH
    simp only [Tree.balanceStep]
    rw [if_pos (by omega)]
    simp only [Tree.rebalanceLeftHeavy]
    by_cases hc : Tree.bfC ll lr > -1
    · rw [if_pos hc]
      simp only [Tree.rotateRight]
      obtain ⟨n1, n2⟩ := Tree.node_ok (a := a) (k := k) (v := v) hlrB hlrH hrB hrH
        (by omega) (by omega)
      have hn : (Tree.node a lr k v (Tree.updH lr r) r).height = 1 + Max.max lr.height r.height := rfl
      obtain ⟨n3, n4⟩ := Tree.node_ok (a := al) (k := kl) (v := vl) hllB hllH n1 n2
        (by omega) (by omega)
      refine ⟨_, rfl, n3, n4, ?_, ?_⟩
      · simp [Tree.entries]
      · simp only [Tree.height, Tree.lh, Tree.rh]; omega
    · rw [if_neg hc]
      have hlrg : lr.height = r.height + 1 := by omega
      cases lr with
      | nil => simp only [Tree.height] at hlrg; omega
      | node alr lrl klr vlr hlr' lrr =>
        obtain ⟨c1, c2, hlrlB, hlrrB⟩ := hlrB
        obtain ⟨hh', hlrlH, hlrrH⟩ := hlrH
        simp only [Tree.height] at hlrg hbl h2 b1 b2 hh hb
        simp only [Tree.rotateLeft, Tree.rotateRight]
        obtain ⟨n1, n2⟩ := Tree.node_ok (a := al) (k := kl) (v := vl) hllB hllH hlrlB hlrlH
          (by omega) (by omega)
        obtain ⟨n3, n4⟩ := Tree.node_ok (a := a) (k := k) (v := v) hlrrB hlrrH hrB hrH
          (by omega) (by omega)
        have hn1 : (Tree.node al ll kl vl (Tree.updH ll lrl) lrl).height
            = 1 + Max.max ll.height lrl.height := rfl
        have hn3 : (Tree.node a lrr k v (Tree.updH lrr r) r).height
            = 1 + Max.max lrr.height r.height := rfl
        obtain ⟨n5, n6⟩ := Tree.node_ok (a := alr) (k := klr) (v := vlr) n1 n2 n3 n4
          (by omega) (by omega)
        refine ⟨_, rfl, n5, n6, ?_, ?_⟩
        · simp [Tree.entries]
        · simp only [Tree.height, Tree.lh, Tree.rh]; omega

/-- The call `balance` at a node whose right son is higher by 2. -/
theorem balanceStep_right {a : Nat} {l r : Tree K V} {k : K} {v : V} {h : Int}
    (hlB : l.Balanced) (hlH : l.HeightsOK) (hrB : r.Balanced) (hrH : r.HeightsOK)
    (h2 : r.height = l.height + 2) :
    ∃ t, (Tree.node a l k v h r).balanceStep = some (t, true) ∧ t.Balanced ∧ t.HeightsOK ∧
      t.entries = (Tree.node a l k v h r).entries ∧
      (t.height = l.height + 2 ∨ (t.height = l.height + 3 ∧ r.lh = r.rh)) := by
  have hb := Tree.bfC_eq hlH hrH
  have hlg := l.height_ge
  cases r with
  | nil => simp only [Tree.height] at h2; omega
  | node ar rl kr vr hr rr =>
    obtain ⟨b1, b2, hrlB, hrrB⟩ := hrB
    obtain ⟨hh, hrlH, hrrH⟩ := hrH
    simp only [Tree.height] at h2 hb
    have hbl := Tree.bfC_eq hrlH hrrH
    simp only [Tree.balanceStep]
    rw [if_neg (by omega), if_pos (by omega)]
    simp only [Tree.rebalanceRightHeavy]
    by_cases hc : Tree.bfC rl rr < 1
    · rw [if_pos hc]
      simp only [Tree.rotateLeft]
      obtain ⟨n1, n2⟩ := Tree.node_ok (a := a) (k := k) (v := v) hlB hlH hrlB hrlH
        (by omega) (by omega)
      have hn : (Tree.node a l k v (Tree.updH l rl) rl).height = 1 + Max.max l.height rl.height := rfl
      obtain ⟨n3, n4⟩ := Tree.node_ok (a := ar) (k := kr) (v := vr) n1 n2 hrrB hrrH
        (by omega) (by omega)
      refine ⟨_, rfl, n3, n4, ?_, ?_⟩
      · simp [Tree.entries]
      · simp only [Tree.height, Tree.lh, Tree.rh]; omega
    · rw [if_neg hc]
      have hrlg : rl.height = l.height + 1 := by omega
      cases rl with
      | nil => simp only [Tree.height] at hrlg; omega
      | node arl rll krl vrl hrl' rlr =>
        obtain ⟨c1, c2, hrllB, hrlrB⟩ := hrlB
        obtain ⟨hh', hrllH, hrlrH⟩ := hrlH
        simp only [Tree.height] at hrlg hbl h2 b1 b2 hh hb
        simp only [Tree.rotateLeft, Tree.rotateRight]
        obtain ⟨n1, n2⟩ := Tree.node_ok (a := a) (k := k) (v := v) hlB hlH hrllB hrllH
          (by omega) (by omega)
        obtain ⟨n3, n4⟩ := Tree.node_ok (a := ar) (k := kr) (v := vr) hrlrB hrlrH hrrB hrrH
          (by omega) (by omega)
        have hn1 : (Tree.node a l k v (Tree.updH l rll) rll).height
            = 1 + Max.max l.height rll.height := rfl
        have hn3 : (Tree.node ar rlr kr vr (Tree.updH rlr rr) rr).height
            = 1 + Max.max rlr.height rr.height := rfl
        obtain ⟨n5, n6⟩ := Tree.node_ok (a := arl) (k := krl) (v := vrl) n1 n2 n3 n4
          (by omega) (by omega)
        refine ⟨_, rfl, n5, n6, ?_, ?_⟩
        · simp [Tree.entries]
        · simp only [Tree.height, Tree.lh, Tree.rh]; omega

theorem entries_fill (f : Frame K V) (t : Tree K V) :
    (f.fill t).entries = ctxL [f] ++ t.entries ++ ctxR [f] := by
  cases f <;> simp [Frame.fill, Tree.entries, ctxL, ctxR]

theorem entries_plug (ctx : List (Frame K V)) (t : Tree K V) :
    (plug ctx t).entries = ctxL ctx ++ t.entries ++ ctxR ctx := by
  induction ctx generalizing t with
  | nil => simp [plug, ctxL, ctxR]
  | cons f fs ih =>
    rw [plug, ih]
    cases f <;> simp [Frame.fill, Tree.entries, ctxL, ctxR]

theorem height_fill (f : Frame K V) (t : Tree K V) :
    (f.fill t).height = 1 + Max.max t.height f.sib.height := by
  cases f with
  | inL a k v h r => rfl
  | inR a l k v h => simp only [Frame.fill, Tree.height, Frame.sib]; omega

theorem fill_ok {f : Frame K V} {t : Tree K V} {h0 : Int}
    (hsB : f.sib.Balanced) (hsH : f.sib.HeightsOK) (hd1 : h0 - f.sib.height ≤ 1)
    (hd2 : f.sib.height - h0 ≤ 1) (hfh : f.h = 1 + Max.max h0 f.sib.height)
    (htB : t.Balanced) (htH : t.HeightsOK) (hth : t.height = h0) :
    (f.fill t).Balanced ∧ (f.fill t).HeightsOK ∧ (f.fill t).height = f.h := by
  cases f with
  | inL a k v h r =>
    simp only [Frame.sib, Frame.h] at *
    refine ⟨⟨by omega, by omega, htB, hsB⟩, ⟨by omega, htH, hsH⟩, ?_⟩
    simp only [Frame.fill, Tree.height]; omega
  | inR a l k v h =>
    simp only [Frame.sib, Frame.h] at *
    refine ⟨⟨by omega, by omega, hsB, htB⟩, ⟨by omega, hsH, htH⟩, ?_⟩
    simp only [Frame.fill, Tree.height]; omega

theorem plug_ok {ctx : List (Frame K V)} :
    ∀ {t : Tree K V} {h0 : Int}, CtxAVL ctx h0 → t.Balanced → t.HeightsOK → t.height = h0 →
      (plug ctx t).Balanced ∧ (plug ctx t).HeightsOK := by
  induction ctx with
  | nil => intro t h0 _ hB hH _; exact ⟨hB, hH⟩
  | cons f fs ih =>
    intro t h0 hc hB hH hh
    obtain ⟨c1, c2, c3, c4, c5, c6⟩ := hc
    obtain ⟨f1, f2, f3⟩ := fill_ok c1 c2 c3 c4 c5 hB hH hh
    exact ih c6 f1 f2 f3

theorem ctx_of_plug_ok {ctx : List (Frame K V)} :
    ∀ {t : Tree K V}, (plug ctx t).Balanced → (plug ctx t).HeightsOK →
      CtxAVL ctx t.height ∧ t.Balanced ∧ t.HeightsOK := by
  induction ctx with
  | nil => intro t hB hH; exact ⟨trivial, hB, hH⟩
  | cons f fs ih =>
    intro t hB hH
    obtain ⟨c, fB, fH⟩ := ih (t := f.fill t) hB hH
    cases f with
    | inL a k v h r =>
      obtain ⟨b1, b2, b3, b4⟩ := fB
      obtain ⟨h1, h2, h3⟩ := fH
      refine ⟨⟨b4, h3, b1, b2, h1, ?_⟩, b3, h2⟩
      have : (Frame.fill (Frame.inL a k v h r) t).height = h := by
        simp only [Frame.fill, Tree.height]; omega
      rw [this] at c; exact c
    | inR a l k v h =>
      obtain ⟨b1, b2, b3, b4⟩ := fB
      obtain ⟨h1, h2, h3⟩ := fH
      refine ⟨⟨b3, h2, b2, b1, ?_, ?_⟩, b4, h3⟩
      · simp only [Frame.h, Frame.sib]; omega
      · have : (Frame.fill (Frame.inR a l k v h) t).height = h := by
          simp only [Frame.fill, Tree.height]; omega
        rw [this] at c; exact c

/-- One call of `balance` at the node of a frame whose hole holds a balanced subtree
whose height is off by at most one from what the frame expects. -/
theorem balanceStep_fill {f : Frame K V} {t : Tree K V} {h0 : Int}
    (hsB : f.sib.Balanced) (hsH : f.sib.HeightsOK) (hd1 : h0 - f.sib.height ≤ 1)
    (hd2 : f.sib.height - h0 ≤ 1)
    (htB : t.Balanced) (htH : t.HeightsOK)
    (hth : t.height = h0 - 1 ∨ t.height = h0 ∨ t.height = h0 + 1) :
    ∃ t1 rot, (f.fill t).balanceStep = some (t1, rot) ∧ t1.Balanced ∧ t1.HeightsOK ∧
      t1.entries = (f.fill t).entries ∧
      (rot = false → t1.height = 1 + Max.max t.height f.sib.height ∧
        t.height - f.sib.height ≤ 1 ∧ f.sib.height - t.height ≤ 1 ∧
        t1.lh = Tree.lh (f.fill t) ∧ t1.rh = Tree.rh (f.fill t)) ∧
      (rot = true → (t.height = f.sib.height + 2 ∨ f.sib.height = t.height + 2) ∧
        (t1.height = Max.max t.height f.sib.height ∨
          (t1.height = 1 + Max.max t.height f.sib.height ∧
            ((t.height = f.sib.height + 2 ∧ t.lh = t.rh) ∨
             (f.sib.height = t.height + 2 ∧ f.sib.lh = f.sib.rh))))) := by
  have key : ∀ (a : Nat) (l r : Tree K V) (k : K) (v : V) (h : Int),
      l.Balanced → l.HeightsOK → r.Balanced → r.HeightsOK →
      l.height - r.height ≤ 2 → r.height - l.height ≤ 2 →
      ∃ t1 rot, (Tree.node a l k v h r).balanceStep = some (t1, rot) ∧ t1.Balanced ∧
        t1.HeightsOK ∧ t1.entries = (Tree.node a l k v h r).entries ∧
        (rot = false → t1.height = 1 + Max.max l.height r.height ∧
          l.height - r.height ≤ 1 ∧ r.height - l.height ≤ 1 ∧
          t1.lh = l.height ∧ t1.rh = r.height) ∧
        (rot = true → (l.height = r.height + 2 ∨ r.height = l.height + 2) ∧
          (t1.height = Max.max l.height r.height ∨
            (t1.height = 1 + Max.max l.height r.height ∧
              ((l.height = r.height + 2 ∧ l.lh = l.rh) ∨
               (r.height = l.height + 2 ∧ r.lh = r.rh))))) := by
    intro a l r k v h hlB hlH hrB hrH d1 d2
    by_cases e1 : l.height = r.height + 2
    · obtain ⟨t1, e, tB, tH, te, th⟩ := balanceStep_left (a := a) (k := k) (v := v) (h := h)
        hlB hlH hrB hrH e1
      refine ⟨t1, true, e, tB, tH, te, by simp, fun _ => ⟨Or.inl e1, ?_⟩⟩
      rcases th with th | ⟨th, th2⟩
      · left; omega
      · right; exact ⟨by omega, Or.inl ⟨e1, th2⟩⟩
    · by_cases e2 : r.height = l.height + 2
      · obtain ⟨t1, e, tB, tH, te, th⟩ := balanceStep_right (a := a) (k := k) (v := v) (h := h)
          hlB hlH hrB hrH e2
        refine ⟨t1, true, e, tB, tH, te, by simp, fun _ => ⟨Or.inr e2, ?_⟩⟩
        rcases th with th | ⟨th, th2⟩
        · left; omega
        · right; exact ⟨by omega, Or.inr ⟨e2, th2⟩⟩
      · have e := balanceStep_even (a := a) (k := k) (v := v) (h := h) hlH hrH
          (by omega) (by omega)
        obtain ⟨n1, n2⟩ := Tree.node_ok (a := a) (k := k) (v := v) hlB hlH hrB hrH
          (by omega) (by omega)
        refine ⟨_, false, e, n1, n2, rfl, fun _ => ⟨rfl, by omega, by omega, rfl, rfl⟩, by simp⟩
  cases f with
  | inL a k v h r =>
    simp only [Frame.sib] at *
    obtain ⟨t1, rot, e, tB, tH, te, p1, p2⟩ := key a t r k v h htB htH hsB hsH
      (by omega) (by omega)
    exact ⟨t1, rot, e, tB, tH, te, p1, p2⟩
  | inR a l k v h =>
    simp only [Frame.sib] at *
    obtain ⟨t1, rot, e, tB, tH, te, p1, p2⟩ := key a l t k v h hsB hsH htB htH
      (by omega) (by omega)
    refine ⟨t1, rot, e, tB, tH, te, ?_, ?_⟩
    · intro hr
      obtain ⟨q1, q2, q3, q4, q5⟩ := p1 hr
      exact ⟨by omega, by omega, by omega, q4, q5⟩
    · intro hr
      obtain ⟨q1, q2⟩ := p2 hr
      refine ⟨by omega, ?_⟩
      rcases q2 with q2 | ⟨q2, q3⟩
      · left; omega
      · right; exact ⟨by omega, q3.symm⟩

theorem lh_rh_fill (f : Frame K V) (t : Tree K V) :
    (Tree.lh (f.fill t) = t.height ∧ Tree.rh (f.fill t) = f.sib.height) ∨
    (Tree.lh (f.fill t) = f.sib.height ∧ Tree.rh (f.fill t) = t.height) := by
  cases f with
  | inL a k v h r => left; exact ⟨rfl, rfl⟩
  | inR a l k v h => right; exact ⟨rfl, rfl⟩

/-- Rebalancing after a removal: the walk from the parent of the removed node up to
the root succeeds and leaves a balanced tree with correct cached heights and the
same nodes in the same order. -/
theorem balanceT_delete :
    ∀ (fs : List (Frame K V)) (f : Frame K V) (t : Tree K V) (h0 : Int),
      CtxAVL (f :: fs) h0 → t.Balanced → t.HeightsOK →
      (t.height = h0 ∨ t.height = h0 - 1) →
      ∃ T, balanceT false fs (f.fill t) = some T ∧ T.Balanced ∧ T.HeightsOK ∧
        T.entries = (plug (f :: fs) t).entries := by
  intro fs
  induction fs with
  | nil =>
    intro f t h0 hc tB tH th
    obtain ⟨sB, sH, d1, d2, fh, -⟩ := hc
    obtain ⟨t1, rot, e, t1B, t1H, te, -, -⟩ := balanceStep_fill sB sH d1 d2 tB tH (by omega)
    exact ⟨t1, by simp [balanceT, e], t1B, t1H, by simpa [plug] using te⟩
  | cons g gs ih =>
    intro f t h0 hc tB tH th
    obtain ⟨sB, sH, d1, d2, fh, hc1⟩ := hc
    obtain ⟨t1, rot, e, t1B, t1H, te, p1, p2⟩ := balanceStep_fill sB sH d1 d2 tB tH (by omega)
    have hsg := f.sib.height_ge
    have hh : t1.height = f.h ∨ t1.height = f.h - 1 := by
      cases rot with
      | false => obtain ⟨q1, -⟩ := p1 rfl; omega
      | true => obtain ⟨q1, q2⟩ := p2 rfl; omega
    obtain ⟨T, eT, TB, TH, Te⟩ := ih g t1 f.h hc1 t1B t1H hh
    refine ⟨T, ?_, TB, TH, ?_⟩
    · simp [balanceT, e, eT]
    · rw [Te]
      show (plug (g :: gs) t1).entries = (plug (g :: gs) (f.fill t)).entries
      rw [entries_plug, entries_plug, te]

/-- Rebalancing after an insertion: the walk from the parent of the new leaf upwards
succeeds (it stops at the first rotation) and leaves a balanced tree with correct
cached heights and the same nodes in the same order. -/
theorem balanceT_insert :
    ∀ (fs : List (Frame K V)) (f : Frame K V) (t : Tree K V) (h0 : Int),
      CtxAVL (f :: fs) h0 → t.Balanced → t.HeightsOK →
      (t.height = h0 ∨ (t.height = h0 + 1 ∧ (t.lh ≠ t.rh ∨ t.height = 0))) →
      ∃ T, balanceT true fs (f.fill t) = some T ∧ T.Balanced ∧ T.HeightsOK ∧
        T.entries = (plug (f :: fs) t).entries := by
  intro fs
  induction fs with
  | nil =>
    intro f t h0 hc tB tH th
    obtain ⟨sB, sH, d1, d2, fh, -⟩ := hc
    obtain ⟨t1, rot, e, t1B, t1H, te, -, -⟩ := balanceStep_fill sB sH d1 d2 tB tH (by omega)
    exact ⟨t1, by simp [balanceT, e], t1B, t1H, by simpa [plug] using te⟩
  | cons g gs ih =>
    intro f t h0 hc tB tH th
    obtain ⟨sB, sH, d1, d2, fh, hc1⟩ := hc
    obtain ⟨t1, rot, e, t1B, t1H, te, p1, p2⟩ := balanceStep_fill sB sH d1 d2 tB tH (by omega)
    have hsg := f.sib.height_ge
    have hentries : (plug (g :: gs) t1).entries = (plug (f :: g :: gs) t).entries := by
      show _ = (plug (g :: gs) (f.fill t)).entries
      rw [entries_plug, entries_plug, te]
    cases rot with
    | true =>
      obtain ⟨q1, q2⟩ := p2 rfl
      have hh : t1.height = f.h := by omega
      obtain ⟨TB, TH⟩ := plug_ok hc1 t1B t1H hh
      exact ⟨plug (g :: gs) t1, by simp [balanceT, e], TB, TH, hentries⟩
    | false =>
      obtain ⟨q1, q2, q3, q4, q5⟩ := p1 rfl
      have hlr := lh_rh_fill f t
      have hh : t1.height = f.h ∨ (t1.height = f.h + 1 ∧ (t1.lh ≠ t1.rh ∨ t1.height = 0)) := by
        rcases th with th | ⟨th, -⟩
        · left; omega
        · by_cases hs : f.sib.height ≥ h0 + 1
          · left; omega
          · right
            refine ⟨by omega, Or.inl ?_⟩
            rw [q4, q5]
            omega
      obtain ⟨T, eT, TB, TH, Te⟩ := ih g t1 f.h hc1 t1B t1H hh
      refine ⟨T, ?_, TB, TH, Te.trans hentries⟩
      simp [balanceT, e, eT]

/-! ## Keys, ordering and the search path -/

theorem Tree.keys_eq_map (t : Tree K V) : t.keys = t.entries.map (fun e => e.2.1) := by
  induction t with
  | nil => rfl
  | node a l k v h r ihl ihr => simp [Tree.keys, Tree.entries, ihl, ihr]

theorem Tree.count_eq_length (t : Tree K V) : t.count = t.entries.length := by
  induction t with
  | nil => rfl
  | node a l k v h r ihl ihr => simp [Tree.count, Tree.entries, ihl, ihr]; omega

theorem Tree.addrs_eq_map (t : Tree K V) : t.addrs = t.entries.map (fun e => e.1) := by
  induction t with
  | nil => rfl
  | node a l k v h r ihl ihr => simp [Tree.addrs, Tree.entries, ihl, ihr]

theorem BST_iff_sorted [LinearOrder K] (t : Tree K V) :
    t.BST ↔ t.keys.Pairwise (fun x y => x < y) := by
  induction t with
  | nil => simp [Tree.BST, Tree.keys]
  | node a l k v h r ihl ihr =>
    simp only [Tree.BST, Tree.keys, List.pairwise_append, List.pairwise_cons, List.mem_cons,
      ihl, ihr]
    constructor
    · rintro ⟨h1, h2, h3, h4⟩
      refine ⟨h3, ⟨h2, h4⟩, ?_⟩
      intro x hx y hy
      rcases hy with rfl | hy
      · exact h1 x hx
      · exact lt_trans (h1 x hx) (h2 y hy)
    · rintro ⟨h3, ⟨h2, h4⟩, h5⟩
      exact ⟨fun x hx => h5 x hx k (Or.inl rfl), h2, h3, h4⟩

theorem zoom_spec [LinearOrder K] (key : K) :
    ∀ (t : Tree K V) (ctx : List (Frame K V)), t.BST →
      (∀ e ∈ ctxL ctx, e.2.1 < key) → (∀ e ∈ ctxR ctx, key < e.2.1) →
      plug (zoom key ctx t).1 (zoom key ctx t).2 = plug ctx t ∧
      (∀ e ∈ ctxL (zoom key ctx t).1, e.2.1 < key) ∧
      (∀ e ∈ ctxR (zoom key ctx t).1, key < e.2.1) ∧
      ((zoom key ctx t).2 = Tree.nil ∨
        ∃ a l v h r, (zoom key ctx t).2 = Tree.node a l key v h r) := by
  intro t
  induction t with
  | nil => intro ctx _ h1 h2; exact ⟨rfl, h1, h2, Or.inl rfl⟩
  | node a l k v h r ihl ihr =>
    intro ctx hb h1 h2
    obtain ⟨b1, b2, b3, b4⟩ := hb
    simp only [zoom]
    by_cases hk : ¬ (k < key) ∧ ¬ (key < k)
    · rw [if_pos hk]
      have : k = key := le_antisymm (not_lt.1 hk.2) (not_lt.1 hk.1)
      subst this
      exact ⟨rfl, h1, h2, Or.inr ⟨a, l, v, h, r, rfl⟩⟩
    · rw [if_neg hk]
      by_cases hlt : key < k
      · rw [if_pos hlt]
        refine ihl _ b3 (by simpa [ctxL] using h1) ?_
        intro e he
        simp only [ctxR, List.cons_append, List.mem_cons, List.mem_append] at he
        rcases he with rfl | he | he
        · exact hlt
        · exact lt_trans hlt (b2 _ (by rw [Tree.keys_eq_map]; exact List.mem_map_of_mem _ he))
        · exact h2 e he
      · rw [if_neg hlt]
        have hgt : k < key := by
          rcases lt_trichotomy k key with h' | h' | h'
          · exact h'
          · exact absurd ⟨by simp [h'], by simp [h']⟩ hk
          · exact absurd h' hlt
        refine ihr _ b4 ?_ (by simpa [ctxR] using h2)
        intro e he
        simp only [ctxL, List.mem_append, List.mem_singleton] at he
        rcases he with he | he | rfl
        · exact h1 e he
        · exact lt_trans (b1 _ (by rw [Tree.keys_eq_map]; exact List.mem_map_of_mem _ he)) hgt
        · exact hgt

theorem ctxL_append (p q : List (Frame K V)) : ctxL (p ++ q) = ctxL q ++ ctxL p := by
  induction p with
  | nil => simp [ctxL]
  | cons f fs ih => cases f <;> simp [ctxL, ih]

theorem ctxR_append (p q : List (Frame K V)) : ctxR (p ++ q) = ctxR p ++ ctxR q := by
  induction p with
  | nil => simp [ctxR]
  | cons f fs ih => cases f <;> simp [ctxR, ih]

theorem zoomLeft_ctxL : ∀ (t : Tree K V), ctxL (zoomLeft [] t).1 = [] := by
  intro t
  induction t with
  | nil => rfl
  | node a l k v h r ihl _ =>
    cases l with
    | nil => rfl
    | node al ll kl vl hl lr =>
      simp only [zoomLeft]
      rw [zoomLeft_append, ctxL_append]
      simp [ctxL, ihl]

theorem CtxAVL_append_congr (p c : List (Frame K V)) (f g : Frame K V)
    (hh : f.h = g.h) (hs : f.sib = g.sib) :
    ∀ (h0 : Int), CtxAVL (p ++ f :: c) h0 → CtxAVL (p ++ g :: c) h0 := by
  induction p with
  | nil =>
    intro h0 hc
    simp only [List.nil_append, CtxAVL] at hc ⊢
    rw [← hh, ← hs]; exact hc
  | cons x xs ih =>
    intro h0 hc
    simp only [List.cons_append, CtxAVL] at hc ⊢
    obtain ⟨c1, c2, c3, c4, c5, c6⟩ := hc
    exact ⟨c1, c2, c3, c4, c5, ih _ c6⟩

theorem sorted_insert_mid [LinearOrder K] {A B : List (Nat × K × V)} {p : Nat} {key : K} {el : V}
    (hs : ((A ++ B).map (fun e => e.2.1)).Pairwise (fun x y => x < y))
    (h1 : ∀ e ∈ A, e.2.1 < key) (h2 : ∀ e ∈ B, key < e.2.1) :
    ((A ++ (p, key, el) :: B).map (fun e => e.2.1)).Pairwise (fun x y => x < y) := by
  simp only [List.map_append, List.map_cons, List.pairwise_append, List.pairwise_cons,
    List.mem_map, List.mem_cons, forall_exists_index, and_imp] at hs ⊢
  obtain ⟨s1, s2, s3⟩ := hs
  refine ⟨s1, ⟨?_, s2⟩, ?_⟩
  · rintro x e he rfl; exact h2 e he
  · rintro x e he rfl y hy
    rcases hy with rfl | ⟨e', he', rfl⟩
    · exact h1 e he
    · exact s3 _ e he rfl _ e' he' rfl

theorem key_not_mem_of_bounds [LinearOrder K] {A B : List (Nat × K × V)} {key : K}
    (h1 : ∀ e ∈ A, e.2.1 < key) (h2 : ∀ e ∈ B, key < e.2.1) :
    key ∉ (A ++ B).map (fun e => e.2.1) := by
  simp only [List.map_append, List.mem_append, List.mem_map, not_or, not_exists, not_and]
  exact ⟨fun e he hk => lt_irrefl _ (hk ▸ h1 e he), fun e he hk => lt_irrefl _ (hk ▸ h2 e he)⟩

theorem insertT_spec [LinearOrder K] (p : Nat) (key : K) (el : V) {T : Tree K V}
    (hB : T.Balanced) (hH : T.HeightsOK) (hS : T.BST) :
    ∃ T1 it b, insertT p key el T = some (T1, it, b) ∧ T1.Balanced ∧ T1.HeightsOK ∧ T1.BST ∧
      ((b = false ∧ T1 = T ∧ key ∈ T.keys ∧ it = T.lookup key ∧ it ≠ none) ∨
       (b = true ∧ it = some p ∧ key ∉ T.keys ∧
          ∃ A B, T.entries = A ++ B ∧ T1.entries = A ++ (p, key, el) :: B)) := by
  cases T with
  | nil =>
    refine ⟨_, _, _, rfl, ⟨by simp [Tree.height], by simp [Tree.height], trivial, trivial⟩,
      ⟨by simp [Tree.height], trivial, trivial⟩, ?_, Or.inr ⟨rfl, rfl, by simp [Tree.keys],
        [], [], rfl, rfl⟩⟩
    simp [Tree.BST, Tree.keys]
  | node a l k v h r =>
    obtain ⟨z1, z2, z3, z4⟩ := zoom_spec key (Tree.node a l k v h r) [] hS
      (by simp [ctxL]) (by simp [ctxR])
    have hzp := zoom_ptr key (Tree.node a l k v h r) []
    simp only [plug] at z1
    have hent := entries_plug (zoom key [] (Tree.node a l k v h r)).1
      (zoom key [] (Tree.node a l k v h r)).2
    rw [z1] at hent
    simp only [insertT]
    cases hzm : zoom key [] (Tree.node a l k v h r) with
    | mk ctx t =>
      rw [hzm] at z1 z2 z3 z4 hzp hent
      simp only at z1 z2 z3 z4 hzp hent
      rcases z4 with rfl | ⟨a1, l1, v1, h1, r1, rfl⟩
      · -- the key is absent: a leaf is attached and the path rebalanced
        cases ctx with
        | nil => simp [plug] at z1
        | cons f fs =>
          have hT : (plug (f :: fs) (Tree.nil : Tree K V)).Balanced ∧
              (plug (f :: fs) (Tree.nil : Tree K V)).HeightsOK := by rw [z1]; exact ⟨hB, hH⟩
          obtain ⟨hc, -, -⟩ := ctx_of_plug_ok hT.1 hT.2
          simp only [Tree.height] at hc
          obtain ⟨T1, e, TB, TH, Te⟩ := balanceT_insert fs f
            (Tree.node p Tree.nil key el 0 Tree.nil) (-1) hc
            ⟨by simp [Tree.height], by simp [Tree.height], trivial, trivial⟩
            ⟨by simp [Tree.height], trivial, trivial⟩
            (Or.inr ⟨by simp [Tree.height], Or.inr (by simp [Tree.height])⟩)
          rw [entries_plug] at Te
          have hnil : (Tree.nil : Tree K V).entries = [] := rfl
          simp only [Tree.entries, List.nil_append, List.append_nil, List.append_assoc,
            List.singleton_append] at Te
          simp only [hnil, List.append_nil] at hent
          have hsorted := (BST_iff_sorted _).1 hS
          rw [Tree.keys_eq_map, hent] at hsorted
          refine ⟨T1, some p, true, by simp [e], TB, TH, ?_, Or.inr ⟨rfl, rfl, ?_, _, _, hent, Te⟩⟩
          · rw [BST_iff_sorted, Tree.keys_eq_map, Te]
            exact sorted_insert_mid hsorted z2 z3
          · rw [Tree.keys_eq_map, hent]
            exact key_not_mem_of_bounds z2 z3
      · -- the key is present
        refine ⟨Tree.node a l k v h r, some a1, false, by simp, hB, hH, hS,
          Or.inl ⟨rfl, rfl, ?_, ?_, by simp⟩⟩
        · rw [Tree.keys_eq_map, hent]
          simp [Tree.entries]
        · simpa using hzp

theorem removeOneT_spec {ctx : List (Frame K V)} {a : Nat} {l r : Tree K V} {k : K} {v : V}
    {h h0 : Int} (hc : CtxAVL ctx h0)
    (hlB : l.Balanced) (hlH : l.HeightsOK) (hrB : r.Balanced) (hrH : r.HeightsOK)
    (hlr : (l = Tree.nil ∧ r.height = h0 - 1) ∨ (r = Tree.nil ∧ l.height = h0 - 1)) :
    ∃ T1, removeOneT ctx (Tree.node a l k v h r) = some T1 ∧ T1.Balanced ∧ T1.HeightsOK ∧
      T1.entries = ctxL ctx ++ (l.entries ++ r.entries) ++ ctxR ctx := by
  obtain ⟨son, e, sB, sH, sh, se⟩ : ∃ son : Tree K V,
      (∀ c : List (Frame K V), removeOneT c (Tree.node a l k v h r) =
        (match c with
          | [] => some son
          | f :: fs => balanceT false fs (f.fill son))) ∧
      son.Balanced ∧ son.HeightsOK ∧ son.height = h0 - 1 ∧
      son.entries = l.entries ++ r.entries := by
    rcases hlr with ⟨rfl, hh⟩ | ⟨rfl, hh⟩
    · cases r with
      | nil =>
        exact ⟨Tree.nil, fun c => by cases c <;> rfl, trivial, trivial, hh, rfl⟩
      | node ar rl kr vr hr' rr =>
        exact ⟨_, fun c => by cases c <;> rfl, hrB, hrH, hh, rfl⟩
    · exact ⟨l, fun c => by cases c <;> rfl, hlB, hlH, hh, by simp [Tree.entries]⟩
  rw [e, ← se]
  cases ctx with
  | nil => exact ⟨son, rfl, sB, sH, by simp [ctxL, ctxR]⟩
  | cons f fs =>
    obtain ⟨T1, e1, TB, TH, Te⟩ := balanceT_delete fs f son h0 hc sB sH (Or.inr sh)
    exact ⟨T1, e1, TB, TH, by rw [Te, entries_plug]⟩

theorem removeTwoT_spec {ctx : List (Frame K V)} {a : Nat} {l r : Tree K V} {k : K} {v : V}
    {h : Int} (hB : (plug ctx (Tree.node a l k v h r)).Balanced)
    (hH : (plug ctx (Tree.node a l k v h r)).HeightsOK) (hr : r ≠ Tree.nil) :
    ∃ T1, removeTwoT ctx (Tree.node a l k v h r) = some T1 ∧ T1.Balanced ∧ T1.HeightsOK ∧
      T1.entries = ctxL ctx ++ (l.entries ++ r.entries) ++ ctxR ctx := by
  obtain ⟨path, b, kb, vb, hb, S, ezl, epl⟩ := zoomLeft_spec r hr
  have hpl : ctxL path = [] := by
    have := zoomLeft_ctxL r
    rw [ezl] at this; exact this
  have hT : plug ctx (Tree.node a l k v h r) =
      plug (path ++ Frame.inR a l k v h :: ctx) (Tree.node b Tree.nil kb vb hb S) := by
    rw [plug_append, epl]; rfl
  rw [hT] at hB hH
  obtain ⟨hc, ⟨-, -, -, SB⟩, ⟨-, -, SH⟩⟩ := ctx_of_plug_ok hB hH
  have hc1 : CtxAVL (path ++ Frame.inR b l kb vb h :: ctx)
      (Tree.node b Tree.nil kb vb hb S).height :=
    CtxAVL_append_congr path ctx (Frame.inR a l k v h) (Frame.inR b l kb vb h) rfl rfl _ hc
  have hSg := S.height_ge
  obtain ⟨T1, e1, TB, TH, Te⟩ := removeOneT_spec (a := a) (l := Tree.nil) (r := S) (k := k)
    (v := v) (h := hb) hc1 trivial trivial SB SH
    (Or.inl ⟨rfl, by simp only [Tree.height]; omega⟩)
  refine ⟨T1, by simp only [removeTwoT, ezl, e1], TB, TH, ?_⟩
  rw [Te, ctxL_append, ctxR_append, hpl, ← epl, entries_plug, hpl]
  simp [ctxL, ctxR, Tree.entries]

theorem removeT_spec [LinearOrder K] (key : K) {T : Tree K V}
    (hB : T.Balanced) (hH : T.HeightsOK) (hS : T.BST) :
    ∃ T1 b, removeT key T = some (T1, b) ∧ T1.Balanced ∧ T1.HeightsOK ∧ T1.BST ∧
      ((b = false ∧ T1 = T ∧ key ∉ T.keys) ∨
       (b = true ∧ ∃ A a v B, T.entries = A ++ (a, key, v) :: B ∧ T1.entries = A ++ B)) := by
  obtain ⟨z1, z2, z3, z4⟩ := zoom_spec key T [] hS (by simp [ctxL]) (by simp [ctxR])
  simp only [plug] at z1
  have hent := entries_plug (zoom key [] T).1 (zoom key [] T).2
  rw [z1] at hent
  simp only [removeT]
  cases hzm : zoom key [] T with
  | mk ctx t =>
    rw [hzm] at z1 z2 z3 z4 hent
    simp only at z1 z2 z3 z4 hent
    rcases z4 with rfl | ⟨a, l, v, h, r, rfl⟩
    · refine ⟨T, false, rfl, hB, hH, hS, Or.inl ⟨rfl, rfl, ?_⟩⟩
      have hnil : (Tree.nil : Tree K V).entries = [] := rfl
      simp only [hnil, List.append_nil] at hent
      rw [Tree.keys_eq_map, hent]
      exact key_not_mem_of_bounds z2 z3
    · have hB1 := hB
      have hH1 := hH
      rw [← z1] at hB1 hH1
      obtain ⟨hc, ⟨d1, d2, lB, rB⟩, ⟨hh, lH, rH⟩⟩ := ctx_of_plug_ok hB1 hH1
      have hlg := l.height_ge
      have hrg := r.height_ge
      have hsorted := (BST_iff_sorted _).1 hS
      rw [Tree.keys_eq_map, hent] at hsorted
      have fin : ∀ T1 : Tree K V, T1.Balanced → T1.HeightsOK →
          T1.entries = ctxL ctx ++ (l.entries ++ r.entries) ++ ctxR ctx →
          T1.BST ∧ ∃ A a' v' B, T.entries = A ++ (a', key, v') :: B ∧ T1.entries = A ++ B := by
        intro T1 _ _ Te
        refine ⟨?_, ctxL ctx ++ l.entries, a, v, r.entries ++ ctxR ctx, ?_, ?_⟩
        · rw [BST_iff_sorted, Tree.keys_eq_map, Te]
          refine List.Pairwise.sublist ?_ hsorted
          refine List.Sublist.map _ ?_
          simp only [Tree.entries]
          refine List.Sublist.append (List.Sublist.append (List.Sublist.refl _) ?_)
            (List.Sublist.refl _)
          exact List.Sublist.append (List.Sublist.refl _) (List.sublist_cons_self _ _)
        · rw [hent]; simp [Tree.entries]
        · rw [Te]; simp
      cases l with
      | nil =>
        obtain ⟨T1, e1, TB, TH, Te⟩ := removeOneT_spec (a := a) (l := Tree.nil) (r := r)
          (k := key) (v := v) (h := h)
          hc trivial trivial rB rH (Or.inl ⟨rfl, by simp only [Tree.height] at *; omega⟩)
        obtain ⟨f1, f2⟩ := fin T1 TB TH Te
        exact ⟨T1, true, by simp [e1], TB, TH, f1, Or.inr ⟨rfl, f2⟩⟩
      | node al ll kl vl hl lr =>
        cases r with
        | nil =>
          obtain ⟨T1, e1, TB, TH, Te⟩ := removeOneT_spec (a := a)
            (l := Tree.node al ll kl vl hl lr) (r := Tree.nil) (k := key) (v := v) (h := h)
            hc lB lH trivial trivial (Or.inr ⟨rfl, by simp only [Tree.height] at *; omega⟩)
          obtain ⟨f1, f2⟩ := fin T1 TB TH Te
          exact ⟨T1, true, by simp [e1], TB, TH, f1, Or.inr ⟨rfl, f2⟩⟩
        | node ar rl kr vr hr' rr =>
          obtain ⟨T1, e1, TB, TH, Te⟩ := removeTwoT_spec hB1 hH1 (by simp)
          obtain ⟨f1, f2⟩ := fin T1 TB TH Te
          exact ⟨T1, true, by simp [e1], TB, TH, f1, Or.inr ⟨rfl, f2⟩⟩

/-! ## Lookup: the store, the tree and its list of nodes -/

theorem Linked.unique {m : Mem K V} :
    ∀ (t t1 : Tree K V) (par par1 : Option Nat), Linked m par t → Linked m par1 t1 →
      t.ptr = t1.ptr → t = t1 := by
  intro t
  induction t with
  | nil =>
    intro t1 _ _ _ _ hp
    cases t1 with
    | nil => rfl
    | node _ _ _ _ _ _ => simp at hp
  | node a l k v h r ihl ihr =>
    intro t1 par par1 h1 h2 hp
    cases t1 with
    | nil => simp at hp
    | node a1 l1 k1 v1 hh1 r1 =>
      simp only [Tree.ptr_node, Option.some.injEq] at hp
      subst hp
      obtain ⟨e1, e2, e3⟩ := h1
      obtain ⟨f1, f2, f3⟩ := h2
      rw [e1] at f1
      simp only [Option.some.injEq, Node.mk.injEq] at f1
      obtain ⟨rfl, rfl, -, hl, hr, rfl⟩ := f1
      rw [ihl l1 _ _ e2 f2 hl, ihr r1 _ _ e3 f3 hr]

theorem Rep.unique_tree {s : AVL K V} {T T1 : Tree K V} (h : Rep s T) (h1 : Rep s T1) : T = T1 :=
  Linked.unique T T1 none none h.2.1 h1.2.1 (h.1.symm.trans h1.1)

theorem Linked.mem_of_entry {m : Mem K V} {a : Nat} {k : K} {v : V} :
    ∀ (t : Tree K V) (par : Option Nat), Linked m par t → (a, k, v) ∈ t.entries →
      ∃ n, m a = some n ∧ n.key = k ∧ n.element = v := by
  intro t
  induction t with
  | nil => intro _ _ h; simp [Tree.entries] at h
  | node a1 l k1 v1 h r ihl ihr =>
    intro par hl he
    simp only [Tree.entries, List.mem_append, List.mem_cons, Prod.mk.injEq] at he
    rcases he with he | ⟨rfl, rfl, rfl⟩ | he
    · exact ihl _ hl.2.1 he
    · exact ⟨_, hl.1, rfl, rfl⟩
    · exact ihr _ hl.2.2 he

theorem lookup_get [LinearOrder K] {m : Mem K V} (key : K) :
    ∀ (t : Tree K V) (par : Option Nat), Linked m par t →
      (t.lookup key = none ∧ t.get key = none) ∨
      (∃ a n, t.lookup key = some a ∧ m a = some n ∧ t.get key = some n.element ∧
        ¬ (n.key < key) ∧ ¬ (key < n.key)) := by
  intro t
  induction t with
  | nil => intro _ _; left; exact ⟨rfl, rfl⟩
  | node a l k v h r ihl ihr =>
    intro par hl
    simp only [Tree.lookup, Tree.get]
    by_cases hk : ¬ (k < key) ∧ ¬ (key < k)
    · rw [if_pos hk, if_pos hk]
      right; exact ⟨a, _, rfl, hl.1, rfl, hk.1, hk.2⟩
    · rw [if_neg hk, if_neg hk]
      by_cases hlt : key < k
      · rw [if_pos hlt, if_pos hlt]; exact ihl _ hl.2.1
      · rw [if_neg hlt, if_neg hlt]; exact ihr _ hl.2.2

theorem findDeref_spec [LinearOrder K] {s : AVL K V} {T : Tree K V} (key : K) (hr : Rep s T) :
    findDeref s key = some (match T.get key with
      | some v => Except.ok v
      | none => Except.error ELEMENT_NOT_FOUND.mk) := by
  simp only [findDeref, find_spec key hr, Iterator.deref]
  rcases lookup_get key T none hr.2.1 with ⟨h1, h2⟩ | ⟨a, n, h1, h2, h3, -⟩
  · rw [h1, h2]
  · rw [h1, h3]; simp only [h2]

theorem get_of_entry [LinearOrder K] {a : Nat} {key : K} {v : V} :
    ∀ (t : Tree K V), t.BST → (a, key, v) ∈ t.entries →
      t.lookup key = some a ∧ t.get key = some v := by
  intro t
  induction t with
  | nil => intro _ h; simp [Tree.entries] at h
  | node a1 l k v1 h r ihl ihr =>
    intro hb he
    obtain ⟨b1, b2, b3, b4⟩ := hb
    simp only [Tree.entries, List.mem_append, List.mem_cons, Prod.mk.injEq] at he
    simp only [Tree.lookup, Tree.get]
    rcases he with he | ⟨rfl, rfl, rfl⟩ | he
    · have hlt : key < k := b1 _ (by rw [Tree.keys_eq_map]; exact List.mem_map_of_mem _ he)
      rw [if_neg (by simp [hlt]), if_pos hlt, if_neg (by simp [hlt]), if_pos hlt]
      exact ihl b3 he
    · simp
    · have hgt : k < key := b2 _ (by rw [Tree.keys_eq_map]; exact List.mem_map_of_mem _ he)
      rw [if_neg (by simp [hgt]), if_neg (not_lt.2 (le_of_lt hgt)),
        if_neg (by simp [hgt]), if_neg (not_lt.2 (le_of_lt hgt))]
      exact ihr b4 he

theorem entry_of_lookup [LinearOrder K] {a : Nat} {key : K} :
    ∀ (t : Tree K V), t.lookup key = some a → ∃ v, (a, key, v) ∈ t.entries := by
  intro t
  induction t with
  | nil => intro h; simp [Tree.lookup] at h
  | node a1 l k v1 h r ihl ihr =>
    intro hl
    simp only [Tree.lookup] at hl
    by_cases hk : ¬ (k < key) ∧ ¬ (key < k)
    · rw [if_pos hk] at hl
      have : k = key := le_antisymm (not_lt.1 hk.2) (not_lt.1 hk.1)
      simp only [Option.some.injEq] at hl
      subst this hl
      exact ⟨v1, by simp [Tree.entries]⟩
    · rw [if_neg hk] at hl
      by_cases hlt : key < k
      · rw [if_pos hlt] at hl
        obtain ⟨v, hv⟩ := ihl hl
        exact ⟨v, by simp [Tree.entries, hv]⟩
      · rw [if_neg hlt] at hl
        obtain ⟨v, hv⟩ := ihr hl
        exact ⟨v, by simp [Tree.entries, hv]⟩

theorem entry_of_get [LinearOrder K] {key : K} {v : V} :
    ∀ (t : Tree K V), t.get key = some v → ∃ a, (a, key, v) ∈ t.entries := by
  intro t
  induction t with
  | nil => intro h; simp [Tree.get] at h
  | node a1 l k v1 h r ihl ihr =>
    intro hl
    simp only [Tree.get] at hl
    by_cases hk : ¬ (k < key) ∧ ¬ (key < k)
    · rw [if_pos hk] at hl
      have : k = key := le_antisymm (not_lt.1 hk.2) (not_lt.1 hk.1)
      simp only [Option.some.injEq] at hl
      subst this hl
      exact ⟨a1, by simp [Tree.entries]⟩
    · rw [if_neg hk] at hl
      by_cases hlt : key < k
      · rw [if_pos hlt] at hl
        obtain ⟨a, hv⟩ := ihl hl
        exact ⟨a, by simp [Tree.entries, hv]⟩
      · rw [if_neg hlt] at hl
        obtain ⟨a, hv⟩ := ihr hl
        exact ⟨a, by simp [Tree.entries, hv]⟩

theorem get_iff_entry [LinearOrder K] {T : Tree K V} (hb : T.BST) (key : K) (v : V) :
    T.get key = some v ↔ ∃ a, (a, key, v) ∈ T.entries :=
  ⟨entry_of_get T, fun ⟨_, ha⟩ => (get_of_entry T hb ha).2⟩

theorem lookup_iff_entry [LinearOrder K] {T : Tree K V} (hb : T.BST) (key : K) (a : Nat) :
    T.lookup key = some a ↔ ∃ v, (a, key, v) ∈ T.entries :=
  ⟨entry_of_lookup T, fun ⟨_, ha⟩ => (get_of_entry T hb ha).1⟩

theorem mem_keys_iff {T : Tree K V} (key : K) :
    key ∈ T.keys ↔ ∃ a v, (a, key, v) ∈ T.entries := by
  rw [Tree.keys_eq_map]
  simp only [List.mem_map]
  constructor
  · rintro ⟨⟨a, k, v⟩, he, rfl⟩; exact ⟨a, v, he⟩
  · rintro ⟨a, v, he⟩; exact ⟨_, he, rfl⟩

/-! ## The validator passes on states that satisfy the invariants -/

theorem validateBF_spec {m : Mem K V} :
    ∀ (t : Tree K V) (par : Option Nat) (a fuel : Nat), Linked m par t → t.ptr = some a →
      t.Balanced → t.HeightsOK → t.count ≤ fuel → Node.validateBF fuel m a = some true := by
  intro t
  induction t with
  | nil => intro _ _ _ _ h; simp at h
  | node a' l k v h r ihl ihr =>
    intro par a fuel hl ha hB hH hf
    simp only [Tree.ptr_node, Option.some.injEq] at ha
    subst ha
    match fuel, hf with
    | 0, hf => simp [Tree.count] at hf
    | fuel + 1, hf =>
      simp only [Tree.count] at hf
      obtain ⟨b1, b2, lB, rB⟩ := hB
      obtain ⟨-, lH, rH⟩ := hH
      have hbf := calcBF_spec hl.1 rfl rfl hl.2.1 hl.2.2
      have hb := Tree.bfC_eq lH rH
      have hl' : (match l.ptr with
          | none => some true
          | some x => Node.validateBF fuel m x) = some true := by
        cases l with
        | nil => rfl
        | node al ll kl vl hl0 lr =>
          exact ihl (some a') al fuel hl.2.1 rfl lB lH (by omega)
      have hr' : (match r.ptr with
          | none => some true
          | some x => Node.validateBF fuel m x) = some true := by
        cases r with
        | nil => rfl
        | node ar rl kr vr hr0 rr =>
          exact ihr (some a') ar fuel hl.2.2 rfl rB rH (by omega)
      simp only [Node.validateBF, hbf, hl.1]
      rw [if_neg (by rw [hb]; simp only [not_not]; constructor <;> omega)]
      cases l with
      | nil =>
        cases r with
        | nil => rfl
        | node ar rl kr vr hr0 rr =>
          simp only [Tree.ptr_node, Tree.ptr_nil] at hr' ⊢
          simp only [hr']
      | node al ll kl vl hl0 lr =>
        simp only [Tree.ptr_node] at hl' ⊢
        simp only [hl']
        cases r with
        | nil => rfl
        | node ar rl kr vr hr0 rr =>
          simp only [Tree.ptr_node] at hr' ⊢
          simp only [hr']

theorem checkInvariant_spec [LinearOrder K] {s : AVL K V} {T : Tree K V} (hi : Inv s T) :
    checkInvariant s = some true := by
  obtain ⟨hr, -, hB, hH, hsz⟩ := hi
  cases T with
  | nil =>
    have : s.root = none := hr.1
    simp only [Tree.count] at hsz
    simp [checkInvariant, this, hsz]
  | node a l k v h r =>
    have hroot : s.root = some a := hr.1
    have hc := (ZRep_nil.2 hr).count_le
    simp only [checkInvariant, hroot]
    exact validateBF_spec _ none a _ hr.2.1 rfl hB hH (by simp at hc; omega)

theorem assertInvariant_ok {α : Type} {s : AVL K V} (r : α) (h : checkInvariant s = some true) :
    assertInvariant s r = some (s, r) := by
  simp only [assertInvariant, h]

/-! ## The two mutating member functions preserve the invariants -/

theorem insert_full [LinearOrder K] {s : AVL K V} {T : Tree K V} (key : K) (el : V)
    (hi : Inv s T) :
    ∃ s1 T1 it b, insert s key el =
        some (s1, { first := { avl := s.self, current := it }, second := b }) ∧
      Inv s1 T1 ∧ s1.self = s.self ∧
      ((b = false ∧ s1 = s ∧ T1 = T ∧ key ∈ T.keys ∧ it = T.lookup key ∧ it ≠ none) ∨
       (b = true ∧ it = some s.fresh ∧ key ∉ T.keys ∧ s1.size = s.size + 1 ∧
          ∃ A B, T.entries = A ++ B ∧ T1.entries = A ++ (s.fresh, key, el) :: B)) := by
  obtain ⟨hr, hS, hB, hH, hsz⟩ := hi
  obtain ⟨T1, it, b, e, TB, TH, TS, hcase⟩ := insertT_spec s.fresh key el hB hH hS
  obtain ⟨s1, e1, hr1, hself, hsize, -, hsame⟩ := insert_refines hr e
  have hsz1 : s1.size = (T1.count : Int) := by
    rcases hcase with ⟨rfl, rfl, -⟩ | ⟨rfl, -, -, A, B, eA, eB⟩
    · rw [hsame rfl]; exact hsz
    · rw [hsize, hsz, Tree.count_eq_length, Tree.count_eq_length, eA, eB]
      simp only [List.length_append, List.length_cons, if_true]
      push_cast
      omega
  have hinv1 : Inv s1 T1 := ⟨hr1, TS, TB, TH, hsz1⟩
  refine ⟨s1, T1, it, b, e1.trans (assertInvariant_ok _ (checkInvariant_spec hinv1)), hinv1,
    hself, ?_⟩
  · rcases hcase with ⟨rfl, rfl, h1, h2, h3⟩ | ⟨rfl, h1, h2, A, B, eA, eB⟩
    · exact Or.inl ⟨rfl, hsame rfl, rfl, h1, h2, h3⟩
    · exact Or.inr ⟨rfl, h1, h2, by simpa using hsize, A, B, eA, eB⟩

theorem remove_full [LinearOrder K] {s : AVL K V} {T : Tree K V} (key : K) (hi : Inv s T) :
    ∃ s1 T1 b, remove s key = some (s1, b) ∧ Inv s1 T1 ∧ s1.self = s.self ∧
      ((b = false ∧ s1 = s ∧ T1 = T ∧ key ∉ T.keys) ∨
       (b = true ∧ s1.size = s.size - 1 ∧
          ∃ A a v B, T.entries = A ++ (a, key, v) :: B ∧ T1.entries = A ++ B)) := by
  obtain ⟨hr, hS, hB, hH, hsz⟩ := hi
  obtain ⟨T1, b, e, TB, TH, TS, hcase⟩ := removeT_spec key hB hH hS
  obtain ⟨s1, e1, hr1, hself, hsize, -, hsame⟩ := remove_refines hr e
  have hsz1 : s1.size = (T1.count : Int) := by
    rcases hcase with ⟨rfl, rfl, -⟩ | ⟨rfl, A, a, v, B, eA, eB⟩
    · rw [hsame rfl]; exact hsz
    · rw [hsize, hsz, Tree.count_eq_length, Tree.count_eq_length, eA, eB]
      simp only [List.length_append, List.length_cons, if_true]
      push_cast
      omega
  have hinv1 : Inv s1 T1 := ⟨hr1, TS, TB, TH, hsz1⟩
  refine ⟨s1, T1, b, e1.trans (assertInvariant_ok _ (checkInvariant_spec hinv1)), hinv1,
    hself, ?_⟩
  · rcases hcase with ⟨rfl, rfl, h1⟩ | ⟨rfl, A, a, v, B, eA, eB⟩
    · exact Or.inl ⟨rfl, hsame rfl, rfl, h1⟩
    · exact Or.inr ⟨rfl, by simpa using hsize, A, a, v, B, eA, eB⟩

theorem Inv_new [LinearOrder K] (self : Nat) (mem : Mem K V) (fresh : Nat) :
    Inv (AVL.new self mem fresh) (Tree.nil : Tree K V) := by
  refine ⟨⟨rfl, trivial, by simp [Tree.addrs], by simp [Tree.addrs]⟩, trivial, trivial, trivial, rfl⟩

theorem Reachable.inv [LinearOrder K] {s : AVL K V} (h : Reachable s) : ∃ T, Inv s T := by
  induction h with
  | new self mem fresh => exact ⟨Tree.nil, Inv_new self mem fresh⟩
  | insert key el _ e ih =>
    obtain ⟨T, hi⟩ := ih
    obtain ⟨s1, T1, it, b, e1, hi1, -⟩ := insert_full key el hi
    rw [e1] at e
    simp only [Option.some.injEq, Prod.mk.injEq] at e
    obtain ⟨rfl, -⟩ := e
    exact ⟨T1, hi1⟩
  | remove key _ e ih =>
    obtain ⟨T, hi⟩ := ih
    obtain ⟨s1, T1, b, e1, hi1, -⟩ := remove_full key hi
    rw [e1] at e
    simp only [Option.some.injEq, Prod.mk.injEq] at e
    obtain ⟨rfl, -⟩ := e
    exact ⟨T1, hi1⟩

/-- Every sequence of calls on a state that satisfies the invariants runs to the end,
the final state satisfies the invariants, and `size` has moved by the number of
successful inserts minus the number of successful removes. -/
theorem run_inv [LinearOrder K] :
    ∀ (ops : List (Op K V)) (s : AVL K V) (T : Tree K V), Inv s T →
      ∃ s1 i d T1, run ops s = some (s1, i, d) ∧ Inv s1 T1 ∧
        s1.size = s.size + (i : Int) - (d : Int) ∧ s1.self = s.self := by
  intro ops
  induction ops with
  | nil => intro s T hi; exact ⟨s, 0, 0, T, rfl, hi, by simp, rfl⟩
  | cons op ops ih =>
    intro s T hi
    cases op with
    | insert key el =>
      obtain ⟨s1, T1, it, b, e1, hi1, hself, hcase⟩ := insert_full key el hi
      obtain ⟨s2, i, d, T2, e2, hi2, hsz, hself2⟩ := ih s1 T1 hi1
      refine ⟨s2, (if b = true then i + 1 else i), d, T2, ?_, hi2, ?_, hself2.trans hself⟩
      · simp only [run, e1, e2]
      · rcases hcase with ⟨rfl, rfl, -⟩ | ⟨rfl, -, -, hs, -⟩
        · simpa using hsz
        · rw [hsz, hs]; simp only [if_true]; push_cast; omega
    | remove key =>
      obtain ⟨s1, T1, b, e1, hi1, hself, hcase⟩ := remove_full key hi
      obtain ⟨s2, i, d, T2, e2, hi2, hsz, hself2⟩ := ih s1 T1 hi1
      refine ⟨s2, i, (if b = true then d + 1 else d), T2, ?_, hi2, ?_, hself2.trans hself⟩
      · simp only [run, e1, e2]
      · rcases hcase with ⟨rfl, rfl, -⟩ | ⟨rfl, hs, -⟩
        · simpa using hsz
        · rw [hsz, hs]; simp only [if_true]; push_cast; omega

theorem run_reachable [LinearOrder K] :
    ∀ (ops : List (Op K V)) (s s1 : AVL K V) (i d : Nat), Reachable s →
      run ops s = some (s1, i, d) → Reachable s1 := by
  intro ops
  induction ops with
  | nil =>
    intro s s1 i d hr e
    simp only [run, Option.some.injEq, Prod.mk.injEq] at e
    obtain ⟨rfl, -⟩ := e
    exact hr
  | cons op ops ih =>
    intro s s1 i d hr e
    cases op with
    | insert key el =>
      simp only [run] at e
      cases h1 : insert s key el with
      | none => simp [h1] at e
      | some x =>
        obtain ⟨sa, r⟩ := x
        simp only [h1] at e
        cases h2 : run ops sa with
        | none => simp [h2] at e
        | some y =>
          obtain ⟨sb, i1, d1⟩ := y
          simp only [h2, Option.some.injEq, Prod.mk.injEq] at e
          obtain ⟨rfl, -, -⟩ := e
          exact ih sa _ i1 d1 (Reachable.insert key el hr h1) h2
    | remove key =>
      simp only [run] at e
      cases h1 : remove s key with
      | none => simp [h1] at e
      | some x =>
        obtain ⟨sa, r⟩ := x
        simp only [h1] at e
        cases h2 : run ops sa with
        | none => simp [h2] at e
        | some y =>
          obtain ⟨sb, i1, d1⟩ := y
          simp only [h2, Option.some.injEq, Prod.mk.injEq] at e
          obtain ⟨rfl, -, -⟩ := e
          exact ih sa _ i1 d1 (Reachable.remove key hr h1) h2

theorem reachable_run [LinearOrder K] {s : AVL K V} (h : Reachable s) :
    ∃ (ops : List (Op K V)) (self : Nat) (mem : Mem K V) (fresh i d : Nat),
      run ops (AVL.new self mem fresh) = some (s, i, d) := by
  have app : ∀ (ops : List (Op K V)) (op : Op K V) (s0 s1 s2 : AVL K V) (i d i1 d1 : Nat),
      run ops s0 = some (s1, i, d) → run [op] s1 = some (s2, i1, d1) →
      run (ops ++ [op]) s0 = some (s2, i + i1, d + d1) := by
    intro ops
    induction ops with
    | nil =>
      intro op s0 s1 s2 i d i1 d1 e1 e2
      simp only [run, Option.some.injEq, Prod.mk.injEq] at e1
      obtain ⟨rfl, rfl, rfl⟩ := e1
      simpa using e2
    | cons o os ih =>
      intro op s0 s1 s2 i d i1 d1 e1 e2
      cases o with
      | insert key el =>
        simp only [run, List.cons_append] at e1 ⊢
        cases h1 : insert s0 key el with
        | none => simp [h1] at e1
        | some x =>
          obtain ⟨sa, r⟩ := x
          simp only [h1] at e1 ⊢
          cases h2 : run os sa with
          | none => simp [h2] at e1
          | some y =>
            obtain ⟨sb, ia, da⟩ := y
            simp only [h2, Option.some.injEq, Prod.mk.injEq] at e1
            obtain ⟨rfl, rfl, rfl⟩ := e1
            have hx := ih op sa sb s2 ia da i1 d1 h2 e2
            simp only [List.append_eq, hx]
            cases r.second <;> (simp; try omega)
      | remove key =>
        simp only [run, List.cons_append] at e1 ⊢
        cases h1 : remove s0 key with
        | none => simp [h1] at e1
        | some x =>
          obtain ⟨sa, r⟩ := x
          simp only [h1] at e1 ⊢
          cases h2 : run os sa with
          | none => simp [h2] at e1
          | some y =>
            obtain ⟨sb, ia, da⟩ := y
            simp only [h2, Option.some.injEq, Prod.mk.injEq] at e1
            obtain ⟨rfl, rfl, rfl⟩ := e1
            have hx := ih op sa sb s2 ia da i1 d1 h2 e2
            simp only [List.append_eq, hx]
            cases r <;> (simp; try omega)
  induction h with
  | new self mem fresh => exact ⟨[], self, mem, fresh, 0, 0, rfl⟩
  | @insert s0 s1 r key el _ e ih =>
    obtain ⟨ops, self, mem, fresh, i, d, e0⟩ := ih
    exact ⟨ops ++ [Op.insert key el], self, mem, fresh, _, _,
      app ops _ _ s0 s1 i d (if r.second = true then 0 + 1 else 0) 0 e0 (by simp [run, e])⟩
  | @remove s0 s1 b key _ e ih =>
    obtain ⟨ops, self, mem, fresh, i, d, e0⟩ := ih
    exact ⟨ops ++ [Op.remove key], self, mem, fresh, _, _,
      app ops _ _ s0 s1 i d 0 (if b = true then 0 + 1 else 0) e0 (by simp [run, e])⟩

theorem lookup_none_of_not_mem [LinearOrder K] {T : Tree K V} {key : K} (h : key ∉ T.keys) :
    T.lookup key = none := by
  cases hl : T.lookup key with
  | none => rfl
  | some a =>
    obtain ⟨v, hv⟩ := entry_of_lookup T hl
    exact absurd ((mem_keys_iff key).2 ⟨a, v, hv⟩) h

theorem get_none_of_not_mem [LinearOrder K] {T : Tree K V} {key : K} (h : key ∉ T.keys) :
    T.get key = none := by
  cases hl : T.get key with
  | none => rfl
  | some v =>
    obtain ⟨a, hv⟩ := entry_of_get T hl
    exact absurd ((mem_keys_iff key).2 ⟨a, v, hv⟩) h

theorem get_insert [LinearOrder K] {T T1 : Tree K V} {A B : List (Nat × K × V)} {p : Nat}
    {key : K} {el : V} (hb : T.BST) (hb1 : T1.BST) (eA : T.entries = A ++ B)
    (eB : T1.entries = A ++ (p, key, el) :: B) (k : K) :
    T1.get k = if k = key then some el else T.get k := by
  by_cases hk : k = key
  · subst hk
    rw [if_pos rfl]
    exact (get_iff_entry hb1 k el).2 ⟨p, by rw [eB]; simp⟩
  · rw [if_neg hk]
    apply Option.ext
    intro v
    rw [Option.mem_def, Option.mem_def, get_iff_entry hb1, get_iff_entry hb, eA, eB]
    constructor
    · rintro ⟨a, ha⟩
      simp only [List.mem_append, List.mem_cons, Prod.mk.injEq] at ha
      rcases ha with ha | ⟨-, hk', -⟩ | ha
      · exact ⟨a, by simp [ha]⟩
      · exact absurd hk' hk
      · exact ⟨a, by simp [ha]⟩
    · rintro ⟨a, ha⟩
      simp only [List.mem_append] at ha
      rcases ha with ha | ha
      · exact ⟨a, by simp [ha]⟩
      · exact ⟨a, by simp [ha]⟩

theorem no_entry_after_remove [LinearOrder K] {T T1 : Tree K V} {A B : List (Nat × K × V)}
    {a : Nat} {key : K} {v : V} (hb : T.BST) (eA : T.entries = A ++ (a, key, v) :: B)
    (eB : T1.entries = A ++ B) : key ∉ T1.keys := by
  have hs := (BST_iff_sorted T).1 hb
  rw [Tree.keys_eq_map, eA] at hs
  simp only [List.map_append, List.map_cons, List.pairwise_append, List.pairwise_cons,
    List.mem_map, List.mem_cons, forall_exists_index, and_imp] at hs
  obtain ⟨-, ⟨s2, -⟩, s3⟩ := hs
  rw [Tree.keys_eq_map, eB]
  simp only [List.map_append, List.mem_append, List.mem_map, not_or, not_exists, not_and]
  constructor
  · intro e he hk
    exact lt_irrefl key (by simpa [hk] using s3 _ e he rfl key (Or.inl rfl))
  · intro e he hk
    exact lt_irrefl key (by simpa [hk] using s2 _ e he rfl)

theorem get_remove [LinearOrder K] {T T1 : Tree K V} {A B : List (Nat × K × V)}
    {a : Nat} {key : K} {v : V} (hb : T.BST) (hb1 : T1.BST)
    (eA : T.entries = A ++ (a, key, v) :: B) (eB : T1.entries = A ++ B) (k : K) (hk : k ≠ key) :
    T1.get k = T.get k ∧ T1.lookup k = T.lookup k := by
  constructor
  · apply Option.ext
    intro w
    rw [Option.mem_def, Option.mem_def, get_iff_entry hb1, get_iff_entry hb, eA, eB]
    constructor
    · rintro ⟨x, hx⟩
      simp only [List.mem_append] at hx
      rcases hx with hx | hx
      · exact ⟨x, by simp [hx]⟩
      · exact ⟨x, by simp [hx]⟩
    · rintro ⟨x, hx⟩
      simp only [List.mem_append, List.mem_cons, Prod.mk.injEq] at hx
      rcases hx with hx | ⟨-, hk', -⟩ | hx
      · exact ⟨x, by simp [hx]⟩
      · exact absurd hk' hk
      · exact ⟨x, by simp [hx]⟩
  · apply Option.ext
    intro w
    rw [Option.mem_def, Option.mem_def, lookup_iff_entry hb1, lookup_iff_entry hb, eA, eB]
    constructor
    · rintro ⟨x, hx⟩
      simp only [List.mem_append] at hx
      rcases hx with hx | hx
      · exact ⟨x, by simp [hx]⟩
      · exact ⟨x, by simp [hx]⟩
    · rintro ⟨x, hx⟩
      simp only [List.mem_append, List.mem_cons, Prod.mk.injEq] at hx
      rcases hx with hx | ⟨-, hk', -⟩ | hx
      · exact ⟨x, by simp [hx]⟩
      · exact absurd hk' hk
      · exact ⟨x, by simp [hx]⟩

theorem inv_emptyNat : Inv emptyNat (Tree.nil : Tree Nat Nat) := Inv_new 0 _ 0

theorem inv_example12 : Inv example12 exampleTree12 := by
  refine ⟨⟨rfl, ⟨rfl, trivial, ⟨rfl, trivial, trivial⟩⟩, by decide, by decide⟩, ?_, ?_, ?_, rfl⟩
  · simp [exampleTree12, Tree.BST, Tree.keys]
  · simp [exampleTree12, Tree.Balanced, Tree.height]
  · simp [exampleTree12, Tree.HeightsOK, Tree.height]

theorem inv_example213 : Inv example213 exampleTree213 := by
  refine ⟨⟨rfl, ⟨rfl, ⟨rfl, trivial, trivial⟩, ⟨rfl, trivial, trivial⟩⟩, by decide, by decide⟩,
    ?_, ?_, ?_, rfl⟩
  · simp [exampleTree213, Tree.BST, Tree.keys]
  · simp [exampleTree213, Tree.Balanced, Tree.height]
  · simp [exampleTree213, Tree.HeightsOK, Tree.height]

/-- C1: every sequence of `insert` and `remove` calls on an empty tree runs to a
state that holds a tree in which, at every node, all keys of the left subtree are
strictly smaller and all keys of the right subtree strictly greater than the
node's key. -/
theorem bst_ordering_invariant [LinearOrder K] (ops : List (Op K V)) (self : Nat)
    (mem : Mem K V) (fresh : Nat) :
    ∃ s i d T, run ops (AVL.new self mem fresh) = some (s, i, d) ∧ Rep s T ∧ T.BST := by
  obtain ⟨s, i, d, T, hrun, hinv, _, _⟩ := run_inv ops _ _ (Inv_new self mem fresh)
  exact ⟨s, i, d, T, hrun, hinv.1, hinv.2.1⟩

/-- C2: every sequence of `insert` and `remove` calls on an empty tree runs to a
state that holds a tree in which the true heights of the two subtrees of every node
differ by at most one (an absent subtree has height -1), and on which the
validator `checkInvariant` returns true; `insert` rebalances with `onInsert = true`
(stop after the first rotation) and `remove` with `onInsert = false`. -/
theorem balance_invariant [LinearOrder K] (ops : List (Op K V)) (self : Nat)
    (mem : Mem K V) (fresh : Nat) :
    ∃ s i d T, run ops (AVL.new self mem fresh) = some (s, i, d) ∧ Rep s T ∧ T.Balanced ∧
      checkInvariant s = some true := by
  obtain ⟨s, i, d, T, hrun, hinv, _, _⟩ := run_inv ops _ _ (Inv_new self mem fresh)
  exact ⟨s, i, d, T, hrun, hinv.1, hinv.2.2.1, checkInvariant_spec hinv⟩

/-- C3: from the state reached by any sequence of `insert` and `remove` calls on an
empty tree, every further `insert` and every further `remove` returns a state that
holds a tree in which the cached height of every node is `1 + max` of the true
heights of its two subtrees (an absent subtree counting -1, so 0 at a leaf). -/
theorem cached_heights_invariant [LinearOrder K] (ops : List (Op K V)) (self : Nat)
    (mem : Mem K V) (fresh : Nat) :
    ∃ s i d, run ops (AVL.new self mem fresh) = some (s, i, d) ∧
      (∀ key el, ∃ s1 r T1, insert s key el = some (s1, r) ∧ Rep s1 T1 ∧ T1.HeightsOK) ∧
      (∀ key, ∃ s1 b T1, remove s key = some (s1, b) ∧ Rep s1 T1 ∧ T1.HeightsOK) := by
  obtain ⟨s, i, d, T, hrun, hinv, _, _⟩ := run_inv ops _ _ (Inv_new self mem fresh)
  refine ⟨s, i, d, hrun, ?_, ?_⟩
  · intro key el
    obtain ⟨s1, T1, it, b, h, hinv1, _⟩ := insert_full key el hinv
    exact ⟨s1, _, T1, h, hinv1.1, hinv1.2.2.2.1⟩
  · intro key
    obtain ⟨s1, T1, b, h, hinv1, _⟩ := remove_full key hinv
    exact ⟨s1, b, T1, h, hinv1.1, hinv1.2.2.2.1⟩

/-- C4: after any sequence of `insert` and `remove` calls on an empty tree,
`getSize()` is the number of nodes of the tree hanging from `root`, and is the number
of `insert` calls that returned `inserted = true` minus the number of `remove`
calls that returned `true`. -/
theorem size_invariant [LinearOrder K] (ops : List (Op K V)) (self : Nat)
    (mem : Mem K V) (fresh : Nat) :
    ∃ s i d T, run ops (AVL.new self mem fresh) = some (s, i, d) ∧ Rep s T ∧
      s.getSize = (T.count : Int) ∧ s.getSize = (i : Int) - (d : Int) := by
  obtain ⟨s, i, d, T, hrun, hinv, hsz, _⟩ := run_inv ops _ _ (Inv_new self mem fresh)
  refine ⟨s, i, d, T, hrun, hinv.1, hinv.2.2.2.2, ?_⟩
  have h0 : (AVL.new self mem fresh : AVL K V).size = 0 := rfl
  rw [h0] at hsz
  simp only [getSize, hsz]
  omega

/-- C5: on a state satisfying the invariants, `insert(key, el)` of an absent key
returns `inserted = true` and an iterator that dereferences to `el`, increases
`getSize()` by one, keeps the invariants, and afterwards `*find(k)` is `el` for
`k = key` and what it was before for every other `k`. -/
theorem insert_absent [LinearOrder K] {s : AVL K V} {T : Tree K V} (key : K) (el : V)
    (hi : Inv s T) (hk : key ∉ T.keys) :
    ∃ s1 p T1, insert s key el =
        some (s1, { first := { avl := s.self, current := some p }, second := true }) ∧
      Iterator.deref { avl := s.self, current := some p } s1.mem = some (Except.ok el) ∧
      s1.getSize = s.getSize + 1 ∧ Inv s1 T1 ∧
      ∀ k, findDeref s1 k = if k = key then some (Except.ok el) else findDeref s k := by
  obtain ⟨s1, T1, it, b, h, hinv1, _, hcase⟩ := insert_full key el hi
  rcases hcase with ⟨_, _, _, hmem, _⟩ | ⟨hb, hit, _, hsz, A, B, eA, eB⟩
  · exact absurd hmem hk
  · subst hb; subst hit
    refine ⟨s1, s.fresh, T1, h, ?_, hsz, hinv1, ?_⟩
    · have hmem : (s.fresh, key, el) ∈ T1.entries := by rw [eB]; simp
      obtain ⟨n, hn, _, hel⟩ := Linked.mem_of_entry T1 none hinv1.1.2.1 hmem
      simp only [Iterator.deref, hn, hel]
    · intro k
      rw [findDeref_spec k hinv1.1, findDeref_spec k hi.1, get_insert hi.2.1 hinv1.2.1 eA eB k]
      by_cases hkk : k = key
      · simp [hkk]
      · simp [hkk]

/-- C5 witness: inserting key 3 into the tree holding 1 and 2 (a rotation moves the
new node's parent to the root). -/
theorem insert_absent_witness :
    Inv example12 exampleTree12 ∧ 3 ∉ exampleTree12.keys ∧
    ∃ s1 p T1, insert example12 3 30 =
        some (s1, { first := { avl := example12.self, current := some p }, second := true }) ∧
      Iterator.deref { avl := example12.self, current := some p } s1.mem = some (Except.ok 30) ∧
      s1.getSize = example12.getSize + 1 ∧ Inv s1 T1 ∧
      ∀ k, findDeref s1 k = if k = 3 then some (Except.ok 30) else findDeref example12 k :=
  ⟨inv_example12, by decide, insert_absent 3 30 inv_example12 (by decide)⟩

/-- C7 counterexample: `example3` is reachable (it is `insert(3, 10)` on an empty
tree); `insert(3, 20)` on it returns `inserted = false` and the same state, and
`*find(3)` is then 10, not 20. -/
theorem insert_then_find_counterexample :
    Reachable example3 ∧
    insert example3 3 20 =
      some (example3, { first := { avl := 0, current := some 0 }, second := false }) ∧
    findDeref example3 3 = some (Except.ok 10) ∧
    findDeref example3 3 ≠ some (Except.ok 20) := by
  refine ⟨?_, rfl, rfl, ?_⟩
  · exact Reachable.insert (r := { first := { avl := 0, current := some 0 }, second := true })
      3 10 (Reachable.new 0 _ 0) rfl
  · have h : findDeref example3 3 = some (Except.ok 10) := rfl
    rw [h]
    intro e
    injection e with e
    injection e with e
    exact absurd e (by decide)

/-- C7, amended: on a reachable state, `insert(key, el)` returns, and afterwards
`*find(key)` is `el` if `find(key)` was `end()` before the call (the call then
returns `inserted = true`), and is the value already stored under `key` if the key
was present (the call then returns `inserted = false` and the state it was given,
unchanged). -/
theorem insert_then_find [LinearOrder K] {s : AVL K V} (key : K) (el : V)
    (hs : Reachable s) :
    ∃ s1 r, insert s key el = some (s1, r) ∧
      ((findDeref s key = some (Except.error ELEMENT_NOT_FOUND.mk) ∧ r.second = true ∧
          findDeref s1 key = some (Except.ok el)) ∨
       (∃ v0, findDeref s key = some (Except.ok v0) ∧ r.second = false ∧ s1 = s ∧
          findDeref s1 key = some (Except.ok v0))) := by
  obtain ⟨T, hi⟩ := hs.inv
  obtain ⟨s1, T1, it, b, h, hinv1, _, hcase⟩ := insert_full key el hi
  refine ⟨s1, _, h, ?_⟩
  rcases hcase with ⟨hb, hs1, _, hmem, _⟩ | ⟨hb, _, hk, _, A, B, eA, eB⟩
  · right
    obtain ⟨a, v0, hmem⟩ := (mem_keys_iff key).1 hmem
    obtain ⟨_, hg⟩ := get_of_entry T hi.2.1 hmem
    refine ⟨v0, ?_, hb, hs1, ?_⟩
    · rw [findDeref_spec key hi.1, hg]
    · rw [hs1, findDeref_spec key hi.1, hg]
  · left
    refine ⟨?_, hb, ?_⟩
    · rw [findDeref_spec key hi.1, get_none_of_not_mem hk]
    · rw [findDeref_spec key hinv1.1, get_insert hi.2.1 hinv1.2.1 eA eB key]
      simp

/-- C7 witness (amended): `insert(3, 20)` on the reachable tree holding `3 -> 10`. -/
theorem insert_then_find_witness :
    Reachable example3 ∧
    ∃ s1 r, insert example3 3 20 = some (s1, r) ∧
      ((findDeref example3 3 = some (Except.error ELEMENT_NOT_FOUND.mk) ∧ r.second = true ∧
          findDeref s1 3 = some (Except.ok 20)) ∨
       (∃ v0, findDeref example3 3 = some (Except.ok v0) ∧ r.second = false ∧
          s1 = example3 ∧ findDeref s1 3 = some (Except.ok v0))) :=
  have hs : Reachable example3 :=
    Reachable.insert (r := { first := { avl := 0, current := some 0 }, second := true })
      3 10 (Reachable.new 0 _ 0) rfl
  ⟨hs, insert_then_find 3 20 hs⟩

/-- C8: on a state satisfying the invariants, `remove(key)` returns, keeps the
invariants, and returns `true` exactly when the key was present; when it was,
`getSize()` has decreased by one, `find(key)` is then `end()`, and for every other
key `find` followed by dereference gives what it gave before. -/
theorem remove_present [LinearOrder K] {s : AVL K V} {T : Tree K V} (key : K)
    (hi : Inv s T) :
    ∃ s1 b T1, remove s key = some (s1, b) ∧ Inv s1 T1 ∧ (b = true ↔ key ∈ T.keys) ∧
      (key ∈ T.keys → s1.getSize = s.getSize - 1 ∧ find s1 key = some s1.end ∧
        ∀ k, k ≠ key → findDeref s1 k = findDeref s k) := by
  obtain ⟨s1, T1, b, h, hinv1, _, hcase⟩ := remove_full key hi
  refine ⟨s1, b, T1, h, hinv1, ?_, ?_⟩
  · rcases hcase with ⟨hb, _, _, hk⟩ | ⟨hb, _, A, a, v, B, eA, _⟩
    · simp [hb, hk]
    · have : key ∈ T.keys := (mem_keys_iff key).2 ⟨a, v, by rw [eA]; simp⟩
      simp [hb, this]
  · intro hk
    rcases hcase with ⟨_, _, _, hnk⟩ | ⟨_, hsz, A, a, v, B, eA, eB⟩
    · exact absurd hk hnk
    · refine ⟨hsz, ?_, ?_⟩
      · rw [find_spec key hinv1.1,
          lookup_none_of_not_mem (no_entry_after_remove hi.2.1 eA eB)]
        rfl
      · intro k hkk
        rw [findDeref_spec k hinv1.1, findDeref_spec k hi.1,
          (get_remove hi.2.1 hinv1.2.1 eA eB k hkk).1]

/-- C8 witness: removing the root 2 (a node with two sons) of the tree holding 1,
2 and 3. -/
theorem remove_present_witness :
    Inv example213 exampleTree213 ∧
    ∃ s1 b T1, remove example213 2 = some (s1, b) ∧ Inv s1 T1 ∧
      (b = true ↔ 2 ∈ exampleTree213.keys) ∧
      (2 ∈ exampleTree213.keys → s1.getSize = example213.getSize - 1 ∧
        find s1 2 = some s1.end ∧
        ∀ k, k ≠ 2 → findDeref s1 k = findDeref example213 k) :=
  ⟨inv_example213, remove_present 2 inv_example213⟩

/-- C10: on a state holding a BST-ordered tree, `find(key)` returns an iterator to
the node holding a key equivalent to `key` if the tree has one, and `end()` if it
has none (so `end()` on the empty tree). -/
theorem find_correct [LinearOrder K] {s : AVL K V} {T : Tree K V} (key : K)
    (hr : Rep s T) (hb : T.BST) :
    (∀ a v, (a, key, v) ∈ T.entries →
        find s key = some { avl := s.self, current := some a } ∧
        ∃ n, s.mem a = some n ∧ ¬ (n.key < key) ∧ ¬ (key < n.key) ∧ n.element = v) ∧
    (key ∉ T.keys → find s key = some s.end) ∧
    (T = Tree.nil → find s key = some s.end) := by
  refine ⟨?_, ?_, ?_⟩
  · intro a v hmem
    obtain ⟨hl, _⟩ := get_of_entry T hb hmem
    obtain ⟨n, hn, hkey, hel⟩ := Linked.mem_of_entry T none hr.2.1 hmem
    refine ⟨by rw [find_spec key hr, hl], n, hn, ?_, ?_, hel⟩
    · rw [hkey]; exact lt_irrefl key
    · rw [hkey]; exact lt_irrefl key
  · intro hk
    rw [find_spec key hr, lookup_none_of_not_mem hk]
    rfl
  · intro hT
    subst hT
    rw [find_spec key hr]
    rfl

/-- C10 witness: `find(3)` on the tree holding 1, 2 and 3, and `find` on the empty
tree. -/
theorem find_correct_witness :
    (Rep example213 exampleTree213 ∧ exampleTree213.BST ∧
      find example213 3 = some { avl := example213.self, current := some 2 }) ∧
    (Rep emptyNat (Tree.nil : Tree Nat Nat) ∧ (Tree.nil : Tree Nat Nat).BST ∧
      find emptyNat 7 = some emptyNat.end) :=
  ⟨⟨inv_example213.1, inv_example213.2.1,
      ((find_correct 3 inv_example213.1 inv_example213.2.1).1 2 30 (by decide)).1⟩,
   ⟨inv_emptyNat.1, inv_emptyNat.2.1,
      (find_correct 7 inv_emptyNat.1 inv_emptyNat.2.1).2.2 rfl⟩⟩

/-! ## In-order traversal -/

theorem visit_ptr {F : Type} (f : F → V → F × V) (t : Tree K V) (st : F) :
    (t.visit f st).1.ptr = t.ptr := by
  cases t <;> rfl

theorem visit_addrs {F : Type} (f : F → V → F × V) :
    ∀ (t : Tree K V) (st : F), (t.visit f st).1.addrs = t.addrs := by
  intro t
  induction t with
  | nil => intro st; rfl
  | node a l k v h r ihl ihr =>
    intro st
    simp only [Tree.visit, Tree.addrs, ihl, ihr]

theorem visit_keys {F : Type} (f : F → V → F × V) :
    ∀ (t : Tree K V) (st : F), (t.visit f st).1.keys = t.keys := by
  intro t
  induction t with
  | nil => intro st; rfl
  | node a l k v h r ihl ihr =>
    intro st
    simp only [Tree.visit, Tree.keys, ihl, ihr]

theorem visit_state {F : Type} (f : F → V → F × V) :
    ∀ (t : Tree K V) (st : F),
      (t.visit f st).2 = (t.entries.map (fun e => e.2.2)).foldl (fun x v => (f x v).1) st := by
  intro t
  induction t with
  | nil => intro st; rfl
  | node a l k v h r ihl ihr =>
    intro st
    simp only [Tree.visit, Tree.entries, List.map_append, List.map_cons, List.foldl_append,
      List.foldl_cons, ihl, ihr]

theorem inOrderAux_spec {F : Type} (f : F → V → F × V) :
    ∀ (t : Tree K V) (par : Option Nat) (fuel : Nat) (m : Mem K V) (st : F),
      Linked m par t → t.addrs.Nodup → t.count < fuel →
      ∃ m1, inOrderAux fuel m t.ptr f st = some (m1, (t.visit f st).2) ∧
        Linked m1 par (t.visit f st).1 ∧ ∀ q, q ∉ t.addrs → m1 q = m q := by
  intro t
  induction t with
  | nil =>
    intro par fuel m st _ _ hf
    match fuel, hf with
    | fuel + 1, _ => exact ⟨m, rfl, trivial, fun _ _ => rfl⟩
  | node a l k v h r ihl ihr =>
    intro par fuel m st hl hnd hf
    match fuel, hf with
    | fuel + 1, hf =>
      obtain ⟨hm, hll, hlr⟩ := hl
      simp only [Tree.addrs] at hnd
      have hndl : l.addrs.Nodup := (List.nodup_append.1 hnd).1
      have hndr : r.addrs.Nodup := (List.nodup_cons.1 (List.nodup_append.1 hnd).2.1).2
      have har : a ∉ r.addrs := (List.nodup_cons.1 (List.nodup_append.1 hnd).2.1).1
      have hdis : ∀ q, q ∈ l.addrs → q ∉ a :: r.addrs := fun q hq hq2 =>
        (List.nodup_append.1 hnd).2.2 hq hq2
      have hal : a ∉ l.addrs := fun hq => hdis a hq (List.mem_cons_self _ _)
      simp only [Tree.count] at hf
      obtain ⟨m1, e1, hl1, ho1⟩ := ihl (some a) fuel m st hll hndl (by omega)
      have hm1 : m1 a = some ⟨k, v, par, l.ptr, r.ptr, h⟩ := by rw [ho1 a hal]; exact hm
      have hlr2 : Linked (m1.write a ⟨k, (f (l.visit f st).2 v).2, par, l.ptr, r.ptr, h⟩)
          (some a) r := by
        refine Linked.frame hlr (fun q hq => ?_)
        have hqa : q ≠ a := fun e => har (e ▸ hq)
        have hql : q ∉ l.addrs := fun hq2 => hdis q hq2 (List.mem_cons_of_mem _ hq)
        rw [Mem.write_other _ _ hqa, ho1 q hql]
      obtain ⟨m3, e3, hl3, ho3⟩ := ihr (some a) fuel _ (f (l.visit f st).2 v).1 hlr2 hndr
        (by omega)
      refine ⟨m3, ?_, ⟨?_, ?_, hl3⟩, ?_⟩
      · have hp : (Tree.node a l k v h r).ptr = some a := rfl
        rw [hp]
        simp only [inOrderAux, Mem.getLeftSon, Mem.getRightSon, hm, e1, hm1,
          Mem.write_same, e3, Tree.visit]
      · rw [ho3 a har, Mem.write_same, visit_ptr, visit_ptr]
      · refine Linked.frame hl1 (fun q hq => ?_)
        rw [visit_addrs] at hq
        have hqa : q ≠ a := fun e => hal (e ▸ hq)
        have hqr : q ∉ r.addrs := fun hq2 => hdis q hq (List.mem_cons_of_mem _ hq2)
        rw [ho3 q hqr, Mem.write_other _ _ hqa]
      · intro q hq
        simp only [Tree.addrs, List.mem_append, List.mem_cons, not_or] at hq
        rw [ho3 q hq.2.2, Mem.write_other _ _ hq.2.1, ho1 q hq.1]

theorem inOrder_spec {F : Type} (f : F → V → F × V) {s : AVL K V} {T : Tree K V} (st : F)
    (hr : Rep s T) :
    ∃ s1, inOrder s f st = some (s1, (T.visit f st).2) ∧ Rep s1 (T.visit f st).1 ∧
      s1.self = s.self ∧ s1.size = s.size ∧ s1.fresh = s.fresh := by
  obtain ⟨h1, h2, h3, h4⟩ := hr
  have hc : T.count < s.fresh + 1 := by
    have := length_le_of_nodup_lt h3 h4
    rw [Tree.length_addrs] at this
    omega
  obtain ⟨m1, e1, hl1, _⟩ := inOrderAux_spec f T none (s.fresh + 1) s.mem st h2 h3 hc
  refine ⟨{ s with mem := m1 }, ?_, ⟨?_, hl1, ?_, ?_⟩, rfl, rfl, rfl⟩
  · simp only [inOrder, h1, e1]
  · rw [visit_ptr]; exact h1
  · rw [visit_addrs]; exact h3
  · rw [visit_addrs]; exact h4

/-! ## The greatest key -/

theorem maxLoop_spec {m : Mem K V} :
    ∀ (t : Tree K V) (par : Option Nat) (a fuel : Nat), Linked m par t → t.ptr = some a →
      t.count ≤ fuel → maxLoop fuel m a = t.rightmost := by
  intro t
  induction t with
  | nil => intro par a fuel _ hp _; simp [Tree.ptr] at hp
  | node b l k v h r _ ihr =>
    intro par a fuel hl hp hf
    simp only [Tree.ptr, Option.some.injEq] at hp
    subst hp
    obtain ⟨hm, _, hlr⟩ := hl
    match fuel, hf with
    | 0, hf => simp [Tree.count] at hf
    | fuel + 1, hf =>
      simp only [Tree.count] at hf
      cases r with
      | nil => simp only [maxLoop, Mem.getRightSon, hm, Tree.ptr, Tree.rightmost]
      | node c rl kc vc hc rr =>
        have e := ihr (some b) c fuel hlr rfl (by simp only [Tree.count] at hf ⊢; omega)
        simp only [maxLoop, Mem.getRightSon, hm, Tree.ptr, Tree.rightmost, e]

theorem rightmost_entries :
    ∀ (t : Tree K V), t ≠ Tree.nil →
      ∃ b k v A, t.rightmost = some b ∧ t.entries = A ++ [(b, k, v)] := by
  intro t
  induction t with
  | nil => intro h; exact absurd rfl h
  | node a l k v h r _ ihr =>
    intro _
    cases r with
    | nil => exact ⟨a, k, v, l.entries, rfl, rfl⟩
    | node c rl kc vc hc rr =>
      obtain ⟨b, kb, vb, A, e1, e2⟩ := ihr (by simp)
      refine ⟨b, kb, vb, l.entries ++ (a, k, v) :: A, ?_, ?_⟩
      · simp only [Tree.rightmost]; exact e1
      · have hent : (Tree.node a l k v h (Tree.node c rl kc vc hc rr)).entries =
            l.entries ++ (a, k, v) :: (Tree.node c rl kc vc hc rr).entries := rfl
        rw [hent, e2]
        simp

theorem max_spec {s : AVL K V} {T : Tree K V} (hr : Rep s T) :
    max s = some { avl := s.self, current := T.rightmost } := by
  obtain ⟨h1, h2, h3, h4⟩ := hr
  cases T with
  | nil =>
    simp only [Tree.ptr] at h1
    simp only [max, h1, Tree.rightmost]
  | node a l k v h r =>
    simp only [Tree.ptr] at h1
    have hc : (Tree.node a l k v h r).count ≤ s.fresh + 1 := by
      have := length_le_of_nodup_lt h3 h4
      rw [Tree.length_addrs] at this
      omega
    have e := maxLoop_spec (Tree.node a l k v h r) none a (s.fresh + 1) h2 rfl hc
    cases hrm : (Tree.node a l k v h r).rightmost with
    | none =>
      obtain ⟨b, kb, vb, A, e1, _⟩ := rightmost_entries (Tree.node a l k v h r) (by simp)
      rw [hrm] at e1
      exact absurd e1 (by simp)
    | some b =>
      rw [hrm] at e
      simp only [max, h1, e]

theorem rightmost_greatest [LinearOrder K] {T : Tree K V} (hb : T.BST) (hT : T ≠ Tree.nil) :
    ∃ b k v, T.rightmost = some b ∧ (b, k, v) ∈ T.entries ∧ ∀ x ∈ T.keys, x ≤ k := by
  obtain ⟨b, k, v, A, e1, e2⟩ := rightmost_entries T hT
  refine ⟨b, k, v, e1, by rw [e2]; simp, ?_⟩
  have hs := (BST_iff_sorted T).1 hb
  rw [Tree.keys_eq_map, e2] at hs
  rw [Tree.keys_eq_map, e2]
  simp only [List.map_append, List.map_cons, List.map_nil, List.pairwise_append,
    List.mem_singleton] at hs
  intro x hx
  simp only [List.map_append, List.map_cons, List.map_nil, List.mem_append,
    List.mem_singleton] at hx
  rcases hx with hx | hx
  · exact le_of_lt (hs.2.2 x hx k rfl)
  · exact le_of_eq hx

/-! ## Links of a represented tree; size against height -/

theorem Linked.root_parent {m : Mem K V} {par : Option Nat} {t : Tree K V} {c : Nat}
    (h : Linked m par t) (hp : t.ptr = some c) : ∃ nc, m c = some nc ∧ nc.parent = par := by
  cases t with
  | nil => simp [Tree.ptr] at hp
  | node a l k v hh r =>
    simp only [Tree.ptr, Option.some.injEq] at hp
    subst hp
    exact ⟨_, h.1, rfl⟩

theorem Linked.links {m : Mem K V} :
    ∀ (t : Tree K V) (par : Option Nat), Linked m par t → t.addrs.Nodup →
      (∀ x, par = some x → x ∉ t.addrs) →
      ∀ p ∈ t.addrs, ∃ n, m p = some n ∧
        n.parent ≠ some p ∧ n.leftSon ≠ some p ∧ n.rightSon ≠ some p ∧
        (∀ c, n.leftSon = some c → ∃ nc, m c = some nc ∧ nc.parent = some p) ∧
        (∀ c, n.rightSon = some c → ∃ nc, m c = some nc ∧ nc.parent = some p) := by
  intro t
  induction t with
  | nil => intro par _ _ _ p hp; simp [Tree.addrs] at hp
  | node a l k v h r ihl ihr =>
    intro par hl hnd hpar p hp
    obtain ⟨hm, hll, hlr⟩ := hl
    simp only [Tree.addrs] at hnd hp hpar
    have hndl : l.addrs.Nodup := (List.nodup_append.1 hnd).1
    have hndr : r.addrs.Nodup := (List.nodup_cons.1 (List.nodup_append.1 hnd).2.1).2
    have har : a ∉ r.addrs := (List.nodup_cons.1 (List.nodup_append.1 hnd).2.1).1
    have hal : a ∉ l.addrs := fun hq =>
      (List.nodup_append.1 hnd).2.2 hq (List.mem_cons_self _ _)
    rcases List.mem_append.1 hp with hp | hp
    · exact ihl (some a) hll hndl (fun x e => by cases e; exact hal) p hp
    · rcases List.mem_cons.1 hp with hp | hp
      · subst hp
        refine ⟨_, hm, ?_, Tree.ptr_ne_of_not_mem hal, Tree.ptr_ne_of_not_mem har, ?_, ?_⟩
        · intro e
          exact hpar p e (by simp)
        · intro c hc; exact hll.root_parent hc
        · intro c hc; exact hlr.root_parent hc
      · exact ihr (some a) hlr hndr (fun x e => by cases e; exact har) p hp

theorem Rep.tree_links {s : AVL K V} {T : Tree K V} (hr : Rep s T) :
    (∀ p ∈ T.addrs, ∃ n, s.mem p = some n ∧
        n.parent ≠ some p ∧ n.leftSon ≠ some p ∧ n.rightSon ≠ some p ∧
        (∀ c, n.leftSon = some c → ∃ nc, s.mem c = some nc ∧ nc.parent = some p) ∧
        (∀ c, n.rightSon = some c → ∃ nc, s.mem c = some nc ∧ nc.parent = some p)) ∧
    (∀ r, s.root = some r → ∃ n, s.mem r = some n ∧ n.parent = none) :=
  ⟨Linked.links T none hr.2.1 hr.2.2.1 (fun _ e => by cases e),
   fun _ e => hr.2.1.root_parent (hr.1 ▸ e)⟩

theorem fib_le_count :
    ∀ (t : Tree K V), t.Balanced → Nat.fib ((t.height + 1).toNat + 2) ≤ t.count + 1 := by
  intro t
  induction t with
  | nil => intro _; simp [Tree.height, Tree.count]
  | node a l k v h r ihl ihr =>
    intro hb
    obtain ⟨h1, h2, hbl, hbr⟩ := hb
    have il := ihl hbl
    have ir := ihr hbr
    have gl := Tree.height_ge l
    have gr := Tree.height_ge r
    simp only [Tree.height, Tree.count]
    by_cases hc : r.height ≤ l.height
    · have e1 : (1 + Max.max l.height r.height + 1).toNat = (l.height + 1).toNat + 1 := by
        omega
      rw [e1, Nat.fib_add_two]
      have e2 : (l.height + 1).toNat + 1 + 1 = (l.height + 1).toNat + 2 := rfl
      rw [e2]
      have hm : Nat.fib ((l.height + 1).toNat + 1) ≤ Nat.fib ((r.height + 1).toNat + 2) :=
        Nat.fib_mono (by omega)
      omega
    · have e1 : (1 + Max.max l.height r.height + 1).toNat = (r.height + 1).toNat + 1 := by
        omega
      rw [e1, Nat.fib_add_two]
      have e2 : (r.height + 1).toNat + 1 + 1 = (r.height + 1).toNat + 2 := rfl
      rw [e2]
      have hm : Nat.fib ((r.height + 1).toNat + 1) ≤ Nat.fib ((l.height + 1).toNat + 2) :=
        Nat.fib_mono (by omega)
      omega

/-! ## Copying a tree -/

theorem copyT_next : ∀ (t : Tree K V) (p : Nat), (copyT p t).2 = p + t.count := by
  intro t
  induction t with
  | nil => intro p; rfl
  | node a l k v h r ihl ihr =>
    intro p
    simp only [copyT, ihl, ihr, Tree.count]
    omega

theorem copyT_ptr (t : Tree K V) (p : Nat) (h : t ≠ Tree.nil) : (copyT p t).1.ptr = some p := by
  cases t with
  | nil => exact absurd rfl h
  | node a l k v hh r => rfl

theorem copyT_ptr_nil (t : Tree K V) (p : Nat) (h : t.ptr = none) : (copyT p t).1.ptr = none := by
  cases t with
  | nil => rfl
  | node a l k v hh r => simp [Tree.ptr] at h

theorem copyT_addrs : ∀ (t : Tree K V) (p : Nat),
    (∀ q ∈ (copyT p t).1.addrs, p ≤ q ∧ q < p + t.count) ∧ (copyT p t).1.addrs.Nodup := by
  intro t
  induction t with
  | nil => intro p; simp [copyT, Tree.addrs]
  | node a l k v h r ihl ihr =>
    intro p
    have hl := ihl (p + 1)
    have hr := ihr (copyT (p + 1) l).2
    rw [copyT_next] at hr
    simp only [copyT, Tree.addrs, Tree.count]
    rw [copyT_next]
    constructor
    · intro q hq
      rcases List.mem_append.1 hq with hq | hq
      · have := hl.1 q hq; omega
      · rcases List.mem_cons.1 hq with hq | hq
        · omega
        · have := hr.1 q hq; omega
    · refine List.nodup_append.2 ⟨hl.2, List.nodup_cons.2 ⟨?_, hr.2⟩, ?_⟩
      · intro hq; have := hr.1 p hq; omega
      · intro q hq1 hq2
        have h1 := hl.1 q hq1
        rcases List.mem_cons.1 hq2 with hq | hq
        · omega
        · have := hr.1 q hq; omega

theorem copySon_spec {copyNodes : AVL K V → Nat → Option Nat → Option (AVL K V × Nat)}
    {setSon : Mem K V → Nat → Option Nat → Option (Mem K V)}
    {upd : Node K V → Option Nat → Node K V} {t : Tree K V} {s : AVL K V} {p : Nat}
    {n0 : Node K V}
    (hrec : ∀ a, t.ptr = some a → ∃ s1, copyNodes s a (some p) = some (s1, s.fresh) ∧
      Linked s1.mem (some p) (copyT s.fresh t).1 ∧ s1.fresh = (copyT s.fresh t).2 ∧
      s1.self = s.self ∧ s1.root = s.root ∧ s1.size = s.size ∧
      ∀ q, q < s.fresh → s1.mem q = s.mem q)
    (hset : ∀ (m : Mem K V) (n : Node K V) (c : Option Nat), m p = some n →
      setSon m p c = some (m.write p (upd n c)))
    (hupd : upd n0 none = n0) (hp : p < s.fresh) (hm : s.mem p = some n0) :
    ∃ s3, Node.copySon copyNodes setSon s t.ptr p = some s3 ∧
      s3.mem p = some (upd n0 (copyT s.fresh t).1.ptr) ∧
      Linked s3.mem (some p) (copyT s.fresh t).1 ∧ s3.fresh = (copyT s.fresh t).2 ∧
      s3.self = s.self ∧ s3.root = s.root ∧ s3.size = s.size ∧
      ∀ q, q < s.fresh → q ≠ p → s3.mem q = s.mem q := by
  cases hpt : t.ptr with
  | none =>
    have ht : t = Tree.nil := by
      cases t with
      | nil => rfl
      | node a l k v h r => simp [Tree.ptr] at hpt
    subst ht
    refine ⟨s, rfl, ?_, trivial, rfl, rfl, rfl, rfl, fun _ _ _ => rfl⟩
    simp only [copyT, Tree.ptr, hupd, hm]
  | some a =>
    obtain ⟨s1, e1, hl1, hf1, hself, hroot, hsize, hold⟩ := hrec a hpt
    have ht : t ≠ Tree.nil := by
      intro e; subst e; simp [Tree.ptr] at hpt
    have hm1 : s1.mem p = some n0 := by rw [hold p hp]; exact hm
    refine ⟨{ s1 with mem := s1.mem.write p (upd n0 (some s.fresh)) }, ?_, ?_, ?_, hf1, hself,
      hroot, hsize, ?_⟩
    · simp only [Node.copySon, e1, hset _ _ _ hm1]
    · rw [copyT_ptr t _ ht]; exact Mem.write_same _ _ _
    · refine Linked.frame hl1 (fun q hq => ?_)
      have := (copyT_addrs t s.fresh).1 q hq
      exact Mem.write_other _ _ (by omega)
    · intro q hq hqp
      show (s1.mem.write p (upd n0 (some s.fresh))) q = s.mem q
      rw [Mem.write_other _ _ hqp, hold q hq]

theorem copyNodes_spec :
    ∀ (t : Tree K V) (par0 father : Option Nat) (a fuel : Nat) (s : AVL K V),
      Linked s.mem par0 t → t.ptr = some a → (∀ q ∈ t.addrs, q < s.fresh) → t.count ≤ fuel →
      ∃ s1, Node.copyNodes fuel s a father = some (s1, s.fresh) ∧
        Linked s1.mem father (copyT s.fresh t).1 ∧ s1.fresh = (copyT s.fresh t).2 ∧
        s1.self = s.self ∧ s1.root = s.root ∧ s1.size = s.size ∧
        ∀ q, q < s.fresh → s1.mem q = s.mem q := by
  intro t
  induction t with
  | nil => intro _ _ a _ _ _ hp; simp [Tree.ptr] at hp
  | node b l k v h r ihl ihr =>
    intro par0 father a fuel s hl hp hlt hf
    simp only [Tree.ptr, Option.some.injEq] at hp
    subst hp
    obtain ⟨hm, hll, hlr⟩ := hl
    match fuel, hf with
    | 0, hf => simp [Tree.count] at hf
    | fuel + 1, hf =>
      simp only [Tree.count] at hf
      have hbp : b < s.fresh := hlt b (by simp [Tree.addrs])
      have hltl : ∀ q ∈ l.addrs, q < s.fresh := fun q hq => hlt q (by simp [Tree.addrs, hq])
      have hltr : ∀ q ∈ r.addrs, q < s.fresh := fun q hq => hlt q (by simp [Tree.addrs, hq])
      -- the state after `new Node(key, element, father, NULL, NULL)`
      obtain ⟨s1, hs1, hs1m, hs1f, hs1a, hs1b, hs1c⟩ :
          ∃ s1 : AVL K V, Node.new s k v father none none = some (s1, s.fresh) ∧
            s1.mem = s.mem.write s.fresh ⟨k, v, father, none, none, 0⟩ ∧
            s1.fresh = s.fresh + 1 ∧ s1.self = s.self ∧ s1.root = s.root ∧ s1.size = s.size :=
        ⟨_, Node.new_leaf s k v father, rfl, rfl, rfl, rfl, rfl⟩
      have hs1old : ∀ q, q < s.fresh → s1.mem q = s.mem q := fun q hq => by
        rw [hs1m]; exact Mem.write_other _ _ (by omega)
      have hs1p : s1.mem s.fresh = some ⟨k, v, father, none, none, 0⟩ := by
        rw [hs1m]; exact Mem.write_same _ _ _
      -- the left son
      obtain ⟨s3, e3, h3p, h3l, h3f, h3a, h3b, h3c, h3old⟩ :=
        @copySon_spec K V (Node.copyNodes fuel) Mem.setLeftSon
          (fun n c => { n with leftSon := c }) l s1 s.fresh ⟨k, v, father, none, none, 0⟩
          (fun a2 ha2 => by
            have := ihl (some b) (some s.fresh) a2 fuel s1
              (Linked.frame hll (fun q hq => hs1old q (hltl q hq))) ha2
              (fun q hq => by have := hltl q hq; omega) (by omega)
            rw [hs1f] at this ⊢
            exact this)
          (fun m n c hmn => by simp only [Mem.setLeftSon, hmn])
          rfl (by omega) hs1p
      rw [hs1f] at h3p h3l h3f h3old
      have hcl := copyT_addrs l (s.fresh + 1)
      have hnl := copyT_next l (s.fresh + 1)
      have h3old2 : ∀ q, q < s.fresh → s3.mem q = s.mem q := fun q hq => by
        rw [h3old q (by omega) (by omega), hs1old q hq]
      -- the right son
      obtain ⟨s5, e5, h5p, h5l, h5f, h5a, h5b, h5c, h5old⟩ :=
        @copySon_spec K V (Node.copyNodes fuel) Mem.setRightSon
          (fun n c => { n with rightSon := c }) r s3 s.fresh
          ⟨k, v, father, (copyT (s.fresh + 1) l).1.ptr, none, 0⟩
          (fun a2 ha2 => by
            exact ihr (some b) (some s.fresh) a2 fuel s3
              (Linked.frame hlr (fun q hq => h3old2 q (hltr q hq))) ha2
              (fun q hq => by have := hltr q hq; omega) (by omega))
          (fun m n c hmn => by simp only [Mem.setRightSon, hmn])
          rfl (by omega) h3p
      rw [h3f] at h5p h5l h5f
      have hcr := copyT_addrs r (copyT (s.fresh + 1) l).2
      have hnr := copyT_next r (copyT (s.fresh + 1) l).2
      have h5l2 : Linked s5.mem (some s.fresh) (copyT (s.fresh + 1) l).1 :=
        Linked.frame h3l (fun q hq => by
          have := hcl.1 q hq
          exact h5old q (by omega) (by omega))
      have hpl : s.fresh ∉ (copyT (s.fresh + 1) l).1.addrs := fun hq => by
        have := hcl.1 _ hq; omega
      have hpr : s.fresh ∉ (copyT (copyT (s.fresh + 1) l).2 r).1.addrs := fun hq => by
        have := hcr.1 _ hq; omega
      have e7 := updateHeight_spec h5p rfl rfl h5l2 h5l hpl hpr
      obtain ⟨m7, hm7⟩ : ∃ m7 : Mem K V, m7 = s5.mem.write s.fresh
          ⟨k, v, father, (copyT (s.fresh + 1) l).1.ptr,
            (copyT (copyT (s.fresh + 1) l).2 r).1.ptr,
            Tree.updH (copyT (s.fresh + 1) l).1 (copyT (copyT (s.fresh + 1) l).2 r).1⟩ :=
        ⟨_, rfl⟩
      rw [← hm7] at e7
      refine ⟨⟨s5.self, s5.root, s5.size, m7, s5.fresh⟩, ?_, ⟨?_, ?_, ?_⟩, ?_, ?_, ?_, ?_, ?_⟩
      · have hga : s1.mem.getLeftSon b = some l.ptr := by
          simp only [Mem.getLeftSon, hs1old b hbp, hm]
        have hgb : s3.mem.getRightSon b = some r.ptr := by
          simp only [Mem.getRightSon, h3old2 b hbp, hm]
        simp only [Node.copyNodes, hm, hs1, hga, e3, hgb, e5, e7]
      · show m7 s.fresh = _
        rw [hm7]; exact Mem.write_same _ _ _
      · refine Linked.frame h5l2 (fun q hq => ?_)
        show m7 q = _
        rw [hm7]; exact Mem.write_other _ _ (fun e => hpl (e ▸ hq))
      · refine Linked.frame h5l (fun q hq => ?_)
        show m7 q = _
        rw [hm7]; exact Mem.write_other _ _ (fun e => hpr (e ▸ hq))
      · exact h5f
      · exact h5a.trans (h3a.trans hs1a)
      · exact h5b.trans (h3b.trans hs1b)
      · exact h5c.trans (h3c.trans hs1c)
      · intro q hq
        show m7 q = s.mem q
        rw [hm7, Mem.write_other _ _ (by omega), h5old q (by omega) (by omega), h3old2 q hq]

theorem copyT_height : ∀ (t : Tree K V) (p : Nat), (copyT p t).1.height = t.height := by
  intro t
  induction t with
  | nil => intro p; rfl
  | node a l k v h r ihl ihr => intro p; simp only [copyT, Tree.height, ihl, ihr]

theorem copyT_ok : ∀ (t : Tree K V) (p : Nat), (copyT p t).1.HeightsOK := by
  intro t
  induction t with
  | nil => intro p; trivial
  | node a l k v h r ihl ihr =>
    intro p
    exact ⟨Tree.updH_eq (ihl _) (ihr _), ihl _, ihr _⟩

theorem copyT_shape : ∀ (t : Tree K V) (p : Nat), t.HeightsOK →
    (copyT p t).1.shape = t.shape := by
  intro t
  induction t with
  | nil => intro p _; rfl
  | node a l k v h r ihl ihr =>
    intro p hok
    obtain ⟨hh, hl, hr⟩ := hok
    have e : Tree.updH (copyT (p + 1) l).1 (copyT (copyT (p + 1) l).2 r).1 = h := by
      rw [Tree.updH_eq (copyT_ok _ _) (copyT_ok _ _), copyT_height, copyT_height, hh]
    simp only [copyT, Tree.shape, ihl _ hl, ihr _ hr, e]

theorem shape_count : ∀ (t t1 : Tree K V), t1.shape = t.shape → t1.count = t.count := by
  intro t
  induction t with
  | nil =>
    intro t1 h
    cases t1 with
    | nil => rfl
    | node _ _ _ _ _ _ => simp [Tree.shape] at h
  | node a l k v hh r ihl ihr =>
    intro t1 h
    cases t1 with
    | nil => simp [Tree.shape] at h
    | node a1 l1 k1 v1 h1 r1 =>
      simp only [Tree.shape, Tree.node.injEq] at h
      simp only [Tree.count, ihl l1 h.2.1, ihr r1 h.2.2.2.2.2]

theorem shape_entries : ∀ (t t1 : Tree K V), t1.shape = t.shape →
    t1.entries.map (fun e => e.2) = t.entries.map (fun e => e.2) := by
  intro t
  induction t with
  | nil =>
    intro t1 h
    cases t1 with
    | nil => rfl
    | node _ _ _ _ _ _ => simp [Tree.shape] at h
  | node a l k v hh r ihl ihr =>
    intro t1 h
    cases t1 with
    | nil => simp [Tree.shape] at h
    | node a1 l1 k1 v1 h1 r1 =>
      simp only [Tree.shape, Tree.node.injEq] at h
      obtain ⟨_, e1, e2, e3, _, e5⟩ := h
      simp only [Tree.entries, List.map_append, List.map_cons, ihl l1 e1, ihr r1 e5, e2, e3]

theorem copy_spec {avl : AVL K V} {T : Tree K V} (self : Nat) (hr : Rep avl T) :
    ∃ s1, copy self avl = some s1 ∧ Rep s1 (copyT avl.fresh T).1 ∧ s1.self = self ∧
      s1.size = avl.size ∧ s1.fresh = avl.fresh + T.count ∧
      ∀ q, q < avl.fresh → s1.mem q = avl.mem q := by
  obtain ⟨h1, h2, h3, h4⟩ := hr
  cases T with
  | nil =>
    simp only [Tree.ptr] at h1
    refine ⟨⟨self, none, avl.size, avl.mem, avl.fresh⟩, ?_, ⟨rfl, trivial, ?_, ?_⟩, rfl, rfl, rfl,
      fun _ _ => rfl⟩
    · simp only [copy, h1]
    · simp [copyT, Tree.addrs]
    · simp [copyT, Tree.addrs]
  | node a l k v h r =>
    simp only [Tree.ptr] at h1
    have hc : (Tree.node a l k v h r).count ≤ avl.fresh + 1 := by
      have := length_le_of_nodup_lt h3 h4
      rw [Tree.length_addrs] at this
      omega
    obtain ⟨s1, e1, hl1, hf1, ha1, _, hc1, hold⟩ :=
      copyNodes_spec (Tree.node a l k v h r) none none a (avl.fresh + 1)
        ⟨self, none, avl.size, avl.mem, avl.fresh⟩ h2 rfl h4 hc
    have haddr := copyT_addrs (Tree.node a l k v h r) avl.fresh
    have hnext := copyT_next (Tree.node a l k v h r) avl.fresh
    refine ⟨⟨s1.self, some avl.fresh, s1.size, s1.mem, s1.fresh⟩, ?_, ⟨?_, hl1, haddr.2, ?_⟩,
      ha1, hc1, ?_, hold⟩
    · simp only [copy, h1, e1]
    · exact (copyT_ptr _ _ (by simp)).symm
    · intro q hq
      have := haddr.1 q hq
      show q < s1.fresh
      rw [hf1, hnext]
      exact this.2
    · show s1.fresh = _
      rw [hf1, hnext]

theorem destructorAux_spec :
    ∀ (t : Tree K V) (par : Option Nat) (fuel : Nat) (m : Mem K V),
      Linked m par t → t.addrs.Nodup → t.count < fuel →
      ∃ m1, destructorAux fuel m t.ptr = some m1 ∧ (∀ q, q ∈ t.addrs → m1 q = none) ∧
        ∀ q, q ∉ t.addrs → m1 q = m q := by
  intro t
  induction t with
  | nil =>
    intro par fuel m _ _ hf
    match fuel, hf with
    | fuel + 1, _ => exact ⟨m, rfl, fun q hq => by simp [Tree.addrs] at hq, fun _ _ => rfl⟩
  | node a l k v h r ihl ihr =>
    intro par fuel m hl hnd hf
    match fuel, hf with
    | fuel + 1, hf =>
      obtain ⟨hm, hll, hlr⟩ := hl
      simp only [Tree.addrs] at hnd
      have hndl : l.addrs.Nodup := (List.nodup_append.1 hnd).1
      have hndr : r.addrs.Nodup := (List.nodup_cons.1 (List.nodup_append.1 hnd).2.1).2
      have har : a ∉ r.addrs := (List.nodup_cons.1 (List.nodup_append.1 hnd).2.1).1
      have hdis : ∀ q, q ∈ l.addrs → q ∉ a :: r.addrs := fun q hq hq2 =>
        (List.nodup_append.1 hnd).2.2 hq hq2
      have hal : a ∉ l.addrs := fun hq => hdis a hq (List.mem_cons_self _ _)
      simp only [Tree.count] at hf
      obtain ⟨m1, e1, hn1, ho1⟩ := ihl (some a) fuel m hll hndl (by omega)
      have hm1 : m1 a = some ⟨k, v, par, l.ptr, r.ptr, h⟩ := by rw [ho1 a hal]; exact hm
      have hlr1 : Linked m1 (some a) r := Linked.frame hlr (fun q hq =>
        ho1 q (fun hq2 => hdis q hq2 (List.mem_cons_of_mem _ hq)))
      obtain ⟨m2, e2, hn2, ho2⟩ := ihr (some a) fuel m1 hlr1 hndr (by omega)
      have hm2 : m2 a = some ⟨k, v, par, l.ptr, r.ptr, h⟩ := by rw [ho2 a har]; exact hm1
      refine ⟨m2.free a, ?_, ?_, ?_⟩
      · have hp : (Tree.node a l k v h r).ptr = some a := rfl
        rw [hp]
        simp only [destructorAux, Mem.getLeftSon, Mem.getRightSon, hm, e1, hm1, e2, hm2]
      · intro q hq
        simp only [Tree.addrs] at hq
        by_cases hqa : q = a
        · subst hqa; simp [Mem.free]
        · rw [Mem.free_other _ hqa]
          rcases List.mem_append.1 hq with hq | hq
          · have hqr : q ∉ r.addrs := fun hq2 => hdis q hq (List.mem_cons_of_mem _ hq2)
            rw [ho2 q hqr, hn1 q hq]
          · rcases List.mem_cons.1 hq with hq | hq
            · exact absurd hq hqa
            · exact hn2 q hq
      · intro q hq
        simp only [Tree.addrs, List.mem_append, List.mem_cons, not_or] at hq
        rw [Mem.free_other _ hq.2.1, ho2 q hq.2.2, ho1 q hq.1]

theorem assign_spec {s avl : AVL K V} {Told T : Tree K V} (hs : Rep s Told)
    (hw : avl.mem = s.mem) (hfr : avl.fresh = s.fresh) (hsrc : Rep avl T)
    (hsame : s.self = avl.self → s.root = avl.root ∧ s.size = avl.size) :
    ∃ s1 T1, assign s avl = some s1 ∧ Rep s1 T1 ∧ s1.self = s.self ∧ s1.size = avl.size ∧
      (T.HeightsOK → T1.shape = T.shape) ∧
      (s.self ≠ avl.self → T1 = (copyT s.fresh T).1 ∧ ∀ q ∈ T.addrs, s1.mem q = s.mem q ∨
        q ∈ Told.addrs) := by
  by_cases hself : s.self = avl.self
  · obtain ⟨e1, e2⟩ := hsame hself
    refine ⟨s, T, by simp only [assign, hself, if_true], ?_, rfl, e2, fun _ => rfl,
      fun h => absurd hself h⟩
    obtain ⟨h1, h2, h3, h4⟩ := hsrc
    exact ⟨e1.trans h1, hw ▸ h2, h3, hfr ▸ h4⟩
  · obtain ⟨g1, g2, g3, g4⟩ := hs
    obtain ⟨h1, h2, h3, h4⟩ := hsrc
    rw [hw] at h2
    rw [hfr] at h4
    have hcold : Told.count < s.fresh + 1 := by
      have := length_le_of_nodup_lt g3 g4
      rw [Tree.length_addrs] at this
      omega
    have haddr := copyT_addrs T s.fresh
    have hnext := copyT_next T s.fresh
    -- the copy of the source
    obtain ⟨s1, c, ecopy, hl1, hf1, ha1, hb1, hold, hc⟩ :
        ∃ s1 c, copyRoot s avl.root = some (s1, c) ∧
          Linked s1.mem none (copyT s.fresh T).1 ∧ s1.fresh = (copyT s.fresh T).2 ∧
          s1.self = s.self ∧ s1.root = s.root ∧ (∀ q, q < s.fresh → s1.mem q = s.mem q) ∧
          c = (copyT s.fresh T).1.ptr := by
      cases T with
      | nil =>
        simp only [Tree.ptr] at h1
        rw [h1]
        exact ⟨s, none, rfl, trivial, rfl, rfl, rfl, fun _ _ => rfl, rfl⟩
      | node a l k v h r =>
        simp only [Tree.ptr] at h1
        rw [h1]
        have hct : (Tree.node a l k v h r).count ≤ s.fresh + 1 := by
          have := length_le_of_nodup_lt h3 h4
          rw [Tree.length_addrs] at this
          omega
        obtain ⟨s1, e1, hl1, hf1, ha1, hb1, _, hold⟩ :=
          copyNodes_spec (Tree.node a l k v h r) none none a (s.fresh + 1) s h2 rfl h4 hct
        refine ⟨s1, some s.fresh, ?_, hl1, hf1, ha1, hb1, hold, rfl⟩
        simp only [copyRoot, e1]
    -- the old nodes of the assigned object are released
    have hlold : Linked s1.mem none Told := Linked.frame g2 (fun q hq => hold q (g4 q hq))
    rw [hnext] at hf1
    obtain ⟨m, edes, _, hom⟩ := destructorAux_spec Told none (s1.fresh + 1) s1.mem hlold g3
      (by omega)
    have hnot : ∀ q, q ∈ (copyT s.fresh T).1.addrs → q ∉ Told.addrs := fun q hq hq2 => by
      have := (haddr.1 q hq).1
      have := g4 q hq2
      omega
    refine ⟨⟨s1.self, c, avl.size, m, s1.fresh⟩, (copyT s.fresh T).1, ?_, ⟨hc, ?_, haddr.2, ?_⟩,
      ha1, rfl, fun hok => copyT_shape T _ hok, fun _ => ⟨rfl, fun q hq => ?_⟩⟩
    · rw [← g1, ← hb1] at edes
      simp only [assign, hself, if_false, ecopy, edes]
    · exact Linked.frame hl1 (fun q hq => hom q (hnot q hq))
    · intro q hq
      have := (haddr.1 q hq).2
      show q < s1.fresh
      omega
    · by_cases hq2 : q ∈ Told.addrs
      · exact Or.inr hq2
      · left
        show m q = s.mem q
        rw [hom q hq2, hold q (h4 q hq)]

/-! ## The scenario trees -/

theorem inv_exampleA : Inv exampleA exampleTreeA := by
  refine ⟨⟨rfl, ⟨rfl, ⟨rfl, ⟨rfl, trivial, trivial⟩, ⟨rfl, trivial, trivial⟩⟩,
    ⟨rfl, ⟨rfl, trivial, trivial⟩, ⟨rfl, trivial, trivial⟩⟩⟩, by decide, by decide⟩,
    ?_, ?_, ?_, rfl⟩
  · simp [exampleTreeA, Tree.BST, Tree.keys]
  · simp [exampleTreeA, Tree.Balanced, Tree.height]
  · simp [exampleTreeA, Tree.HeightsOK, Tree.height]

theorem inv_exampleB : Inv exampleB exampleTreeB := by
  refine ⟨⟨rfl, ⟨rfl, ⟨rfl, ⟨rfl, trivial, trivial⟩, ⟨rfl, trivial, trivial⟩⟩,
    ⟨rfl, ⟨rfl, trivial, trivial⟩, ⟨rfl, trivial, trivial⟩⟩⟩, by decide, by decide⟩,
    ?_, ?_, ?_, rfl⟩
  · simp [exampleTreeB, Tree.BST, Tree.keys]
  · simp [exampleTreeB, Tree.Balanced, Tree.height]
  · simp [exampleTreeB, Tree.HeightsOK, Tree.height]

theorem rightmost_eq_none {T : Tree K V} : T.rightmost = none ↔ T = Tree.nil := by
  constructor
  · intro h
    by_contra hT
    obtain ⟨b, _, _, _, e, _⟩ := rightmost_entries T hT
    rw [h] at e
    exact absurd e (by simp)
  · intro h; subst h; rfl

theorem levels_spec [LinearOrder K] {s : AVL K V} {T : Tree K V} (hi : Inv s T) :
    levels s = some (T.height + 1).toNat := by
  obtain ⟨⟨h1, h2, _, _⟩, _, _, hok, _⟩ := hi
  cases T with
  | nil =>
    simp only [Tree.ptr] at h1
    simp [levels, h1, Tree.height]
  | node a l k v h r =>
    simp only [Tree.ptr] at h1
    have e : h = (Tree.node a l k v h r).height := hok.1
    simp only [levels, h1, Mem.getHeight, h2.1]
    rw [← e]

/-- C11: after any sequence of `insert` and `remove` calls on an empty tree, the
state holds a tree whose nodes, listed in order, have strictly ascending keys and
are as many as `getSize()`; `inOrder` with any functor returns, and the functor's
final state is what results from applying it once to the element of each node of
that list, in that order. -/
theorem inOrder_ascending [LinearOrder K] (ops : List (Op K V)) (self : Nat)
    (mem : Mem K V) (fresh : Nat) :
    ∃ s i d T, run ops (AVL.new self mem fresh) = some (s, i, d) ∧ Rep s T ∧
      (T.entries.map (fun e => e.2.1)).Pairwise (fun x y => x < y) ∧
      (T.entries.length : Int) = s.getSize ∧
      ∀ (F : Type) (functor : F → V → F × V) (st : F), ∃ s1,
        inOrder s functor st = some (s1,
          (T.entries.map (fun e => e.2.2)).foldl (fun x v => (functor x v).1) st) ∧
        Rep s1 (T.visit functor st).1 := by
  obtain ⟨s, i, d, T, hrun, hinv, _, _⟩ := run_inv ops _ _ (Inv_new self mem fresh)
  refine ⟨s, i, d, T, hrun, hinv.1, ?_, ?_, ?_⟩
  · rw [← Tree.keys_eq_map]; exact (BST_iff_sorted T).1 hinv.2.1
  · rw [← Tree.count_eq_length]; exact hinv.2.2.2.2.symm
  · intro F functor st
    obtain ⟨s1, e1, hr1, _⟩ := inOrder_spec functor st hinv.1
    rw [visit_state] at e1
    exact ⟨s1, e1, hr1⟩

/-- C12: on a state satisfying the invariants, `remove(key)` of a present key
returns `true`, and every node holding another key (in a two-child removal, the
in-order successor among them) is still at its address afterwards with the same key
and element: `find` of its key returns the same iterator before and after, and that
iterator dereferences to the same element in both stores. -/
theorem remove_keeps_nodes [LinearOrder K] {s : AVL K V} {T : Tree K V} (key : K)
    (hi : Inv s T) (hk : key ∈ T.keys) :
    ∃ s1, remove s key = some (s1, true) ∧
      ∀ a k v, (a, k, v) ∈ T.entries → k ≠ key →
        (∃ n, s1.mem a = some n ∧ n.key = k ∧ n.element = v) ∧
        find s k = some { avl := s.self, current := some a } ∧
        find s1 k = some { avl := s.self, current := some a } ∧
        Iterator.deref { avl := s.self, current := some a } s.mem = some (Except.ok v) ∧
        Iterator.deref { avl := s.self, current := some a } s1.mem = some (Except.ok v) := by
  obtain ⟨s1, T1, b, h, hinv1, hself, hcase⟩ := remove_full key hi
  rcases hcase with ⟨_, _, _, hnk⟩ | ⟨hb, _, A, a0, v0, B, eA, eB⟩
  · exact absurd hk hnk
  · subst hb
    refine ⟨s1, h, ?_⟩
    intro a k v hmem hne
    have hmem1 : (a, k, v) ∈ T1.entries := by
      rw [eA] at hmem
      rw [eB]
      rcases List.mem_append.1 hmem with hm | hm
      · exact List.mem_append_left _ hm
      · rcases List.mem_cons.1 hm with hm | hm
        · exact absurd (congrArg (fun e => e.2.1) hm) hne
        · exact List.mem_append_right _ hm
    obtain ⟨n, hn, hkey, hel⟩ := Linked.mem_of_entry T none hi.1.2.1 hmem
    obtain ⟨n1, hn1, hkey1, hel1⟩ := Linked.mem_of_entry T1 none hinv1.1.2.1 hmem1
    refine ⟨⟨n1, hn1, hkey1, hel1⟩, ?_, ?_, ?_, ?_⟩
    · rw [find_spec k hi.1, (get_of_entry T hi.2.1 hmem).1]
    · rw [find_spec k hinv1.1, (get_of_entry T1 hinv1.2.1 hmem1).1, hself]
    · simp only [Iterator.deref, hn, hel]
    · simp only [Iterator.deref, hn1, hel1]

/-- C12 witness: Scenario C, removing the root 5 (two sons) of the tree built from
5, 3, 8, 1, 4, 7, 9; the successor 7 stays at address 5 with its element. -/
theorem remove_keeps_nodes_witness :
    Inv exampleA exampleTreeA ∧ 5 ∈ exampleTreeA.keys ∧
    ∃ s1, remove exampleA 5 = some (s1, true) ∧
      find exampleA 7 = some { avl := exampleA.self, current := some 5 } ∧
      find s1 7 = some { avl := exampleA.self, current := some 5 } ∧
      Iterator.deref { avl := exampleA.self, current := some 5 } exampleA.mem
        = some (Except.ok 7) ∧
      Iterator.deref { avl := exampleA.self, current := some 5 } s1.mem
        = some (Except.ok 7) :=
  ⟨inv_exampleA, by decide,
    match remove_keeps_nodes 5 inv_exampleA (by decide) with
    | ⟨s1, h1, h2⟩ =>
      ⟨s1, h1, (h2 5 7 7 (by decide) (by decide)).2.1, (h2 5 7 7 (by decide) (by decide)).2.2.1,
        (h2 5 7 7 (by decide) (by decide)).2.2.2.1, (h2 5 7 7 (by decide) (by decide)).2.2.2.2⟩⟩

/-- C13: on a state holding a BST-ordered tree, `max()` is `end()` exactly when the
tree is empty; otherwise it is an iterator to a node of the tree whose key is
greater than or equal to every key of the tree. -/
theorem max_correct [LinearOrder K] {s : AVL K V} {T : Tree K V} (hr : Rep s T)
    (hb : T.BST) :
    (max s = some s.end ↔ T = Tree.nil) ∧
    (T ≠ Tree.nil → ∃ b n, max s = some { avl := s.self, current := some b } ∧
      s.mem b = some n ∧ n.key ∈ T.keys ∧ ∀ x ∈ T.keys, x ≤ n.key) := by
  have hmax := max_spec hr
  constructor
  · rw [hmax]
    constructor
    · intro h
      have h2 : T.rightmost = none := by
        injection h with h
        exact congrArg Iterator.current h
      exact rightmost_eq_none.1 h2
    · intro h
      rw [rightmost_eq_none.2 h]
      rfl
  · intro hT
    obtain ⟨b, k, v, e1, hmem, hge⟩ := rightmost_greatest hb hT
    obtain ⟨n, hn, hkey, _⟩ := Linked.mem_of_entry T none hr.2.1 hmem
    refine ⟨b, n, by rw [hmax, e1], hn, ?_, ?_⟩
    · rw [hkey]; exact (mem_keys_iff k).2 ⟨b, v, hmem⟩
    · rw [hkey]; exact hge

/-- C13 witness: `max()` on the tree holding 1, 2 and 3 is the node of key 3, and on
the empty tree it is `end()`. -/
theorem max_correct_witness :
    (Rep example213 exampleTree213 ∧ exampleTree213.BST ∧
      ∃ b n, max example213 = some { avl := example213.self, current := some b } ∧
        example213.mem b = some n ∧ n.key ∈ exampleTree213.keys ∧
        ∀ x ∈ exampleTree213.keys, x ≤ n.key) ∧
    (Rep emptyNat (Tree.nil : Tree Nat Nat) ∧ max emptyNat = some emptyNat.end) :=
  ⟨⟨inv_example213.1, inv_example213.2.1,
      (max_correct inv_example213.1 inv_example213.2.1).2 (by simp [exampleTree213])⟩,
   ⟨inv_emptyNat.1, (max_correct inv_emptyNat.1 inv_emptyNat.2.1).1.2 rfl⟩⟩

/-- C14: on a state holding a BST-ordered tree, dereferencing `find(key)` throws
`ELEMENT_NOT_FOUND` exactly when no node holds `key`; in general, dereferencing an
iterator throws `ELEMENT_NOT_FOUND` exactly when its `current` is null, yields the
element of the node it references otherwise, and dereferencing `end()` throws. -/
theorem deref_fails_iff [LinearOrder K] {s : AVL K V} {T : Tree K V} (key : K)
    (hr : Rep s T) (hb : T.BST) :
    (findDeref s key = some (Except.error ELEMENT_NOT_FOUND.mk) ↔ key ∉ T.keys) ∧
    (∀ (it : Iterator) (m : Mem K V),
      (it.deref m = some (Except.error ELEMENT_NOT_FOUND.mk) ↔ it.current = none) ∧
      (∀ p n, it.current = some p → m p = some n → it.deref m = some (Except.ok n.element))) ∧
    (∀ (s0 : AVL K V) (m : Mem K V),
      s0.end.deref m = some (Except.error ELEMENT_NOT_FOUND.mk)) := by
  refine ⟨?_, ?_, fun _ _ => rfl⟩
  · rw [findDeref_spec key hr]
    constructor
    · intro h hk
      obtain ⟨a, v, hmem⟩ := (mem_keys_iff key).1 hk
      rw [(get_of_entry T hb hmem).2] at h
      simp at h
    · intro hk
      rw [get_none_of_not_mem hk]
  · intro it m
    constructor
    · constructor
      · intro h
        cases hc : it.current with
        | none => rfl
        | some p =>
          simp only [Iterator.deref, hc] at h
          cases hm : m p with
          | none => simp [hm] at h
          | some n => simp [hm] at h
      · intro h
        simp only [Iterator.deref, h]
    · intro p n hc hm
      simp only [Iterator.deref, hc, hm]

/-- C14 witness: on the tree holding 1, 2 and 3, `*find(5)` throws and `*find(2)`
does not. -/
theorem deref_fails_iff_witness :
    Rep example213 exampleTree213 ∧ exampleTree213.BST ∧
    findDeref example213 5 = some (Except.error ELEMENT_NOT_FOUND.mk) ∧
    findDeref example213 2 ≠ some (Except.error ELEMENT_NOT_FOUND.mk) :=
  ⟨inv_example213.1, inv_example213.2.1,
    (deref_fails_iff 5 inv_example213.1 inv_example213.2.1).1.2 (by decide),
    fun h => (deref_fails_iff 2 inv_example213.1 inv_example213.2.1).1.1 h (by decide)⟩

/-- C15: for a source object holding a tree with correct cached heights, the copy
constructor, and `operator=` run on any object `s` of the same store, return an
object whose `size` is the source's and whose tree has the shape of the source
tree with the same key, element and cached height at every position; the copy is
made of freshly allocated nodes, every son's `parent` is the node it hangs from and
the root's `parent` is null. -/
theorem copy_same_shape {avl : AVL K V} {T : Tree K V} (self : Nat) (hr : Rep avl T)
    (hok : T.HeightsOK) :
    (∃ s1 T1, copy self avl = some s1 ∧ Rep s1 T1 ∧ T1.shape = T.shape ∧
      s1.getSize = avl.getSize ∧ (∀ q ∈ T1.addrs, avl.fresh ≤ q) ∧
      (∀ p ∈ T1.addrs, ∃ n, s1.mem p = some n ∧
        (∀ c, n.leftSon = some c → ∃ nc, s1.mem c = some nc ∧ nc.parent = some p) ∧
        (∀ c, n.rightSon = some c → ∃ nc, s1.mem c = some nc ∧ nc.parent = some p)) ∧
      (∀ r, s1.root = some r → ∃ n, s1.mem r = some n ∧ n.parent = none)) ∧
    (∀ (s : AVL K V) (Told : Tree K V), Rep s Told → s.mem = avl.mem → s.fresh = avl.fresh →
      (s.self = avl.self → s.root = avl.root ∧ s.size = avl.size) →
      ∃ s2 T2, assign s avl = some s2 ∧ Rep s2 T2 ∧ T2.shape = T.shape ∧
        s2.getSize = avl.getSize ∧
        (∀ p ∈ T2.addrs, ∃ n, s2.mem p = some n ∧
          (∀ c, n.leftSon = some c → ∃ nc, s2.mem c = some nc ∧ nc.parent = some p) ∧
          (∀ c, n.rightSon = some c → ∃ nc, s2.mem c = some nc ∧ nc.parent = some p)) ∧
        (∀ r, s2.root = some r → ∃ n, s2.mem r = some n ∧ n.parent = none)) := by
  constructor
  · obtain ⟨s1, e1, hr1, _, hsz, _, _⟩ := copy_spec self hr
    refine ⟨s1, _, e1, hr1, copyT_shape T _ hok, hsz, ?_, ?_, hr1.tree_links.2⟩
    · intro q hq
      exact ((copyT_addrs T avl.fresh).1 q hq).1
    · intro p hp
      obtain ⟨n, hn, _, _, _, hl, hrr⟩ := hr1.tree_links.1 p hp
      exact ⟨n, hn, hl, hrr⟩
  · intro s Told hs hw hfr hsame
    obtain ⟨s2, T2, e2, hr2, _, hsz, hshape, _⟩ := assign_spec hs hw.symm hfr.symm hr hsame
    refine ⟨s2, T2, e2, hr2, hshape hok, hsz, ?_, hr2.tree_links.2⟩
    intro p hp
    obtain ⟨n, hn, _, _, _, hl, hrr⟩ := hr2.tree_links.1 p hp
    exact ⟨n, hn, hl, hrr⟩

/-- C15 witness: copying the tree holding 1, 2 and 3 into a new object at address 1,
and assigning it to the object holding 1 and 2 moved into the same store. -/
theorem copy_same_shape_witness :
    Rep example213 exampleTree213 ∧ exampleTree213.HeightsOK ∧
    (∃ s1 T1, copy 1 example213 = some s1 ∧ Rep s1 T1 ∧ T1.shape = exampleTree213.shape ∧
      s1.getSize = example213.getSize) ∧
    (∃ s2 T2, assign { example213 with self := 1, root := none, size := 0 } example213
        = some s2 ∧ Rep s2 T2 ∧ T2.shape = exampleTree213.shape ∧
      s2.getSize = example213.getSize) :=
  have h := copy_same_shape 1 inv_example213.1 inv_example213.2.2.2.1
  ⟨inv_example213.1, inv_example213.2.2.2.1,
    match h.1 with
    | ⟨s1, T1, e1, e2, e3, e4, _⟩ => ⟨s1, T1, e1, e2, e3, e4⟩,
    match h.2 { example213 with self := 1, root := none, size := 0 } Tree.nil
        ⟨rfl, trivial, List.nodup_nil, fun _ hq => absurd hq (List.not_mem_nil _)⟩ rfl rfl
        (fun e => absurd e (by decide)) with
    | ⟨s2, T2, e1, e2, e3, e4, _⟩ => ⟨s2, T2, e1, e2, e3, e4⟩⟩

/-- C16: Scenario B.  Inserting 1, 2, ..., 7 in ascending order into an empty tree
gives the tree `exampleTreeB` (root 4 over 2 and 6), of height 2, with cached root
height 2: three levels, not a chain of height 6. -/
theorem ascending_inserts_height :
    Rep exampleB exampleTreeB ∧ exampleTreeB.height = 2 ∧
    exampleB.mem.getHeight 3 = some 2 ∧ exampleB.root = some 3 ∧ levels exampleB = some 3 ∧
    exampleB.getSize = 7 :=
  ⟨inv_exampleB.1, by decide, rfl, rfl, rfl, rfl⟩

/-- C17: Scenario A.  Inserting 5, 3, 8, 1, 4, 7, 9 into an empty tree gives a tree on
which `inOrder` with the collecting functor yields 1, 3, 4, 5, 7, 8, 9 and whose
height is 2, hence at most 3. -/
theorem scenario_a_inorder_height :
    Rep exampleA exampleTreeA ∧
    (inOrder exampleA collect []).map Prod.snd = some [1, 3, 4, 5, 7, 8, 9] ∧
    exampleTreeA.height = 2 ∧ exampleTreeA.height ≤ 3 ∧
    levels exampleA = some 3 :=
  ⟨inv_exampleA.1, rfl, by decide, by decide, rfl⟩

/-- C18: on a state holding a tree in which node `a` has the right subtree
`plug path (node b nil ..)`, so that `b` has no left son and lies at the end of
`path` below `a` (the in-order successor of `a` is such a node; `path = []` is the
adjacent case where `b` is the right son of `a`), `swapNodes(a, b)` returns a state
holding the tree in which `a` and `b` have exchanged positions and cached heights;
there no node is its own parent or son, every son's `parent` is the node it hangs
from, and `root` points to a node without parent. -/
theorem swapNodes_links {s : AVL K V} {ctx path : List (Frame K V)} {a b : Nat}
    {L S : Tree K V} {ka kb : K} {va vb : V} {ha hb : Int}
    (hr : Rep s (plug ctx (Tree.node a L ka va ha (plug path (Tree.node b Tree.nil kb vb hb S))))) :
    ∃ s1, swapNodes s a b = some s1 ∧
      Rep s1 (plug ctx (Tree.node b L kb vb ha (plug path (Tree.node a Tree.nil ka va hb S)))) ∧
      (∀ p ∈ (plug ctx (Tree.node b L kb vb ha
            (plug path (Tree.node a Tree.nil ka va hb S)))).addrs,
        ∃ n, s1.mem p = some n ∧
          n.parent ≠ some p ∧ n.leftSon ≠ some p ∧ n.rightSon ≠ some p ∧
          (∀ c, n.leftSon = some c → ∃ nc, s1.mem c = some nc ∧ nc.parent = some p) ∧
          (∀ c, n.rightSon = some c → ∃ nc, s1.mem c = some nc ∧ nc.parent = some p)) ∧
      (∀ r, s1.root = some r → ∃ n, s1.mem r = some n ∧ n.parent = none) := by
  have hz : ZRep s (path ++ Frame.inR a L ka va ha :: ctx) (Tree.node b Tree.nil kb vb hb S) := by
    rw [ZRep_plug, plug_append]
    exact hr
  obtain ⟨s1, e1, hz1, _⟩ := swapNodes_spec hz
  have hr1 : Rep s1 (plug ctx (Tree.node b L kb vb ha
      (plug path (Tree.node a Tree.nil ka va hb S)))) := by
    rw [ZRep_plug, plug_append] at hz1
    exact hz1
  exact ⟨s1, e1, hr1, hr1.tree_links.1, hr1.tree_links.2⟩

/-- C18 witness: the adjacent case (root 2 of the tree holding 1, 2, 3 with its
right son 3) and the deeper case (root 5 of Scenario A with its successor 7, the
left son of 8). -/
theorem swapNodes_links_witness :
    (Rep example213 exampleTree213 ∧
      ∃ s1, swapNodes example213 0 2 = some s1 ∧
        Rep s1 (Tree.node 2 (Tree.node 1 Tree.nil 1 10 0 Tree.nil) 3 30 1
          (Tree.node 0 Tree.nil 2 20 0 Tree.nil))) ∧
    (Rep exampleA exampleTreeA ∧
      ∃ s1, swapNodes exampleA 0 5 = some s1 ∧
        Rep s1 (Tree.node 5
          (Tree.node 1 (Tree.node 3 Tree.nil 1 1 0 Tree.nil) 3 3 1
            (Tree.node 4 Tree.nil 4 4 0 Tree.nil))
          7 7 2
          (Tree.node 2 (Tree.node 0 Tree.nil 5 5 0 Tree.nil) 8 8 1
            (Tree.node 6 Tree.nil 9 9 0 Tree.nil)))) :=
  ⟨⟨inv_example213.1,
      match @swapNodes_links Nat Nat example213 [] [] 0 2
          (Tree.node 1 Tree.nil 1 10 0 Tree.nil) Tree.nil 2 3 20 30 1 0 inv_example213.1 with
      | ⟨s1, e1, e2, _⟩ => ⟨s1, e1, e2⟩⟩,
   ⟨inv_exampleA.1,
      match @swapNodes_links Nat Nat exampleA []
          [Frame.inL 2 8 8 1 (Tree.node 6 Tree.nil 9 9 0 Tree.nil)] 0 5
          (Tree.node 1 (Tree.node 3 Tree.nil 1 1 0 Tree.nil) 3 3 1
            (Tree.node 4 Tree.nil 4 4 0 Tree.nil))
          Tree.nil 5 7 5 7 2 0 inv_exampleA.1 with
      | ⟨s1, e1, e2, _⟩ => ⟨s1, e1, e2⟩⟩⟩

/-- C19: on a state satisfying the invariants, `insert` and `remove` return a
result for every key, that is, no step of the `balance` calls they make is
undefined.  In the embedding the null-sensitive steps are undefined when their
guard fails: `rotateRight` and `rotateLeft` on a node without parent, the branch
for balance factor +2 without a left son or (when the left son's balance factor is
negative) without that son's right son, and symmetrically for -2. -/
theorem balance_null_safe [LinearOrder K] {s : AVL K V} {T : Tree K V} (hi : Inv s T) :
    (∀ key el, ∃ res, insert s key el = some res) ∧
    (∀ key, ∃ res, remove s key = some res) ∧
    (∀ (s0 : AVL K V) (node : Nat), s0.mem.getParent node = some none →
      rotateRight s0 node = none ∧ rotateLeft s0 node = none) ∧
    (∀ (s0 : AVL K V) (node : Nat), s0.mem.getLeftSon node = some none →
      rebalanceLeftHeavy s0 node = none) ∧
    (∀ (s0 : AVL K V) (node : Nat), s0.mem.getRightSon node = some none →
      rebalanceRightHeavy s0 node = none) ∧
    (∀ (s0 : AVL K V) (node l : Nat) (bl : Int), s0.mem.getLeftSon node = some (some l) →
      Node.calcBF s0.mem l = some bl → ¬ bl > -1 → s0.mem.getRightSon l = some none →
      rebalanceLeftHeavy s0 node = none) ∧
    (∀ (s0 : AVL K V) (node r : Nat) (br : Int), s0.mem.getRightSon node = some (some r) →
      Node.calcBF s0.mem r = some br → ¬ br < 1 → s0.mem.getLeftSon r = some none →
      rebalanceRightHeavy s0 node = none) := by
  refine ⟨?_, ?_, ?_, ?_, ?_, ?_, ?_⟩
  · intro key el
    obtain ⟨s1, _, it, b, h, _⟩ := insert_full key el hi
    exact ⟨_, h⟩
  · intro key
    obtain ⟨s1, _, b, h, _⟩ := remove_full key hi
    exact ⟨_, h⟩
  · intro s0 node h
    constructor
    · simp only [rotateRight, h]
    · simp only [rotateLeft, h]
  · intro s0 node h
    simp only [rebalanceLeftHeavy, h]
  · intro s0 node h
    simp only [rebalanceRightHeavy, h]
  · intro s0 node l bl h1 h2 h3 h4
    simp only [rebalanceLeftHeavy, h1, h2, h3, h4, if_false]
  · intro s0 node r br h1 h2 h3 h4
    simp only [rebalanceRightHeavy, h1, h2, h3, h4, if_false]

/-- C19 witness: on the tree holding 1 and 2, `insert(3, 30)` (which rotates) and
`remove(1)` return. -/
theorem balance_null_safe_witness :
    Inv example12 exampleTree12 ∧
    (∃ res, insert example12 3 30 = some res) ∧ (∃ res, remove example12 1 = some res) :=
  ⟨inv_example12, (balance_null_safe inv_example12).1 3 30,
    (balance_null_safe inv_example12).2.1 1⟩

/-- C20: after any sequence of `insert` and `remove` calls on an empty tree, with
`L` the number of levels (0 for the empty tree, the cached height of the root plus
one otherwise), `fib (L + 2) ≤ getSize() + 1`. -/
theorem size_fib_bound [LinearOrder K] (ops : List (Op K V)) (self : Nat)
    (mem : Mem K V) (fresh : Nat) :
    ∃ s i d L, run ops (AVL.new self mem fresh) = some (s, i, d) ∧ levels s = some L ∧
      (Nat.fib (L + 2) : Int) ≤ s.getSize + 1 := by
  obtain ⟨s, i, d, T, hrun, hinv, _, _⟩ := run_inv ops _ _ (Inv_new self mem fresh)
  refine ⟨s, i, d, _, hrun, levels_spec hinv, ?_⟩
  have h := fib_le_count T hinv.2.2.1
  have hsz : s.getSize = (T.count : Int) := hinv.2.2.2.2
  rw [hsz]
  exact_mod_cast h

end AVL
